import Mathlib

/-!
# SIMD kernels of `internal/math32` (golc)

A shallow embedding of the six C kernels

* `_dot_product_avx512`, `_squared_l2_avx512`  (`floats_avx512.c`)
* `_dot_product_avx`, `_squared_l2_avx`        (`floats_avx.c`)
* `_dot_product_neon`, `_squared_l2_neon`      (`floats_neon.c`)

## Modelling conventions

* `float` is an arbitrary type `α` carrying `0`, `+`, `-`, `*`.  The kernels are
  written once, generically; properties "with arithmetic read exactly" are
  proved for every commutative ring (so in particular for `ℚ`).
* `long` values are mathematical integers (`Int`); C's truncating `/` and `%`
  are `Int.tdiv` and `Int.tmod`.  The narrowing to `int` in
  `_dot_product_neon` is modelled by `toInt32` (two's complement wrap, the
  behaviour documented by GCC and Clang).
* The caller's memory is a `Machine`: the two input buffers, the result cell
  and a chronological log of every access to caller-visible memory.  The
  result pointer is assumed not to alias the input buffers.
* A load outside a buffer, an out-of-range index into a local array and a
  signed overflow are undefined behaviour in C; the model reports them as an
  error (`Except Fault`).
* In a statement such as `*result += vec1[i] * vec2[i]` C leaves the order of
  the operand reads unspecified; the model reads the right-hand side first,
  then the result cell, then stores.
-/

namespace Math32

/-! ## Faults, accesses, buffers -/

/-- The ways a kernel can leave defined behaviour. -/
inductive Fault
  | outOfBounds
  | overflow
  deriving DecidableEq, Repr

/-- The two input pointers of a kernel (first and second parameter). -/
inductive Operand
  | vec1
  | vec2
  deriving DecidableEq, Repr

/-- One access to caller-visible memory.  `vload p off w` is one wide
(unaligned) load of `w` consecutive floats starting at element offset `off`
of operand `p`; `load p off` is one scalar load. -/
inductive Access
  | vload (p : Operand) (off : Int) (w : Nat)
  | load (p : Operand) (off : Int)
  | loadResult
  | storeResult
  deriving DecidableEq, Repr

/-- A caller-owned buffer: `len` readable floats, element `i` being `elems i`.
A null (or otherwise unreadable) pointer is a buffer with `len = 0`. -/
structure Buf (α : Type) where
  len : Nat
  elems : Nat → α

/-- The caller-visible memory during one call, with the access log. -/
structure Machine (α : Type) where
  vec1 : Buf α
  vec2 : Buf α
  result : α
  trace : List Access

/-- The machine on entry to a kernel: inputs `a`, `b`, result cell holding
`r0`, nothing accessed yet. -/
def Machine.init {α : Type} (a b : Buf α) (r0 : α) : Machine α :=
  { vec1 := a, vec2 := b, result := r0, trace := [] }

/-- The buffer an operand points to. -/
def Machine.buf {α : Type} (m : Machine α) : Operand → Buf α
  | .vec1 => m.vec1
  | .vec2 => m.vec2

/-- Computations of a kernel: they may fault, and they thread the machine. -/
def K (α β : Type) : Type := Machine α → Except Fault (β × Machine α)

/-- Sequencing of kernel computations. -/
def K.bind {α β γ : Type} (x : K α β) (f : β → K α γ) : K α γ :=
  fun m =>
    match x m with
    | .error e => .error e
    | .ok (v, m') => f v m'

/-- A computation that touches nothing. -/
def K.pure {α β : Type} (v : β) : K α β := fun m => .ok (v, m)

instance {α : Type} : Monad (K α) where
  pure := K.pure
  bind := K.bind

/-- Undefined behaviour. -/
def K.fault {α β : Type} (e : Fault) : K α β := fun _ => .error e

/-- A register of `W` float lanes (`__m512`, `__m256`, `float32x4_t`,
`float32x2_t`), also used for the small local arrays the registers are
stored to. -/
abbrev Lanes (W : Nat) (α : Type) : Type := Fin W → α

/-! ## Memory operations -/

/-- Scalar load `p[off]`. -/
def load {α : Type} (p : Operand) (off : Int) : K α α :=
  fun m =>
    if 0 ≤ off ∧ off < (m.buf p).len then
      .ok ((m.buf p).elems off.toNat, { m with trace := m.trace ++ [.load p off] })
    else .error .outOfBounds

/-- Wide load of `W` consecutive floats at `p + off`
(`_mm512_loadu_ps`, `_mm256_loadu_ps`, `vld1q_f32`). -/
def vload {α : Type} (W : Nat) (p : Operand) (off : Int) : K α (Lanes W α) :=
  fun m =>
    if 0 ≤ off ∧ off + W ≤ (m.buf p).len then
      .ok (fun j => (m.buf p).elems (off.toNat + j.val),
        { m with trace := m.trace ++ [.vload p off W] })
    else .error .outOfBounds

/-- Read of the result cell, `*result` as an rvalue. -/
def loadResult {α : Type} : K α α :=
  fun m => .ok (m.result, { m with trace := m.trace ++ [.loadResult] })

/-- Store to the result cell, `*result = v`. -/
def storeResult {α : Type} (v : α) : K α Unit :=
  fun m => .ok ((), { m with result := v, trace := m.trace ++ [.storeResult] })

/-- Element `i` of a local array of `W` floats (`vec[i]`, `temp[j]`). -/
def index {α : Type} {W : Nat} (v : Lanes W α) (i : Int) : K α α :=
  if h : 0 ≤ i ∧ i < W then K.pure (v ⟨i.toNat, by omega⟩)
  else K.fault .outOfBounds

/-! ## Register operations (lane-wise) -/

section Registers
variable {α : Type} {W : Nat}

/-- Lane-wise zero: `_mm512_setzero_ps`, `_mm256_setzero_ps`. -/
def setzero_ps [Zero α] : Lanes W α := fun _ => 0

/-- Lane-wise sum: `_mm512_add_ps`, `_mm256_add_ps`. -/
def add_ps [Add α] (x y : Lanes W α) : Lanes W α := fun j => x j + y j

/-- Lane-wise difference: `_mm512_sub_ps`, `_mm256_sub_ps`. -/
def sub_ps [Sub α] (x y : Lanes W α) : Lanes W α := fun j => x j - y j

/-- Lane-wise product: `_mm512_mul_ps`, `_mm256_mul_ps`. -/
def mul_ps [Mul α] (x y : Lanes W α) : Lanes W α := fun j => x j * y j

/-- All four lanes set to `x`: `vdupq_n_f32(x)`. -/
def vdupq_n_f32 (x : α) : Lanes 4 α := fun _ => x

/-- Lane-wise sum of two quad registers: `vaddq_f32`. -/
def vaddq_f32 [Add α] (x y : Lanes 4 α) : Lanes 4 α := fun j => x j + y j

/-- Lane-wise sum of two double registers: `vadd_f32`. -/
def vadd_f32 [Add α] (x y : Lanes 2 α) : Lanes 2 α := fun j => x j + y j

/-- Lane-wise difference of two quad registers: `vsubq_f32`. -/
def vsubq_f32 [Sub α] (x y : Lanes 4 α) : Lanes 4 α := fun j => x j - y j

/-- Multiply-accumulate `vmlaq_f32(acc, x, y)`: lane-wise `acc + x * y`. -/
def vmlaq_f32 [Add α] [Mul α] (acc x y : Lanes 4 α) : Lanes 4 α :=
  fun j => acc j + x j * y j

/-- Lane `lane` of a quad register: `vgetq_lane_f32(v, lane)`. -/
def vgetq_lane_f32 (v : Lanes 4 α) (lane : Fin 4) : α := v lane

/-- Lane `lane` of a double register: `vget_lane_f32(v, lane)`. -/
def vget_lane_f32 (v : Lanes 2 α) (lane : Fin 2) : α := v lane

/-- Replace lane `lane` of `v` by `x`: `vsetq_lane_f32(x, v, lane)`. -/
def vsetq_lane_f32 (x : α) (v : Lanes 4 α) (lane : Fin 4) : Lanes 4 α :=
  fun j => if j = lane then x else v j

/-- Pairwise add `vpaddq_f32(x, y)`: adjacent lanes of `x`, then of `y`. -/
def vpaddq_f32 [Add α] (x y : Lanes 4 α) : Lanes 4 α :=
  fun j =>
    match j with
    | 0 => x 0 + x 1
    | 1 => x 2 + x 3
    | 2 => y 0 + y 1
    | 3 => y 2 + y 3

/-- Low half of a quad register: `vget_low_f32`. -/
def vget_low_f32 (v : Lanes 4 α) : Lanes 2 α :=
  fun j =>
    match j with
    | 0 => v 0
    | 1 => v 1

/-- High half of a quad register: `vget_high_f32`. -/
def vget_high_f32 (v : Lanes 4 α) : Lanes 2 α :=
  fun j =>
    match j with
    | 0 => v 2
    | 1 => v 3

end Registers

/-! ## Machine integers -/

/-- Conversion of a `long` to `int`: wrap to `[-2^31, 2^31)`. -/
def toInt32 (x : Int) : Int := (x + 2147483648) % 4294967296 - 2147483648

/-- `LONG_MIN` of an LP64 target. -/
abbrev LONG_MIN : Int := -9223372036854775808

/-! ## `floats_avx512.c` -/

section Kernels
variable {α : Type} [Zero α] [Add α] [Sub α] [Mul α]

set_option linter.unusedVariables false

/-- The bulk loop of `_dot_product_avx512`:
`for (long i = 0; i < vectorized_end; i += 16) { ... }`, entered with the
current `i` and accumulator `res`. -/
def _dot_product_avx512.bulk (vectorized_end : Int) (i : Int) (res : Lanes 16 α) :
    K α (Lanes 16 α) :=
  if h : i < vectorized_end then do
    let float1 ← vload 16 .vec1 i
    let float2 ← vload 16 .vec2 i
    let mult := mul_ps float1 float2
    _dot_product_avx512.bulk vectorized_end (i + 16) (add_ps res mult)
  else pure res
termination_by (vectorized_end - i).toNat
decreasing_by omega

/-- The lane loop of `_dot_product_avx512`:
`for (int i = 0; i<16; i++) { *result+= vec[i]; }`. -/
def _dot_product_avx512.lanes (vec : Lanes 16 α) (i : Int) : K α Unit :=
  if h : i < 16 then do
    let x ← index vec i
    let r ← loadResult
    storeResult (r + x)
    _dot_product_avx512.lanes vec (i + 1)
  else pure ()
termination_by (16 - i).toNat
decreasing_by omega

/-- The leftover loop of `_dot_product_avx512`:
`for (long i = vectorized_end; i < n; ++i) { *result += vec1[i] * vec2[i]; }`. -/
def _dot_product_avx512.leftover (n : Int) (i : Int) : K α Unit :=
  if h : i < n then do
    let x ← load .vec1 i
    let y ← load .vec2 i
    let r ← loadResult
    storeResult (r + x * y)
    _dot_product_avx512.leftover n (i + 1)
  else pure ()
termination_by (n - i).toNat
decreasing_by omega

/-- The kernel `_dot_product_avx512(vec1, vec2, n, result)`. -/
def _dot_product_avx512 (n : Int) : K α Unit := do
  let res : Lanes 16 α := setzero_ps
  let vectorized_end := n - Int.tmod n 16
  let res ← _dot_product_avx512.bulk vectorized_end 0 res
  let vec : Lanes 16 α := res
  storeResult 0
  _dot_product_avx512.lanes vec 0
  _dot_product_avx512.leftover n vectorized_end

/-- The bulk loop of `_squared_l2_avx512`: `for(i=0; i<n/16; i++) { ... }`,
entered with the current `i` and accumulator `sum`; `count` is `n/16`.
Returns the final `i` (it is used by the leftover loop) and `sum`. -/
def _squared_l2_avx512.bulk (count : Int) (i : Int) (sum : Lanes 16 α) :
    K α (Int × Lanes 16 α) :=
  if h : i < count then do
    let v1 ← vload 16 .vec1 (i * 16)
    let v2 ← vload 16 .vec2 (i * 16)
    let diff := sub_ps v1 v2
    let sq := mul_ps diff diff
    _squared_l2_avx512.bulk count (i + 1) (add_ps sum sq)
  else pure (i, sum)
termination_by (count - i).toNat
decreasing_by omega

/-- The leftover loop of `_squared_l2_avx512`:
`for(long j=i*16; j<n; j++) { float diff = vec1[j] - vec2[j]; total += diff * diff; }`. -/
def _squared_l2_avx512.leftover (n : Int) (j : Int) (total : α) : K α α :=
  if h : j < n then do
    let x ← load .vec1 j
    let y ← load .vec2 j
    let diff := x - y
    _squared_l2_avx512.leftover n (j + 1) (total + diff * diff)
  else pure total
termination_by (n - j).toNat
decreasing_by omega

/-- The kernel `_squared_l2_avx512(vec1, vec2, n, result)`. -/
def _squared_l2_avx512 (n : Int) : K α Unit := do
  let sum : Lanes 16 α := setzero_ps
  let (i, sum) ← _squared_l2_avx512.bulk (Int.tdiv n 16) 0 sum
  let temp : Lanes 16 α := sum
  let total := temp 0 + temp 1 + temp 2 + temp 3 + temp 4 + temp 5 + temp 6 + temp 7
    + temp 8 + temp 9 + temp 10 + temp 11 + temp 12 + temp 13 + temp 14 + temp 15
  let total ← _squared_l2_avx512.leftover n (i * 16) total
  storeResult total

/-! ## `floats_avx.c` -/

/-- The bulk loop of `_dot_product_avx`:
`for (i = 0; i < n - (n % 8); i += 8) { ... }`.  Returns the final `i` and
the accumulator. -/
def _dot_product_avx.bulk (n : Int) (i : Int) (sumvec : Lanes 8 α) :
    K α (Int × Lanes 8 α) :=
  if h : i < n - Int.tmod n 8 then do
    let avec ← vload 8 .vec1 i
    let bvec ← vload 8 .vec2 i
    let mult := mul_ps avec bvec
    _dot_product_avx.bulk n (i + 8) (add_ps sumvec mult)
  else pure (i, sumvec)
termination_by (n - Int.tmod n 8 - i).toNat
decreasing_by omega

/-- The lane loop of `_dot_product_avx`:
`for (int j = 0; j < 8; j++) { *res += temp[j]; }`. -/
def _dot_product_avx.lanes (temp : Lanes 8 α) (j : Int) : K α Unit :=
  if h : j < 8 then do
    let x ← index temp j
    let r ← loadResult
    storeResult (r + x)
    _dot_product_avx.lanes temp (j + 1)
  else pure ()
termination_by (8 - j).toNat
decreasing_by omega

/-- The leftover loop of `_dot_product_avx`:
`for (; i < n; i++) { *res += a[i] * b[i]; }`. -/
def _dot_product_avx.leftover (n : Int) (i : Int) : K α Unit :=
  if h : i < n then do
    let x ← load .vec1 i
    let y ← load .vec2 i
    let r ← loadResult
    storeResult (r + x * y)
    _dot_product_avx.leftover n (i + 1)
  else pure ()
termination_by (n - i).toNat
decreasing_by omega

/-- The kernel `_dot_product_avx(a, b, n, res)`. -/
def _dot_product_avx (n : Int) : K α Unit := do
  let sumvec : Lanes 8 α := setzero_ps
  let (i, sumvec) ← _dot_product_avx.bulk n 0 sumvec
  let temp : Lanes 8 α := sumvec
  _dot_product_avx.lanes temp 0
  _dot_product_avx.leftover n i

/-- The bulk loop of `_squared_l2_avx`:
`for (; i < n - (n % 8); i += 8) { ... }`.  Returns the final `i` and the
accumulator. -/
def _squared_l2_avx.bulk (n : Int) (i : Int) (res : Lanes 8 α) :
    K α (Int × Lanes 8 α) :=
  if h : i < n - Int.tmod n 8 then do
    let vec1_8 ← vload 8 .vec1 i
    let vec2_8 ← vload 8 .vec2 i
    let diff := sub_ps vec1_8 vec2_8
    let sqrd_diff := mul_ps diff diff
    _squared_l2_avx.bulk n (i + 8) (add_ps res sqrd_diff)
  else pure (i, res)
termination_by (n - Int.tmod n 8 - i).toNat
decreasing_by omega

/-- The residual loop of `_squared_l2_avx`:
`for (; i < n; i++) { float diff = vec1[i] - vec2[i]; sum += diff * diff; }`. -/
def _squared_l2_avx.leftover (n : Int) (i : Int) (sum : α) : K α α :=
  if h : i < n then do
    let x ← load .vec1 i
    let y ← load .vec2 i
    let diff := x - y
    _squared_l2_avx.leftover n (i + 1) (sum + diff * diff)
  else pure sum
termination_by (n - i).toNat
decreasing_by omega

/-- The lane loop of `_squared_l2_avx`:
`for (int j = 0; j < 8; j++) { sum += temp[j]; }`. -/
def _squared_l2_avx.lanes (temp : Lanes 8 α) (j : Int) (sum : α) : K α α :=
  if h : j < 8 then do
    let x ← index temp j
    _squared_l2_avx.lanes temp (j + 1) (sum + x)
  else pure sum
termination_by (8 - j).toNat
decreasing_by omega

/-- The kernel `_squared_l2_avx(vec1, vec2, n, result)`. -/
def _squared_l2_avx (n : Int) : K α Unit := do
  let res : Lanes 8 α := setzero_ps
  let i : Int := 0
  let (i, res) ← _squared_l2_avx.bulk n i res
  let temp : Lanes 8 α := res
  let sum : α := 0
  let sum ← _squared_l2_avx.leftover n i sum
  let sum ← _squared_l2_avx.lanes temp 0 sum
  storeResult sum

/-! ## `floats_neon.c` -/

/-- The unrolled loop of `_dot_product_neon`:
`for (int i = 0; i < epoch; ++i) { ... }`.  The parameters `a` and `b` of
the C function are advanced by the loop; they are kept as element offsets
from the caller's pointers.  Returns the offsets and both accumulators. -/
def _dot_product_neon.bulk (epoch : Int) (i : Int) (a b : Int) (sum1 sum2 : Lanes 4 α) :
    K α (Int × Int × Lanes 4 α × Lanes 4 α) :=
  if h : i < epoch then do
    let v1 ← vload 4 .vec1 a
    let v2 ← vload 4 .vec2 b
    let sum1 := vmlaq_f32 sum1 v1 v2
    let a := a + 4
    let b := b + 4
    let v1 ← vload 4 .vec1 a
    let v2 ← vload 4 .vec2 b
    let sum2 := vmlaq_f32 sum2 v1 v2
    let a := a + 4
    let b := b + 4
    _dot_product_neon.bulk epoch (i + 1) a b sum1 sum2
  else pure (a, b, sum1, sum2)
termination_by (epoch - i).toNat
decreasing_by omega

/-- The remainder loop of `_dot_product_neon`:
`for (int i = 0; i < remain; ++i) { remain_sum += a[i] * b[i]; }`. -/
def _dot_product_neon.leftover (remain : Int) (a b : Int) (i : Int) (remain_sum : α) :
    K α α :=
  if h : i < remain then do
    let x ← load .vec1 (a + i)
    let y ← load .vec2 (b + i)
    _dot_product_neon.leftover remain a b (i + 1) (remain_sum + x * y)
  else pure remain_sum
termination_by (remain - i).toNat
decreasing_by omega

/-- The kernel `_dot_product_neon(a, b, n, result)`. -/
def _dot_product_neon (n : Int) : K α Unit := do
  let epoch := toInt32 (Int.tdiv n 8)
  let remain := toInt32 (Int.tmod n 8)
  let sum1 : Lanes 4 α := vdupq_n_f32 0
  let sum2 : Lanes 4 α := vdupq_n_f32 0
  let (a, b, sum1, sum2) ← _dot_product_neon.bulk epoch 0 0 0 sum1 sum2
  let remain_sum : α := 0
  let remain_sum ← _dot_product_neon.leftover remain a b 0 remain_sum
  let sum1 := vsetq_lane_f32 (vgetq_lane_f32 sum1 0 + remain_sum) sum1 0
  let sum1 := vaddq_f32 sum1 sum2
  let sum1 := vpaddq_f32 sum1 sum1
  let sum1 := vpaddq_f32 sum1 sum1
  let sum2_lanes := vget_low_f32 sum1
  storeResult (vget_lane_f32 sum2_lanes 0)

/-- The quad loop of `_squared_l2_neon`: `while (quadCount--) { ... }`,
entered with the current `quadCount` and pointer offsets.  The decrement of
`LONG_MIN` overflows. -/
def _squared_l2_neon.bulk (quadCount : Int) (a b : Int) (sumQuad : Lanes 4 α) :
    K α (Int × Int × Lanes 4 α) :=
  if h0 : quadCount = 0 then pure (a, b, sumQuad)
  else if h1 : quadCount ≤ LONG_MIN then K.fault .overflow
  else do
    let aQuad ← vload 4 .vec1 a
    let bQuad ← vload 4 .vec2 b
    let diffQuad := vsubq_f32 aQuad bQuad
    let sumQuad := vmlaq_f32 sumQuad diffQuad diffQuad
    _squared_l2_neon.bulk (quadCount - 1) (a + 4) (b + 4) sumQuad
termination_by (quadCount - LONG_MIN).toNat
decreasing_by omega

/-- The scalar loop of `_squared_l2_neon`:
`for (; remainder; --remainder) { float diff = *a++ - *b++; sum += diff * diff; }`. -/
def _squared_l2_neon.leftover (remainder : Int) (a b : Int) (sum : α) : K α α :=
  if h0 : remainder = 0 then pure sum
  else do
    let x ← load .vec1 a
    let y ← load .vec2 b
    let diff := x - y
    let sum := sum + diff * diff
    if h1 : remainder ≤ LONG_MIN then K.fault .overflow
    else _squared_l2_neon.leftover (remainder - 1) (a + 1) (b + 1) sum
termination_by (remainder - LONG_MIN).toNat
decreasing_by omega

/-- The kernel `_squared_l2_neon(a, b, n, result)`. -/
def _squared_l2_neon (n : Int) : K α Unit := do
  let sumQuad : Lanes 4 α := vdupq_n_f32 0
  let quadCount := Int.tdiv n 4
  let remainder := Int.tmod n 4
  let (a, b, sumQuad) ← _squared_l2_neon.bulk quadCount 0 0 sumQuad
  let sumDouble := vadd_f32 (vget_low_f32 sumQuad) (vget_high_f32 sumQuad)
  let sum := vget_lane_f32 sumDouble 0 + vget_lane_f32 sumDouble 1
  let sum ← _squared_l2_neon.leftover remainder a b sum
  storeResult sum

end Kernels

/-! ## Running a kernel, and what is read off a run -/

section Observations
variable {α : Type}

/-- A call of kernel `k` with inputs `a`, `b` and the result cell holding
`r0` on entry. -/
def run (k : K α Unit) (a b : Buf α) (r0 : α) : Except Fault (Unit × Machine α) :=
  k (Machine.init a b r0)

/-- The content of the result cell after the call (`none` if the call faults). -/
def outcome (k : K α Unit) (a b : Buf α) (r0 : α) : Option α :=
  match run k a b r0 with
  | .ok (_, m) => some m.result
  | .error _ => none

/-- The accesses made by the call, in order (`none` if the call faults). -/
def accesses (k : K α Unit) (a b : Buf α) (r0 : α) : Option (List Access) :=
  match run k a b r0 with
  | .ok (_, m) => some m.trace
  | .error _ => none

/-- The element indices of operand `p` covered by one access when it is a
wide load. -/
def Access.wide (p : Operand) : Access → List Int
  | .vload q off w => if q = p then (List.range w).map (fun (j : Nat) => off + (j : Int)) else []
  | _ => []

/-- The element index of operand `p` read by one access when it is a scalar
load. -/
def Access.scalar (p : Operand) : Access → List Int
  | .load q off => if q = p then [off] else []
  | _ => []

/-- Whether an access is a load from an input buffer. -/
def Access.isInput : Access → Bool
  | .vload _ _ _ => true
  | .load _ _ => true
  | _ => false

/-- Whether an access is a wide load. -/
def Access.isWide : Access → Bool
  | .vload _ _ _ => true
  | _ => false

/-- Whether an access touches the result cell. -/
def Access.isResult : Access → Bool
  | .loadResult => true
  | .storeResult => true
  | _ => false

/-- The indices of operand `p` read by wide loads, in the order read. -/
def wideIndices (p : Operand) (t : List Access) : List Int :=
  t.flatMap (Access.wide p)

/-- The indices of operand `p` read by scalar loads, in the order read. -/
def scalarIndices (p : Operand) (t : List Access) : List Int :=
  t.flatMap (Access.scalar p)

/-- The accesses to the result cell, in order. -/
def resultAccesses (t : List Access) : List Access := t.filter Access.isResult

/-- The integers `lo, lo+1, ..., lo+len-1`. -/
def span (lo len : Nat) : List Int := (List.range' lo len).map (fun (i : Nat) => (i : Int))

/-- The number of wide loads in a log. -/
def wideLoads (t : List Access) : Nat := t.countP Access.isWide

/-- The number of loads from the input buffers in a log. -/
def inputLoads (t : List Access) : Nat := t.countP Access.isInput

/-- A log in which the wide loads cover exactly the indices `[0, n - n mod W)`
of both operands and the scalar loads exactly `[n - n mod W, n)`, each index in
order and once; no wide load when `n < W`, at least one when `W ≤ n`. -/
def SplitAt (W n : Nat) (t : List Access) : Prop :=
  (∀ p : Operand, wideIndices p t = span 0 (n - n % W)
      ∧ scalarIndices p t = span (n - n % W) (n % W))
    ∧ (n < W → wideLoads t = 0) ∧ (W ≤ n → 0 < wideLoads t)

/-- A log with exactly one store to the result cell, as its last access, and
no read of the result cell. -/
def StoresOnceAtEnd (t : List Access) : Prop :=
  t.count .storeResult = 1 ∧ t.count .loadResult = 0 ∧ t.getLast? = some .storeResult

/-- The machine after the accesses `t` have been logged. -/
def Machine.log (m : Machine α) (t : List Access) : Machine α :=
  { m with trace := m.trace ++ t }

/-- The machine after the result cell has been overwritten. -/
def Machine.put (m : Machine α) (v : α) : Machine α :=
  { m with result := v }

/-- A buffer holding the elements of a list. -/
def Buf.ofList [Zero α] (l : List α) : Buf α :=
  { len := l.length, elems := fun i => l.getD i 0 }

/-- A buffer with no readable element (for instance a null pointer). -/
def Buf.null [Zero α] : Buf α := { len := 0, elems := fun _ => 0 }

/-- The buffer `a` with every element multiplied by `k`. -/
def Buf.scale [Mul α] (k : α) (a : Buf α) : Buf α :=
  { len := a.len, elems := fun i => k * a.elems i }

/-- The sum of all lanes of a register. -/
def hsum [AddCommMonoid α] {W : Nat} (v : Lanes W α) : α := ∑ j, v j

/-- Lane `i` of a register, for a natural-number index (`0` outside it). -/
def laneAt [Zero α] {W : Nat} (v : Lanes W α) (i : Nat) : α :=
  if h : i < W then v ⟨i, h⟩ else 0

/-- The scalar reference dot product `Σ_{i<n} a[i] * b[i]`. -/
def dotRef [Semiring α] (a b : Buf α) (n : Nat) : α :=
  ∑ i in Finset.range n, a.elems i * b.elems i

/-- The scalar reference squared distance `Σ_{i<n} (a[i] - b[i])^2`. -/
def l2Ref [Ring α] (a b : Buf α) (n : Nat) : α :=
  ∑ i in Finset.range n, (a.elems i - b.elems i) ^ 2

/-- The accesses of `r` consecutive iterations of a bulk loop of lane width
`W`, starting with chunk number `c`. -/
def bulkTrace (W : Nat) : Nat → Nat → List Access
  | _, 0 => []
  | c, r + 1 =>
    .vload .vec1 (W * c : Nat) W :: .vload .vec2 (W * c : Nat) W :: bulkTrace W (c + 1) r

/-- The accesses of `r` consecutive iterations of a scalar loop starting at
index `s`, keeping its running sum in a local variable. -/
def scalarTrace : Nat → Nat → List Access
  | _, 0 => []
  | s, r + 1 => .load .vec1 (s : Nat) :: .load .vec2 (s : Nat) :: scalarTrace (s + 1) r

/-- The accesses of `r` consecutive iterations of a scalar loop starting at
index `s`, accumulating through the result pointer. -/
def scalarTraceVia : Nat → Nat → List Access
  | _, 0 => []
  | s, r + 1 =>
    .load .vec1 (s : Nat) :: .load .vec2 (s : Nat) :: .loadResult :: .storeResult
      :: scalarTraceVia (s + 1) r

/-- The accesses of `r` read-modify-write updates of the result cell. -/
def updates : Nat → List Access
  | 0 => []
  | r + 1 => .loadResult :: .storeResult :: updates r

/-- The discipline of the kernels towards the result cell and the inputs,
for a call with length `n`, inputs `a`, `b` and prior content `r0`: the call
returns; the inputs are unchanged; `_squared_l2_avx512`, `_squared_l2_avx`,
`_dot_product_neon` and `_squared_l2_neon` store to the result cell once, as
their last access, and never read it; `_dot_product_avx512` stores `0` and
then updates the cell `16 + n mod 16` times (read, then store);
`_dot_product_avx` makes `8 + n mod 8` stores, the last access being a store. -/
def ResultCellDiscipline {α : Type} [Zero α] [Add α] [Sub α] [Mul α]
    (n : Nat) (a b : Buf α) (r0 : α) : Prop :=
  (∃ m, run (_squared_l2_avx512 (n : Int)) a b r0 = .ok ((), m)
      ∧ m.vec1 = a ∧ m.vec2 = b ∧ StoresOnceAtEnd m.trace)
    ∧ (∃ m, run (_squared_l2_avx (n : Int)) a b r0 = .ok ((), m)
      ∧ m.vec1 = a ∧ m.vec2 = b ∧ StoresOnceAtEnd m.trace)
    ∧ (∃ m, run (_dot_product_neon (n : Int)) a b r0 = .ok ((), m)
      ∧ m.vec1 = a ∧ m.vec2 = b ∧ StoresOnceAtEnd m.trace)
    ∧ (∃ m, run (_squared_l2_neon (n : Int)) a b r0 = .ok ((), m)
      ∧ m.vec1 = a ∧ m.vec2 = b ∧ StoresOnceAtEnd m.trace)
    ∧ (∃ m, run (_dot_product_avx512 (n : Int)) a b r0 = .ok ((), m)
      ∧ m.vec1 = a ∧ m.vec2 = b
      ∧ resultAccesses m.trace = .storeResult :: updates (16 + n % 16)
      ∧ m.trace.getLast? = some .storeResult)
    ∧ (∃ m, run (_dot_product_avx (n : Int)) a b r0 = .ok ((), m)
      ∧ m.vec1 = a ∧ m.vec2 = b
      ∧ m.trace.count .storeResult = 8 + n % 8
      ∧ m.trace.getLast? = some .storeResult)

/-- The split of the index range between the vector loop and the scalar
loop, for a call with length `n`: at `n - n mod 16` for the AVX-512 kernels,
at `n - n mod 8` for the AVX kernels, at `n - n mod 4` for `_squared_l2_neon`,
and, when `n < 2^34`, at `n - n mod 8` for `_dot_product_neon`, whose loop
takes two 4-lane chunks per iteration. -/
def IndexSplit {α : Type} [Zero α] [Add α] [Sub α] [Mul α]
    (n : Nat) (a b : Buf α) (r0 : α) : Prop :=
  (∃ t, accesses (_dot_product_avx512 (n : Int)) a b r0 = some t ∧ SplitAt 16 n t)
    ∧ (∃ t, accesses (_squared_l2_avx512 (n : Int)) a b r0 = some t ∧ SplitAt 16 n t)
    ∧ (∃ t, accesses (_dot_product_avx (n : Int)) a b r0 = some t ∧ SplitAt 8 n t)
    ∧ (∃ t, accesses (_squared_l2_avx (n : Int)) a b r0 = some t ∧ SplitAt 8 n t)
    ∧ (∃ t, accesses (_squared_l2_neon (n : Int)) a b r0 = some t ∧ SplitAt 4 n t)
    ∧ (n < 17179869184 →
        ∃ t, accesses (_dot_product_neon (n : Int)) a b r0 = some t ∧ SplitAt 8 n t)

/-- The product `a[i] * b[i]`, the term of the dot product. -/
def prodAt [Mul α] (a b : Buf α) (i : Nat) : α := a.elems i * b.elems i

/-- The squared difference `(a[i] - b[i]) * (a[i] - b[i])`, the term of the
squared distance. -/
def sqDiffAt [Sub α] [Mul α] (a b : Buf α) (i : Nat) : α :=
  (a.elems i - b.elems i) * (a.elems i - b.elems i)

/-- The accumulator register after `r` further chunks of terms `g`, starting
with chunk number `c`: chunk by chunk, lane `j` receives `g (W * c + j)`. -/
def chunkAcc [Add α] {W : Nat} (g : Nat → α) : Nat → Nat → Lanes W α → Lanes W α
  | _, 0, acc => acc
  | c, r + 1, acc => chunkAcc g (c + 1) r (fun j => acc j + g (W * c + j.val))

/-- The two accumulator registers of `_dot_product_neon` after `r` further
iterations, starting with iteration number `c`: the first register receives
the chunk at `8 * c`, the second the chunk at `8 * c + 4`. -/
def chunkAcc2 [Add α] (g : Nat → α) :
    Nat → Nat → Lanes 4 α × Lanes 4 α → Lanes 4 α × Lanes 4 α
  | _, 0, acc => acc
  | c, r + 1, acc =>
    chunkAcc2 g (c + 1) r
      (fun j => acc.1 j + g (8 * c + j.val), fun j => acc.2 j + g (8 * c + 4 + j.val))

/-- The scalar `acc` after the terms `g s, g (s+1), ..., g (s+r-1)` have been
added to it, one by one, in this order. -/
def scalarAcc [Add α] (g : Nat → α) : Nat → Nat → α → α
  | _, 0, acc => acc
  | s, r + 1, acc => scalarAcc g (s + 1) r (acc + g s)

/-- The scalar `acc` after the lanes `k, k+1, ..., k+d-1` of `v` have been
added to it, one by one, in this order. -/
def laneAcc [Zero α] [Add α] {W : Nat} (v : Lanes W α) : Nat → Nat → α → α
  | _, 0, acc => acc
  | k, d + 1, acc => laneAcc v (k + 1) d (acc + laneAt v k)

/-- The sum of sixteen lanes as written in `_squared_l2_avx512`:
`temp[0] + temp[1] + ... + temp[15]`, associated to the left. -/
def sum16 [Add α] (temp : Lanes 16 α) : α :=
  temp 0 + temp 1 + temp 2 + temp 3 + temp 4 + temp 5 + temp 6 + temp 7
    + temp 8 + temp 9 + temp 10 + temp 11 + temp 12 + temp 13 + temp 14 + temp 15

/-- The reduction at the end of `_squared_l2_neon`: the low and the high half
are added lane-wise, then the two lanes of the result. -/
def neonPairSum [Add α] (sumQuad : Lanes 4 α) : α :=
  vget_lane_f32 (vadd_f32 (vget_low_f32 sumQuad) (vget_high_f32 sumQuad)) 0
    + vget_lane_f32 (vadd_f32 (vget_low_f32 sumQuad) (vget_high_f32 sumQuad)) 1

/-- The reduction at the end of `_dot_product_neon`: `remain_sum` is added
into lane 0 of `sum1`, the two registers are added lane-wise, and two
pairwise adds leave the total in lane 0. -/
def neonInject [Add α] (sum1 sum2 : Lanes 4 α) (remain_sum : α) : α :=
  vget_lane_f32 (vget_low_f32 (vpaddq_f32
    (vpaddq_f32 (vaddq_f32 (vsetq_lane_f32 (vgetq_lane_f32 sum1 0 + remain_sum) sum1 0) sum2)
      (vaddq_f32 (vsetq_lane_f32 (vgetq_lane_f32 sum1 0 + remain_sum) sum1 0) sum2))
    (vpaddq_f32 (vaddq_f32 (vsetq_lane_f32 (vgetq_lane_f32 sum1 0 + remain_sum) sum1 0) sum2)
      (vaddq_f32 (vsetq_lane_f32 (vgetq_lane_f32 sum1 0 + remain_sum) sum1 0) sum2)))) 0

/-- Symbolic floats: expressions built from the input elements with the
operations of the kernels, none of which is assumed to obey any law.  The
value a kernel leaves over `Sym` is the exact expression it evaluates. -/
inductive Sym
  | zero
  | elem (p : Operand) (i : Nat)
  | add (x y : Sym)
  | sub (x y : Sym)
  | mul (x y : Sym)
  deriving DecidableEq, Repr

instance : Zero Sym := ⟨Sym.zero⟩

instance : Add Sym := ⟨Sym.add⟩

instance : Sub Sym := ⟨Sym.sub⟩

instance : Mul Sym := ⟨Sym.mul⟩

/-- Whether an expression contains an input element of index `i`. -/
def Sym.mentions (i : Nat) : Sym → Bool
  | .zero => false
  | .elem _ j => i == j
  | .add x y => x.mentions i || y.mentions i
  | .sub x y => x.mentions i || y.mentions i
  | .mul x y => x.mentions i || y.mentions i

/-- All subexpressions of an expression, itself included. -/
def Sym.subterms : Sym → List Sym
  | .zero => [.zero]
  | .elem p i => [.elem p i]
  | .add x y => .add x y :: (x.subterms ++ y.subterms)
  | .sub x y => .sub x y :: (x.subterms ++ y.subterms)
  | .mul x y => .mul x y :: (x.subterms ++ y.subterms)

/-- The buffer of `len` symbolic elements of operand `p`. -/
def Buf.sym (p : Operand) (len : Nat) : Buf Sym :=
  { len := len, elems := fun i => .elem p i }

/-- Whether the expression `t` reduces the lanes before the remainder comes
in: some subexpression holds every element of the bulk indices and no
element of the remainder indices. -/
def reducesLanesFirst (bulk remainder : List Nat) (t : Sym) : Bool :=
  t.subterms.any fun h =>
    bulk.all (fun i => h.mentions i) && remainder.all (fun i => !h.mentions i)

/-- The order in which the kernels add, for a call with length `n`, inputs
`a`, `b` and prior content `r0` of the result cell, in an arithmetic without
laws.  `_dot_product_avx512`, `_squared_l2_avx512`, `_dot_product_avx` (on a
zeroed cell) and `_squared_l2_neon` first reduce the accumulator lanes to one
scalar and then add the remainder terms to it one by one; `_squared_l2_avx`
sums the remainder first and adds the eight lanes to that sum;
`_dot_product_neon` (for `n < 2^34`) adds the remainder sum into lane 0 of its
first accumulator before the lanes are reduced. -/
def AdditionOrder [Zero α] [Add α] [Sub α] [Mul α] (n : Nat) (a b : Buf α) (r0 : α) : Prop :=
  outcome (_dot_product_avx512 (n : Int)) a b r0
      = some (scalarAcc (prodAt a b) (16 * (n / 16)) (n % 16)
          (laneAcc (chunkAcc (prodAt a b) 0 (n / 16) (setzero_ps : Lanes 16 α)) 0 16 0))
    ∧ outcome (_squared_l2_avx512 (n : Int)) a b r0
      = some (scalarAcc (sqDiffAt a b) (16 * (n / 16)) (n % 16)
          (sum16 (chunkAcc (sqDiffAt a b) 0 (n / 16) setzero_ps)))
    ∧ outcome (_dot_product_avx (n : Int)) a b 0
      = some (scalarAcc (prodAt a b) (8 * (n / 8)) (n % 8)
          (laneAcc (chunkAcc (prodAt a b) 0 (n / 8) (setzero_ps : Lanes 8 α)) 0 8 0))
    ∧ outcome (_squared_l2_neon (n : Int)) a b r0
      = some (scalarAcc (sqDiffAt a b) (4 * (n / 4)) (n % 4)
          (neonPairSum (chunkAcc (sqDiffAt a b) 0 (n / 4) (vdupq_n_f32 0))))
    ∧ outcome (_squared_l2_avx (n : Int)) a b r0
      = some (laneAcc (chunkAcc (sqDiffAt a b) 0 (n / 8) (setzero_ps : Lanes 8 α)) 0 8
          (scalarAcc (sqDiffAt a b) (8 * (n / 8)) (n % 8) 0))
    ∧ (n < 17179869184 → outcome (_dot_product_neon (n : Int)) a b r0
      = some (neonInject
          (chunkAcc2 (prodAt a b) 0 (n / 8) (vdupq_n_f32 0, vdupq_n_f32 0)).1
          (chunkAcc2 (prodAt a b) 0 (n / 8) (vdupq_n_f32 0, vdupq_n_f32 0)).2
          (scalarAcc (prodAt a b) (8 * (n / 8)) (n % 8) 0)))

/-- The number of iterations of the vector loop recorded in a log, for a loop
making `loadsPerIteration` wide loads in each iteration. -/
def bulkIterations (loadsPerIteration : Nat) (t : List Access) : Nat :=
  wideLoads t / loadsPerIteration

/-- The number of iterations of the scalar loop recorded in a log: each
iteration makes one scalar load from the first operand. -/
def remainderIterations (t : List Access) : Nat := (scalarIndices .vec1 t).length

/-- Termination with a bound on the work, for a call with length `n`: each
kernel returns, and the iterations of its vector loop (two wide loads each,
four in `_dot_product_neon`) and of its scalar loop number at most `n`
together. -/
def LoopBound [Zero α] [Add α] [Sub α] [Mul α] (n : Nat) (a b : Buf α) (r0 : α) : Prop :=
  (∃ t, accesses (_dot_product_avx512 (n : Int)) a b r0 = some t
      ∧ bulkIterations 2 t + remainderIterations t ≤ n)
    ∧ (∃ t, accesses (_squared_l2_avx512 (n : Int)) a b r0 = some t
      ∧ bulkIterations 2 t + remainderIterations t ≤ n)
    ∧ (∃ t, accesses (_dot_product_avx (n : Int)) a b r0 = some t
      ∧ bulkIterations 2 t + remainderIterations t ≤ n)
    ∧ (∃ t, accesses (_squared_l2_avx (n : Int)) a b r0 = some t
      ∧ bulkIterations 2 t + remainderIterations t ≤ n)
    ∧ (∃ t, accesses (_dot_product_neon (n : Int)) a b r0 = some t
      ∧ bulkIterations 4 t + remainderIterations t ≤ n)
    ∧ (∃ t, accesses (_squared_l2_neon (n : Int)) a b r0 = some t
      ∧ bulkIterations 2 t + remainderIterations t ≤ n)

/-- A call of kernel `k` with length `n` that does no work on the inputs: it
returns, it makes no load from either input buffer (neither loop runs), and
it leaves in the result cell what the call with length `0` leaves. -/
def IdleCall (k : Int → K α Unit) (n : Int) (a b : Buf α) (r0 : α) : Prop :=
  ∃ t v, accesses (k n) a b r0 = some t ∧ inputLoads t = 0
    ∧ outcome (k n) a b r0 = some v ∧ outcome (k 0) a b r0 = some v

/-- The behaviour of the kernels on a negative length `n`: the four x86
kernels are idle for every negative `n`, `_dot_product_neon` for every `n`
with `-2^34 ≤ n < 0`. -/
def IdleOnNegative [Zero α] [Add α] [Sub α] [Mul α] (n : Int) (a b : Buf α) (r0 : α) : Prop :=
  IdleCall _dot_product_avx512 n a b r0
    ∧ IdleCall _squared_l2_avx512 n a b r0
    ∧ IdleCall _dot_product_avx n a b r0
    ∧ IdleCall _squared_l2_avx n a b r0
    ∧ (-17179869184 ≤ n → IdleCall _dot_product_neon n a b r0)

/-- A buffer of `2^34` floats, all `0.0`. -/
def zeros34 : Buf ℚ := { len := 17179869184, elems := fun _ => 0 }

/-- The example vectors of the concrete scenario: `a = [1..9]`, `b = [9..1]`. -/
def a9 : Buf ℚ := Buf.ofList [1, 2, 3, 4, 5, 6, 7, 8, 9]

/-- The second example vector, `[9, 8, ..., 1]`. -/
def b9 : Buf ℚ := Buf.ofList [9, 8, 7, 6, 5, 4, 3, 2, 1]

/-- A buffer of `2^34` floats, all `1.0`. -/
def ones34 : Buf ℚ := { len := 17179869184, elems := fun _ => 1 }

end Observations

/-! ## Basic facts about the machine and the memory operations -/

section Basics
variable {α β γ : Type}

@[simp] theorem Machine.log_log (m : Machine α) (t u : List Access) :
    (m.log t).log u = m.log (t ++ u) := by
  simp [Machine.log]

@[simp] theorem Machine.log_nil (m : Machine α) : m.log [] = m := by
  simp [Machine.log]

@[simp] theorem Machine.log_vec1 (m : Machine α) (t : List Access) :
    (m.log t).vec1 = m.vec1 := rfl

@[simp] theorem Machine.log_vec2 (m : Machine α) (t : List Access) :
    (m.log t).vec2 = m.vec2 := rfl

@[simp] theorem Machine.log_result (m : Machine α) (t : List Access) :
    (m.log t).result = m.result := rfl

@[simp] theorem Machine.log_trace (m : Machine α) (t : List Access) :
    (m.log t).trace = m.trace ++ t := rfl

@[simp] theorem Machine.put_vec1 (m : Machine α) (v : α) : (m.put v).vec1 = m.vec1 := rfl

@[simp] theorem Machine.put_vec2 (m : Machine α) (v : α) : (m.put v).vec2 = m.vec2 := rfl

@[simp] theorem Machine.put_result (m : Machine α) (v : α) : (m.put v).result = v := rfl

@[simp] theorem Machine.put_trace (m : Machine α) (v : α) : (m.put v).trace = m.trace := rfl

@[simp] theorem Machine.put_put (m : Machine α) (v w : α) : (m.put v).put w = m.put w := rfl

@[simp] theorem Machine.log_put (m : Machine α) (t : List Access) (v : α) :
    (m.log t).put v = (m.put v).log t := rfl

theorem Machine.put_self (m : Machine α) : m.put m.result = m := rfl

@[simp] theorem Machine.init_vec1 (a b : Buf α) (r0 : α) : (Machine.init a b r0).vec1 = a := rfl

@[simp] theorem Machine.init_vec2 (a b : Buf α) (r0 : α) : (Machine.init a b r0).vec2 = b := rfl

@[simp] theorem Machine.init_result (a b : Buf α) (r0 : α) :
    (Machine.init a b r0).result = r0 := rfl

@[simp] theorem Machine.init_trace (a b : Buf α) (r0 : α) :
    (Machine.init a b r0).trace = [] := rfl

theorem K.bind_eq {x : K α β} {f : β → K α γ} {m m' : Machine α} {v : β}
    (h : x m = .ok (v, m')) : (x >>= f) m = f v m' := by
  show K.bind x f m = _
  unfold K.bind
  rw [h]

theorem K.pure_eq (v : β) (m : Machine α) : (pure v : K α β) m = .ok (v, m) := rfl

theorem vload_vec1 (W k : Nat) (m : Machine α) (h : k + W ≤ m.vec1.len) :
    vload W .vec1 (k : Int) m
      = .ok (fun j => m.vec1.elems (k + j.val), m.log [.vload .vec1 k W]) := by
  unfold vload
  rw [if_pos ⟨by omega, by simp only [Machine.buf]; omega⟩]
  simp [Machine.log, Machine.buf]

theorem vload_vec2 (W k : Nat) (m : Machine α) (h : k + W ≤ m.vec2.len) :
    vload W .vec2 (k : Int) m
      = .ok (fun j => m.vec2.elems (k + j.val), m.log [.vload .vec2 k W]) := by
  unfold vload
  rw [if_pos ⟨by omega, by simp only [Machine.buf]; omega⟩]
  simp [Machine.log, Machine.buf]

theorem load_vec1 (k : Nat) (m : Machine α) (h : k < m.vec1.len) :
    load .vec1 (k : Int) m = .ok (m.vec1.elems k, m.log [.load .vec1 k]) := by
  unfold load
  rw [if_pos ⟨by omega, by simp only [Machine.buf]; omega⟩]
  simp [Machine.log, Machine.buf]

theorem load_vec2 (k : Nat) (m : Machine α) (h : k < m.vec2.len) :
    load .vec2 (k : Int) m = .ok (m.vec2.elems k, m.log [.load .vec2 k]) := by
  unfold load
  rw [if_pos ⟨by omega, by simp only [Machine.buf]; omega⟩]
  simp [Machine.log, Machine.buf]

theorem loadResult_eq (m : Machine α) :
    loadResult m = .ok (m.result, m.log [.loadResult]) := rfl

theorem storeResult_eq (v : α) (m : Machine α) :
    storeResult v m = .ok ((), (m.put v).log [.storeResult]) := rfl

theorem index_eq {W : Nat} (v : Lanes W α) (k : Nat) (h : k < W) (m : Machine α) :
    index v (k : Int) m = .ok (v ⟨k, h⟩, m) := by
  unfold index
  rw [dif_pos ⟨by omega, by omega⟩]
  simp [K.pure]

end Basics


end Math32

/-! ## Arithmetic of lanes and chunks -/

namespace Math32

section Arithmetic
variable {R : Type} [CommRing R]

theorem tmod_natCast (n W : Nat) : Int.tmod (n : Int) (W : Int) = ((n % W : Nat) : Int) := by
  rw [Int.tmod_eq_emod (by omega) (by omega)]
  omega

theorem tdiv_natCast (n W : Nat) : Int.tdiv (n : Int) (W : Int) = ((n / W : Nat) : Int) := by
  rw [Int.tdiv_eq_ediv (by omega) (by omega)]
  omega

/-- Adding one chunk `g (k), ..., g (k + W - 1)` lane-wise adds its sum to the
sum of the lanes. -/
theorem hsum_add_chunk {W : Nat} (res : Lanes W R) (g : Nat → R) (k : Nat) :
    hsum (fun j : Fin W => res j + g (k + j.val))
      = hsum res + ∑ i in Finset.range W, g (k + i) := by
  unfold hsum
  rw [Finset.sum_add_distrib, Fin.sum_univ_eq_sum_range (fun i => g (k + i)) W]

/-- One chunk followed by `r` chunks is `r + 1` chunks. -/
theorem sum_chunk_succ (W c r : Nat) (g : Nat → R) (x : R) :
    x + ∑ i in Finset.range W, g (W * c + i)
        + ∑ i in Finset.range (W * r), g (W * (c + 1) + i)
      = x + ∑ i in Finset.range (W * (r + 1)), g (W * c + i) := by
  rw [show W * (r + 1) = W + W * r by ring, Finset.sum_range_add, add_assoc]
  congr 2
  apply Finset.sum_congr rfl
  intro i _
  rw [show W * (c + 1) + i = W * c + (W + i) by ring]

/-- One element followed by `r` elements is `r + 1` elements. -/
theorem sum_elem_succ (s r : Nat) (g : Nat → R) (x : R) :
    x + g s + ∑ i in Finset.range r, g (s + 1 + i)
      = x + ∑ i in Finset.range (r + 1), g (s + i) := by
  rw [Finset.sum_range_succ', add_assoc]
  congr 1
  rw [add_comm]
  congr 1
  apply Finset.sum_congr rfl
  intro i _
  rw [show s + 1 + i = s + (i + 1) by ring]

/-- The bulk part and the leftover part together are the whole sum. -/
theorem sum_bulk_leftover (W n : Nat) (g : Nat → R) :
    ∑ i in Finset.range (W * (n / W)), g i
        + ∑ i in Finset.range (n % W), g (W * (n / W) + i)
      = ∑ i in Finset.range n, g i := by
  rw [← Finset.sum_range_add, Nat.div_add_mod]

theorem hsum_zero {W : Nat} : hsum (setzero_ps : Lanes W R) = 0 := by
  simp [hsum, setzero_ps]

theorem sum_laneAt {W : Nat} (v : Lanes W R) :
    ∑ i in Finset.range W, laneAt v i = hsum v := by
  rw [hsum, Finset.sum_range]
  apply Finset.sum_congr rfl
  intro j _
  simp [laneAt]

theorem hsum_16 (v : Lanes 16 R) :
    hsum v = v 0 + v 1 + v 2 + v 3 + v 4 + v 5 + v 6 + v 7
      + v 8 + v 9 + v 10 + v 11 + v 12 + v 13 + v 14 + v 15 := by
  simp only [hsum, Fin.sum_univ_succ, Fin.sum_univ_zero]
  simp only [Fin.succ_zero_eq_one, Fin.succ_one_eq_two]
  ring_nf
  rfl

end Arithmetic
end Math32

/-! ## `_dot_product_avx512` -/

namespace Math32

section Avx512Dot
variable {R : Type} [CommRing R]

theorem _dot_product_avx512_bulk_eq (r : Nat) :
    ∀ (c : Nat) (res : Lanes 16 R) (m : Machine R),
      16 * (c + r) ≤ m.vec1.len → 16 * (c + r) ≤ m.vec2.len →
      ∃ res', _dot_product_avx512.bulk ((16 * (c + r) : Nat) : Int) ((16 * c : Nat) : Int) res m
          = .ok (res', m.log (bulkTrace 16 c r))
        ∧ hsum res' = hsum res + ∑ i in Finset.range (16 * r),
            m.vec1.elems (16 * c + i) * m.vec2.elems (16 * c + i) := by
  induction r with
  | zero =>
    intro c res m _ _
    refine ⟨res, ?_, by simp⟩
    rw [_dot_product_avx512.bulk, dif_neg (by simp)]
    simp only [bulkTrace, Machine.log_nil]
    rfl
  | succ r ih =>
    intro c res m h1 h2
    rw [_dot_product_avx512.bulk, dif_pos (by omega)]
    rw [K.bind_eq (vload_vec1 16 (16 * c) m (by omega))]
    rw [K.bind_eq (vload_vec2 16 (16 * c) _ (by simp only [Machine.log_vec2]; omega))]
    obtain ⟨res', hrun, hres⟩ := ih (c + 1)
      (add_ps res (mul_ps (fun j => m.vec1.elems (16 * c + j.val))
        (fun j => m.vec2.elems (16 * c + j.val))))
      ((m.log [.vload .vec1 (16 * c : Nat) 16]).log [.vload .vec2 (16 * c : Nat) 16])
      (by simp only [Machine.log_vec1]; omega) (by simp only [Machine.log_vec2]; omega)
    refine ⟨res', ?_, ?_⟩
    · have e1 : ((16 * (c + 1 + r) : Nat) : Int) = ((16 * (c + (r + 1)) : Nat) : Int) := by
        congr 1; ring
      have e2 : ((16 * (c + 1) : Nat) : Int) = ((16 * c : Nat) : Int) + 16 := by
        push_cast; ring
      rw [e1, e2] at hrun
      simp only [Machine.log_vec2] at hrun ⊢
      rw [hrun]
      simp [bulkTrace]
    · rw [hres]
      simp only [Machine.log_vec1, Machine.log_vec2]
      have := hsum_add_chunk res (fun i => m.vec1.elems i * m.vec2.elems i) (16 * c)
      rw [show hsum (add_ps res (mul_ps (fun j => m.vec1.elems (16 * c + j.val))
          (fun j => m.vec2.elems (16 * c + j.val))))
        = hsum (fun j : Fin 16 => res j + m.vec1.elems (16 * c + j.val)
            * m.vec2.elems (16 * c + j.val)) from rfl, this]
      exact sum_chunk_succ 16 c r (fun i => m.vec1.elems i * m.vec2.elems i) (hsum res)

theorem _dot_product_avx512_lanes_from (vec : Lanes 16 R) (d : Nat) :
    ∀ (k : Nat) (m : Machine R), k + d = 16 →
      _dot_product_avx512.lanes vec (k : Int) m
        = .ok ((), (m.put (m.result + ∑ i in Finset.range d, laneAt vec (k + i))).log
            (updates d)) := by
  induction d with
  | zero =>
    intro k m hk
    rw [_dot_product_avx512.lanes, dif_neg (by omega)]
    simp only [Finset.range_zero, Finset.sum_empty, add_zero, updates, Machine.log_nil]
    rfl
  | succ d ih =>
    intro k m hk
    have hk' : k < 16 := by omega
    rw [_dot_product_avx512.lanes, dif_pos (by omega)]
    rw [K.bind_eq (index_eq vec k hk' m), K.bind_eq (loadResult_eq m),
      K.bind_eq (storeResult_eq _ _)]
    rw [show (k : Int) + 1 = ((k + 1 : Nat) : Int) by push_cast; rfl, ih (k + 1) _ (by omega)]
    simp only [Machine.log_put, Machine.put_put, Machine.log_log, Machine.put_result,
      Machine.log_result, updates, List.cons_append, List.nil_append]
    rw [show vec ⟨k, hk'⟩ = laneAt vec k by simp [laneAt, hk']]
    rw [sum_elem_succ k d (laneAt vec) m.result]

theorem _dot_product_avx512_lanes_eq (vec : Lanes 16 R) (m : Machine R) :
    _dot_product_avx512.lanes vec 0 m
      = .ok ((), (m.put (m.result + hsum vec)).log (updates 16)) := by
  have := _dot_product_avx512_lanes_from vec 16 0 m (by omega)
  simp only [Nat.cast_zero, zero_add, sum_laneAt] at this
  exact this

theorem _dot_product_avx512_leftover_eq (r : Nat) :
    ∀ (s : Nat) (m : Machine R), s + r ≤ m.vec1.len → s + r ≤ m.vec2.len →
      _dot_product_avx512.leftover ((s + r : Nat) : Int) (s : Int) m
        = .ok ((), (m.put (m.result + ∑ i in Finset.range r,
            m.vec1.elems (s + i) * m.vec2.elems (s + i))).log (scalarTraceVia s r)) := by
  induction r with
  | zero =>
    intro s m _ _
    rw [_dot_product_avx512.leftover, dif_neg (by simp)]
    simp only [Finset.range_zero, Finset.sum_empty, add_zero, scalarTraceVia, Machine.log_nil]
    rfl
  | succ r ih =>
    intro s m h1 h2
    rw [_dot_product_avx512.leftover, dif_pos (by omega)]
    rw [K.bind_eq (load_vec1 s m (by omega)),
      K.bind_eq (load_vec2 s _ (by simp only [Machine.log_vec2]; omega)),
      K.bind_eq (loadResult_eq _), K.bind_eq (storeResult_eq _ _)]
    rw [show ((s + (r + 1) : Nat) : Int) = ((s + 1 + r : Nat) : Int) by congr 1; omega,
      show (s : Int) + 1 = ((s + 1 : Nat) : Int) by push_cast; rfl, ih (s + 1)]
    · simp only [Machine.log_put, Machine.put_put, Machine.log_log, Machine.put_result,
        Machine.log_result, Machine.log_vec1, Machine.log_vec2, Machine.put_vec1,
        Machine.put_vec2, scalarTraceVia, List.cons_append, List.nil_append]
      rw [sum_elem_succ s r (fun i => m.vec1.elems i * m.vec2.elems i) m.result]
    · simp only [Machine.log_vec1, Machine.put_vec1]; omega
    · simp only [Machine.log_vec2, Machine.put_vec2]; omega

/-- What `_dot_product_avx512` does on a machine whose buffers hold at least
`n` elements. -/
theorem _dot_product_avx512_run_eq (n : Nat) (m : Machine R)
    (h1 : n ≤ m.vec1.len) (h2 : n ≤ m.vec2.len) :
    _dot_product_avx512 (n : Int) m
      = .ok ((), (m.put (dotRef m.vec1 m.vec2 n)).log
          (bulkTrace 16 0 (n / 16) ++ .storeResult :: updates 16
            ++ scalarTraceVia (16 * (n / 16)) (n % 16))) := by
  have hn : 16 * (n / 16) + n % 16 = n := Nat.div_add_mod n 16
  have hv : (n : Int) - Int.tmod (n : Int) 16 = ((16 * (0 + n / 16) : Nat) : Int) := by
    rw [show (16 : Int) = ((16 : Nat) : Int) from rfl, tmod_natCast]
    omega
  obtain ⟨res', hrun, hres⟩ := _dot_product_avx512_bulk_eq (n / 16) 0 (setzero_ps : Lanes 16 R) m
    (by omega) (by omega)
  unfold _dot_product_avx512
  simp only [hv]
  rw [show (0 : Int) = ((16 * 0 : Nat) : Int) from rfl, K.bind_eq hrun,
    K.bind_eq (storeResult_eq _ _)]
  rw [show ((16 * 0 : Nat) : Int) = 0 from rfl, K.bind_eq (_dot_product_avx512_lanes_eq _ _)]
  have hl := fun m' h h' => _dot_product_avx512_leftover_eq (n % 16) (16 * (n / 16)) (R := R)
    m' h h'
  rw [hn] at hl
  rw [show ((16 * (0 + n / 16) : Nat) : Int) = ((16 * (n / 16) : Nat) : Int) by rw [zero_add],
    hl]
  rotate_left
  · simp only [Machine.log_vec1, Machine.put_vec1]; omega
  · simp only [Machine.log_vec2, Machine.put_vec2]; omega
  simp only [Machine.log_put, Machine.put_put, Machine.log_log, Machine.put_result,
    Machine.log_result, Machine.log_vec1, Machine.log_vec2, Machine.put_vec1,
    Machine.put_vec2, List.append_assoc, List.cons_append, List.nil_append,
    List.singleton_append]
  rw [hres, hsum_zero]
  simp only [zero_add, Nat.mul_zero]
  rw [dotRef, sum_bulk_leftover 16 n (fun i => m.vec1.elems i * m.vec2.elems i)]

end Avx512Dot
end Math32

/-! ## `_squared_l2_avx512` -/

namespace Math32

section Avx512L2
variable {R : Type} [CommRing R]

theorem _squared_l2_avx512_bulk_eq (r : Nat) :
    ∀ (c : Nat) (sum : Lanes 16 R) (m : Machine R),
      16 * (c + r) ≤ m.vec1.len → 16 * (c + r) ≤ m.vec2.len →
      ∃ sum', _squared_l2_avx512.bulk ((c + r : Nat) : Int) (c : Int) sum m
          = .ok ((((c + r : Nat) : Int), sum'), m.log (bulkTrace 16 c r))
        ∧ hsum sum' = hsum sum + ∑ i in Finset.range (16 * r),
            (m.vec1.elems (16 * c + i) - m.vec2.elems (16 * c + i))
              * (m.vec1.elems (16 * c + i) - m.vec2.elems (16 * c + i)) := by
  induction r with
  | zero =>
    intro c sum m _ _
    refine ⟨sum, ?_, by simp⟩
    rw [_squared_l2_avx512.bulk, dif_neg (by simp)]
    simp only [bulkTrace, Machine.log_nil]
    rfl
  | succ r ih =>
    intro c sum m h1 h2
    rw [_squared_l2_avx512.bulk, dif_pos (by omega)]
    rw [show (c : Int) * 16 = ((16 * c : Nat) : Int) by push_cast; ring]
    rw [K.bind_eq (vload_vec1 16 (16 * c) m (by omega))]
    rw [K.bind_eq (vload_vec2 16 (16 * c) _ (by simp only [Machine.log_vec2]; omega))]
    obtain ⟨sum', hrun, hres⟩ := ih (c + 1)
      (fun j : Fin 16 => sum j + (m.vec1.elems (16 * c + j.val) - m.vec2.elems (16 * c + j.val))
        * (m.vec1.elems (16 * c + j.val) - m.vec2.elems (16 * c + j.val)))
      ((m.log [.vload .vec1 (16 * c : Nat) 16]).log [.vload .vec2 (16 * c : Nat) 16])
      (by simp only [Machine.log_vec1]; omega) (by simp only [Machine.log_vec2]; omega)
    refine ⟨sum', ?_, ?_⟩
    · rw [show ((c + 1 + r : Nat) : Int) = ((c + (r + 1) : Nat) : Int) by congr 1; omega,
        show ((c + 1 : Nat) : Int) = (c : Int) + 1 by push_cast; rfl] at hrun
      simp only [Machine.log_vec2] at hrun ⊢
      exact hrun.trans (by simp [bulkTrace])
    · rw [hres]
      simp only [Machine.log_vec1, Machine.log_vec2]
      rw [hsum_add_chunk sum (fun i => (m.vec1.elems i - m.vec2.elems i)
        * (m.vec1.elems i - m.vec2.elems i)) (16 * c)]
      exact sum_chunk_succ 16 c r (fun i => (m.vec1.elems i - m.vec2.elems i)
        * (m.vec1.elems i - m.vec2.elems i)) (hsum sum)

theorem _squared_l2_avx512_leftover_eq (r : Nat) :
    ∀ (s : Nat) (total : R) (m : Machine R), s + r ≤ m.vec1.len → s + r ≤ m.vec2.len →
      _squared_l2_avx512.leftover ((s + r : Nat) : Int) (s : Int) total m
        = .ok (total + ∑ i in Finset.range r,
            (m.vec1.elems (s + i) - m.vec2.elems (s + i))
              * (m.vec1.elems (s + i) - m.vec2.elems (s + i)), m.log (scalarTrace s r)) := by
  induction r with
  | zero =>
    intro s total m _ _
    rw [_squared_l2_avx512.leftover, dif_neg (by simp)]
    simp only [Finset.range_zero, Finset.sum_empty, add_zero, scalarTrace, Machine.log_nil]
    rfl
  | succ r ih =>
    intro s total m h1 h2
    rw [_squared_l2_avx512.leftover, dif_pos (by omega)]
    rw [K.bind_eq (load_vec1 s m (by omega)),
      K.bind_eq (load_vec2 s _ (by simp only [Machine.log_vec2]; omega))]
    rw [show ((s + (r + 1) : Nat) : Int) = ((s + 1 + r : Nat) : Int) by congr 1; omega,
      show (s : Int) + 1 = ((s + 1 : Nat) : Int) by push_cast; rfl, ih (s + 1)]
    · simp only [Machine.log_log, Machine.log_vec1, Machine.log_vec2, scalarTrace,
        List.cons_append, List.nil_append]
      rw [sum_elem_succ s r (fun i => (m.vec1.elems i - m.vec2.elems i)
        * (m.vec1.elems i - m.vec2.elems i)) total]
    · simp only [Machine.log_vec1]; omega
    · simp only [Machine.log_vec2]; omega

theorem l2Ref_eq (a b : Buf R) (n : Nat) :
    l2Ref a b n = ∑ i in Finset.range n,
      (a.elems i - b.elems i) * (a.elems i - b.elems i) := by
  unfold l2Ref
  apply Finset.sum_congr rfl
  intro i _
  rw [sq]

/-- What `_squared_l2_avx512` does on a machine whose buffers hold at least
`n` elements. -/
theorem _squared_l2_avx512_run_eq (n : Nat) (m : Machine R)
    (h1 : n ≤ m.vec1.len) (h2 : n ≤ m.vec2.len) :
    _squared_l2_avx512 (n : Int) m
      = .ok ((), (m.put (l2Ref m.vec1 m.vec2 n)).log
          (bulkTrace 16 0 (n / 16) ++ scalarTrace (16 * (n / 16)) (n % 16)
            ++ [.storeResult])) := by
  have hn : 16 * (n / 16) + n % 16 = n := Nat.div_add_mod n 16
  obtain ⟨sum', hrun, hres⟩ := _squared_l2_avx512_bulk_eq (n / 16) 0 (setzero_ps : Lanes 16 R) m
    (by omega) (by omega)
  have hl := fun t m' h h' => _squared_l2_avx512_leftover_eq (n % 16) (16 * (n / 16)) (R := R)
    t m' h h'
  rw [hn] at hl
  rw [zero_add] at hrun
  unfold _squared_l2_avx512
  rw [show (16 : Int) = ((16 : Nat) : Int) from rfl, tdiv_natCast,
    show (0 : Int) = ((0 : Nat) : Int) from rfl, K.bind_eq hrun]
  simp only []
  rw [show ((n / 16 : Nat) : Int) * ((16 : Nat) : Int) = ((16 * (n / 16) : Nat) : Int) by
    push_cast; ring, K.bind_eq (hl _ _ (by simp only [Machine.log_vec1]; omega)
      (by simp only [Machine.log_vec2]; omega)), storeResult_eq]
  simp only [Machine.log_put, Machine.log_log, Machine.log_vec1, Machine.log_vec2,
    List.append_assoc]
  rw [← hsum_16, hres, hsum_zero, l2Ref_eq,
    ← sum_bulk_leftover 16 n (fun i => (m.vec1.elems i - m.vec2.elems i)
      * (m.vec1.elems i - m.vec2.elems i))]
  simp only [zero_add, Nat.mul_zero]

end Avx512L2
end Math32

/-! ## `_dot_product_avx` -/

namespace Math32

section AvxDot
variable {R : Type} [CommRing R]

theorem vectorized_end_natCast (n W : Nat) :
    (n : Int) - Int.tmod (n : Int) (W : Int) = ((W * (n / W) : Nat) : Int) := by
  rw [tmod_natCast]
  have := Nat.div_add_mod n W
  omega

theorem _dot_product_avx_bulk_eq (n r : Nat) :
    ∀ (c : Nat) (sumvec : Lanes 8 R) (m : Machine R),
      c + r = n / 8 → n ≤ m.vec1.len → n ≤ m.vec2.len →
      ∃ sumvec', _dot_product_avx.bulk (n : Int) ((8 * c : Nat) : Int) sumvec m
          = .ok ((((8 * (n / 8) : Nat) : Int), sumvec'), m.log (bulkTrace 8 c r))
        ∧ hsum sumvec' = hsum sumvec + ∑ i in Finset.range (8 * r),
            m.vec1.elems (8 * c + i) * m.vec2.elems (8 * c + i) := by
  have hv : (n : Int) - Int.tmod (n : Int) 8 = ((8 * (n / 8) : Nat) : Int) :=
    vectorized_end_natCast n 8
  have hn := Nat.div_add_mod n 8
  induction r with
  | zero =>
    intro c sumvec m hc _ _
    refine ⟨sumvec, ?_, by simp⟩
    rw [_dot_product_avx.bulk, dif_neg (by rw [hv]; omega)]
    simp only [bulkTrace, Machine.log_nil]
    rw [show n / 8 = c by omega]
    rfl
  | succ r ih =>
    intro c sumvec m hc h1 h2
    rw [_dot_product_avx.bulk, dif_pos (by rw [hv]; omega)]
    rw [K.bind_eq (vload_vec1 8 (8 * c) m (by omega))]
    rw [K.bind_eq (vload_vec2 8 (8 * c) _ (by simp only [Machine.log_vec2]; omega))]
    obtain ⟨sumvec', hrun, hres⟩ := ih (c + 1)
      (fun j : Fin 8 => sumvec j + m.vec1.elems (8 * c + j.val) * m.vec2.elems (8 * c + j.val))
      ((m.log [.vload .vec1 (8 * c : Nat) 8]).log [.vload .vec2 (8 * c : Nat) 8])
      (by omega) (by simp only [Machine.log_vec1]; omega)
      (by simp only [Machine.log_vec2]; omega)
    refine ⟨sumvec', ?_, ?_⟩
    · rw [show ((8 * (c + 1) : Nat) : Int) = ((8 * c : Nat) : Int) + 8 by push_cast; ring] at hrun
      simp only [Machine.log_vec2] at hrun ⊢
      exact hrun.trans (by simp [bulkTrace])
    · rw [hres]
      simp only [Machine.log_vec1, Machine.log_vec2]
      rw [hsum_add_chunk sumvec (fun i => m.vec1.elems i * m.vec2.elems i) (8 * c)]
      exact sum_chunk_succ 8 c r (fun i => m.vec1.elems i * m.vec2.elems i) (hsum sumvec)

theorem _dot_product_avx_lanes_from (temp : Lanes 8 R) (d : Nat) :
    ∀ (k : Nat) (m : Machine R), k + d = 8 →
      _dot_product_avx.lanes temp (k : Int) m
        = .ok ((), (m.put (m.result + ∑ i in Finset.range d, laneAt temp (k + i))).log
            (updates d)) := by
  induction d with
  | zero =>
    intro k m hk
    rw [_dot_product_avx.lanes, dif_neg (by omega)]
    simp only [Finset.range_zero, Finset.sum_empty, add_zero, updates, Machine.log_nil]
    rfl
  | succ d ih =>
    intro k m hk
    have hk' : k < 8 := by omega
    rw [_dot_product_avx.lanes, dif_pos (by omega)]
    rw [K.bind_eq (index_eq temp k hk' m), K.bind_eq (loadResult_eq m),
      K.bind_eq (storeResult_eq _ _)]
    rw [show (k : Int) + 1 = ((k + 1 : Nat) : Int) by push_cast; rfl, ih (k + 1) _ (by omega)]
    simp only [Machine.log_put, Machine.put_put, Machine.log_log, Machine.put_result,
      Machine.log_result, updates, List.cons_append, List.nil_append]
    rw [show temp ⟨k, hk'⟩ = laneAt temp k by simp [laneAt, hk']]
    rw [sum_elem_succ k d (laneAt temp) m.result]

theorem _dot_product_avx_lanes_eq (temp : Lanes 8 R) (m : Machine R) :
    _dot_product_avx.lanes temp 0 m
      = .ok ((), (m.put (m.result + hsum temp)).log (updates 8)) := by
  have := _dot_product_avx_lanes_from temp 8 0 m (by omega)
  simp only [Nat.cast_zero, zero_add, sum_laneAt] at this
  exact this

theorem _dot_product_avx_leftover_eq (r : Nat) :
    ∀ (s : Nat) (m : Machine R), s + r ≤ m.vec1.len → s + r ≤ m.vec2.len →
      _dot_product_avx.leftover ((s + r : Nat) : Int) (s : Int) m
        = .ok ((), (m.put (m.result + ∑ i in Finset.range r,
            m.vec1.elems (s + i) * m.vec2.elems (s + i))).log (scalarTraceVia s r)) := by
  induction r with
  | zero =>
    intro s m _ _
    rw [_dot_product_avx.leftover, dif_neg (by simp)]
    simp only [Finset.range_zero, Finset.sum_empty, add_zero, scalarTraceVia, Machine.log_nil]
    rfl
  | succ r ih =>
    intro s m h1 h2
    rw [_dot_product_avx.leftover, dif_pos (by omega)]
    rw [K.bind_eq (load_vec1 s m (by omega)),
      K.bind_eq (load_vec2 s _ (by simp only [Machine.log_vec2]; omega)),
      K.bind_eq (loadResult_eq _), K.bind_eq (storeResult_eq _ _)]
    rw [show ((s + (r + 1) : Nat) : Int) = ((s + 1 + r : Nat) : Int) by congr 1; omega,
      show (s : Int) + 1 = ((s + 1 : Nat) : Int) by push_cast; rfl, ih (s + 1)]
    · simp only [Machine.log_put, Machine.put_put, Machine.log_log, Machine.put_result,
        Machine.log_result, Machine.log_vec1, Machine.log_vec2, Machine.put_vec1,
        Machine.put_vec2, scalarTraceVia, List.cons_append, List.nil_append]
      rw [sum_elem_succ s r (fun i => m.vec1.elems i * m.vec2.elems i) m.result]
    · simp only [Machine.log_vec1, Machine.put_vec1]; omega
    · simp only [Machine.log_vec2, Machine.put_vec2]; omega

/-- What `_dot_product_avx` does on a machine whose buffers hold at least `n`
elements: it adds the dot product to the content of the result cell. -/
theorem _dot_product_avx_run_eq (n : Nat) (m : Machine R)
    (h1 : n ≤ m.vec1.len) (h2 : n ≤ m.vec2.len) :
    _dot_product_avx (n : Int) m
      = .ok ((), (m.put (m.result + dotRef m.vec1 m.vec2 n)).log
          (bulkTrace 8 0 (n / 8) ++ updates 8
            ++ scalarTraceVia (8 * (n / 8)) (n % 8))) := by
  have hn : 8 * (n / 8) + n % 8 = n := Nat.div_add_mod n 8
  obtain ⟨sumvec', hrun, hres⟩ := _dot_product_avx_bulk_eq n (n / 8) 0 (setzero_ps : Lanes 8 R) m
    (by omega) h1 h2
  have hl := fun m' h h' => _dot_product_avx_leftover_eq (n % 8) (8 * (n / 8)) (R := R) m' h h'
  rw [hn] at hl
  unfold _dot_product_avx
  rw [show (0 : Int) = ((8 * 0 : Nat) : Int) from rfl, K.bind_eq hrun]
  simp only []
  rw [show ((8 * 0 : Nat) : Int) = 0 from rfl, K.bind_eq (_dot_product_avx_lanes_eq _ _), hl]
  rotate_left
  · simp only [Machine.log_vec1, Machine.put_vec1]; omega
  · simp only [Machine.log_vec2, Machine.put_vec2]; omega
  simp only [Machine.log_put, Machine.put_put, Machine.log_log, Machine.put_result,
    Machine.log_result, Machine.log_vec1, Machine.log_vec2, Machine.put_vec1,
    Machine.put_vec2, List.append_assoc]
  rw [hres, hsum_zero, dotRef, ← sum_bulk_leftover 8 n (fun i => m.vec1.elems i * m.vec2.elems i)]
  simp only [zero_add, Nat.mul_zero, add_assoc]

end AvxDot

/-! ## `_squared_l2_avx` -/

section AvxL2
variable {R : Type} [CommRing R]

theorem _squared_l2_avx_bulk_eq (n r : Nat) :
    ∀ (c : Nat) (res : Lanes 8 R) (m : Machine R),
      c + r = n / 8 → n ≤ m.vec1.len → n ≤ m.vec2.len →
      ∃ res', _squared_l2_avx.bulk (n : Int) ((8 * c : Nat) : Int) res m
          = .ok ((((8 * (n / 8) : Nat) : Int), res'), m.log (bulkTrace 8 c r))
        ∧ hsum res' = hsum res + ∑ i in Finset.range (8 * r),
            (m.vec1.elems (8 * c + i) - m.vec2.elems (8 * c + i))
              * (m.vec1.elems (8 * c + i) - m.vec2.elems (8 * c + i)) := by
  have hv : (n : Int) - Int.tmod (n : Int) 8 = ((8 * (n / 8) : Nat) : Int) :=
    vectorized_end_natCast n 8
  have hn := Nat.div_add_mod n 8
  induction r with
  | zero =>
    intro c res m hc _ _
    refine ⟨res, ?_, by simp⟩
    rw [_squared_l2_avx.bulk, dif_neg (by rw [hv]; omega)]
    simp only [bulkTrace, Machine.log_nil]
    rw [show n / 8 = c by omega]
    rfl
  | succ r ih =>
    intro c res m hc h1 h2
    rw [_squared_l2_avx.bulk, dif_pos (by rw [hv]; omega)]
    rw [K.bind_eq (vload_vec1 8 (8 * c) m (by omega))]
    rw [K.bind_eq (vload_vec2 8 (8 * c) _ (by simp only [Machine.log_vec2]; omega))]
    obtain ⟨res', hrun, hres⟩ := ih (c + 1)
      (fun j : Fin 8 => res j + (m.vec1.elems (8 * c + j.val) - m.vec2.elems (8 * c + j.val))
        * (m.vec1.elems (8 * c + j.val) - m.vec2.elems (8 * c + j.val)))
      ((m.log [.vload .vec1 (8 * c : Nat) 8]).log [.vload .vec2 (8 * c : Nat) 8])
      (by omega) (by simp only [Machine.log_vec1]; omega)
      (by simp only [Machine.log_vec2]; omega)
    refine ⟨res', ?_, ?_⟩
    · rw [show ((8 * (c + 1) : Nat) : Int) = ((8 * c : Nat) : Int) + 8 by push_cast; ring] at hrun
      simp only [Machine.log_vec2] at hrun ⊢
      exact hrun.trans (by simp [bulkTrace])
    · rw [hres]
      simp only [Machine.log_vec1, Machine.log_vec2]
      rw [hsum_add_chunk res (fun i => (m.vec1.elems i - m.vec2.elems i)
        * (m.vec1.elems i - m.vec2.elems i)) (8 * c)]
      exact sum_chunk_succ 8 c r (fun i => (m.vec1.elems i - m.vec2.elems i)
        * (m.vec1.elems i - m.vec2.elems i)) (hsum res)

theorem _squared_l2_avx_leftover_eq (r : Nat) :
    ∀ (s : Nat) (sum : R) (m : Machine R), s + r ≤ m.vec1.len → s + r ≤ m.vec2.len →
      _squared_l2_avx.leftover ((s + r : Nat) : Int) (s : Int) sum m
        = .ok (sum + ∑ i in Finset.range r,
            (m.vec1.elems (s + i) - m.vec2.elems (s + i))
              * (m.vec1.elems (s + i) - m.vec2.elems (s + i)), m.log (scalarTrace s r)) := by
  induction r with
  | zero =>
    intro s sum m _ _
    rw [_squared_l2_avx.leftover, dif_neg (by simp)]
    simp only [Finset.range_zero, Finset.sum_empty, add_zero, scalarTrace, Machine.log_nil]
    rfl
  | succ r ih =>
    intro s sum m h1 h2
    rw [_squared_l2_avx.leftover, dif_pos (by omega)]
    rw [K.bind_eq (load_vec1 s m (by omega)),
      K.bind_eq (load_vec2 s _ (by simp only [Machine.log_vec2]; omega))]
    rw [show ((s + (r + 1) : Nat) : Int) = ((s + 1 + r : Nat) : Int) by congr 1; omega,
      show (s : Int) + 1 = ((s + 1 : Nat) : Int) by push_cast; rfl, ih (s + 1)]
    · simp only [Machine.log_log, Machine.log_vec1, Machine.log_vec2, scalarTrace,
        List.cons_append, List.nil_append]
      rw [sum_elem_succ s r (fun i => (m.vec1.elems i - m.vec2.elems i)
        * (m.vec1.elems i - m.vec2.elems i)) sum]
    · simp only [Machine.log_vec1]; omega
    · simp only [Machine.log_vec2]; omega

theorem _squared_l2_avx_lanes_from (temp : Lanes 8 R) (d : Nat) :
    ∀ (k : Nat) (sum : R) (m : Machine R), k + d = 8 →
      _squared_l2_avx.lanes temp (k : Int) sum m
        = .ok (sum + ∑ i in Finset.range d, laneAt temp (k + i), m) := by
  induction d with
  | zero =>
    intro k sum m hk
    rw [_squared_l2_avx.lanes, dif_neg (by omega)]
    simp only [Finset.range_zero, Finset.sum_empty, add_zero]
    rfl
  | succ d ih =>
    intro k sum m hk
    have hk' : k < 8 := by omega
    rw [_squared_l2_avx.lanes, dif_pos (by omega)]
    rw [K.bind_eq (index_eq temp k hk' m)]
    rw [show (k : Int) + 1 = ((k + 1 : Nat) : Int) by push_cast; rfl, ih (k + 1) _ _ (by omega)]
    rw [show temp ⟨k, hk'⟩ = laneAt temp k by simp [laneAt, hk']]
    rw [sum_elem_succ k d (laneAt temp) sum]

/-- What `_squared_l2_avx` does on a machine whose buffers hold at least `n`
elements. -/
theorem _squared_l2_avx_run_eq (n : Nat) (m : Machine R)
    (h1 : n ≤ m.vec1.len) (h2 : n ≤ m.vec2.len) :
    _squared_l2_avx (n : Int) m
      = .ok ((), (m.put (l2Ref m.vec1 m.vec2 n)).log
          (bulkTrace 8 0 (n / 8) ++ scalarTrace (8 * (n / 8)) (n % 8)
            ++ [.storeResult])) := by
  have hn : 8 * (n / 8) + n % 8 = n := Nat.div_add_mod n 8
  obtain ⟨res', hrun, hres⟩ := _squared_l2_avx_bulk_eq n (n / 8) 0 (setzero_ps : Lanes 8 R) m
    (by omega) h1 h2
  have hl := fun t m' h h' => _squared_l2_avx_leftover_eq (n % 8) (8 * (n / 8)) (R := R)
    t m' h h'
  rw [hn] at hl
  have hlanes := fun t m' => _squared_l2_avx_lanes_from res' 8 0 t m' (by omega)
  simp only [Nat.cast_zero, zero_add, sum_laneAt] at hlanes
  unfold _squared_l2_avx
  simp only []
  rw [show (0 : Int) = ((8 * 0 : Nat) : Int) from rfl, K.bind_eq hrun]
  simp only []
  rw [K.bind_eq (hl _ _ (by simp only [Machine.log_vec1]; omega)
      (by simp only [Machine.log_vec2]; omega)),
    show ((8 * 0 : Nat) : Int) = 0 from rfl, K.bind_eq (hlanes _ _), storeResult_eq]
  simp only [Machine.log_put, Machine.log_log, Machine.log_vec1, Machine.log_vec2,
    List.append_assoc]
  rw [hres, hsum_zero, l2Ref_eq,
    ← sum_bulk_leftover 8 n (fun i => (m.vec1.elems i - m.vec2.elems i)
      * (m.vec1.elems i - m.vec2.elems i))]
  simp only [zero_add, Nat.mul_zero]
  rw [add_comm]

end AvxL2
end Math32

/-! ## `_dot_product_neon` -/

namespace Math32

section NeonDot
variable {R : Type} [CommRing R]

theorem hsum_4 (v : Lanes 4 R) : hsum v = v 0 + v 1 + v 2 + v 3 := by
  simp only [hsum, Fin.sum_univ_succ, Fin.sum_univ_zero]
  simp only [Fin.succ_zero_eq_one, Fin.succ_one_eq_two]
  ring_nf
  rfl

theorem toInt32_of_small (x : Int) (h0 : 0 ≤ x) (h1 : x < 2147483648) : toInt32 x = x := by
  unfold toInt32
  omega

theorem toInt32_le (x : Int) (h0 : 0 ≤ x) : toInt32 x ≤ x := by
  unfold toInt32
  omega

/-- The number of iterations of the unrolled loop of `_dot_product_neon`:
`n / 8` narrowed to `int`, none if that is negative. -/
theorem epochs_le (n : Nat) : (toInt32 (Int.tdiv (n : Int) 8)).toNat ≤ n / 8 := by
  have h := toInt32_le (Int.tdiv (n : Int) 8) (by
    rw [show (8 : Int) = ((8 : Nat) : Int) from rfl, tdiv_natCast]; omega)
  rw [show (8 : Int) = ((8 : Nat) : Int) from rfl, tdiv_natCast] at h ⊢
  omega

theorem epochs_of_small (n : Nat) (h : n < 17179869184) :
    (toInt32 (Int.tdiv (n : Int) 8)).toNat = n / 8 := by
  rw [show (8 : Int) = ((8 : Nat) : Int) from rfl, tdiv_natCast,
    toInt32_of_small _ (by omega) (by omega)]
  omega

/-- The reduction at the end of `_dot_product_neon` adds up all eight
accumulator lanes and the remainder sum. -/
theorem neon_reduce (sum1 sum2 : Lanes 4 R) (rs : R) :
    vget_lane_f32 (vget_low_f32 (vpaddq_f32
        (vpaddq_f32 (vaddq_f32 (vsetq_lane_f32 (vgetq_lane_f32 sum1 0 + rs) sum1 0) sum2)
          (vaddq_f32 (vsetq_lane_f32 (vgetq_lane_f32 sum1 0 + rs) sum1 0) sum2))
        (vpaddq_f32 (vaddq_f32 (vsetq_lane_f32 (vgetq_lane_f32 sum1 0 + rs) sum1 0) sum2)
          (vaddq_f32 (vsetq_lane_f32 (vgetq_lane_f32 sum1 0 + rs) sum1 0) sum2)))) 0
      = hsum sum1 + hsum sum2 + rs := by
  rw [hsum_4, hsum_4]
  simp only [vget_lane_f32, vget_low_f32, vpaddq_f32, vaddq_f32, vsetq_lane_f32, vgetq_lane_f32]
  simp
  ring

theorem _dot_product_neon_bulk_eq (epoch : Int) (r : Nat) :
    ∀ (c : Nat) (sum1 sum2 : Lanes 4 R) (m : Machine R),
      (epoch - c).toNat = r → 8 * (c + r) ≤ m.vec1.len → 8 * (c + r) ≤ m.vec2.len →
      ∃ sum1' sum2', _dot_product_neon.bulk epoch (c : Int) ((8 * c : Nat) : Int)
            ((8 * c : Nat) : Int) sum1 sum2 m
          = .ok ((((8 * (c + r) : Nat) : Int), ((8 * (c + r) : Nat) : Int), sum1', sum2'),
              m.log (bulkTrace 4 (2 * c) (2 * r)))
        ∧ hsum sum1' + hsum sum2' = hsum sum1 + hsum sum2 + ∑ i in Finset.range (8 * r),
            m.vec1.elems (8 * c + i) * m.vec2.elems (8 * c + i) := by
  induction r with
  | zero =>
    intro c sum1 sum2 m hc _ _
    refine ⟨sum1, sum2, ?_, by simp⟩
    rw [_dot_product_neon.bulk, dif_neg (by omega)]
    simp only [bulkTrace, Machine.log_nil, Nat.mul_zero, Nat.add_zero]
    rfl
  | succ r ih =>
    intro c sum1 sum2 m hc h1 h2
    rw [_dot_product_neon.bulk, dif_pos (by omega)]
    rw [K.bind_eq (vload_vec1 4 (8 * c) m (by omega))]
    rw [K.bind_eq (vload_vec2 4 (8 * c) _ (by simp only [Machine.log_vec2]; omega))]
    simp only []
    rw [show ((8 * c : Nat) : Int) + 4 = ((8 * c + 4 : Nat) : Int) by push_cast; rfl]
    rw [K.bind_eq (vload_vec1 4 (8 * c + 4) _ (by simp only [Machine.log_vec1]; omega))]
    rw [K.bind_eq (vload_vec2 4 (8 * c + 4) _ (by simp only [Machine.log_vec2]; omega))]
    obtain ⟨sum1', sum2', hrun, hres⟩ := ih (c + 1)
      (fun j : Fin 4 => sum1 j + m.vec1.elems (8 * c + j.val) * m.vec2.elems (8 * c + j.val))
      (fun j : Fin 4 => sum2 j
        + m.vec1.elems (8 * c + 4 + j.val) * m.vec2.elems (8 * c + 4 + j.val))
      ((((m.log [.vload .vec1 (8 * c : Nat) 4]).log [.vload .vec2 (8 * c : Nat) 4]).log
        [.vload .vec1 (8 * c + 4 : Nat) 4]).log [.vload .vec2 (8 * c + 4 : Nat) 4])
      (by push_cast; omega) (by simp only [Machine.log_vec1]; omega)
      (by simp only [Machine.log_vec2]; omega)
    refine ⟨sum1', sum2', ?_, ?_⟩
    · rw [show ((8 * (c + 1 + r) : Nat) : Int) = ((8 * (c + (r + 1)) : Nat) : Int) by
          congr 1; ring,
        show ((8 * (c + 1) : Nat) : Int) = ((8 * c + 4 : Nat) : Int) + 4 by push_cast; ring,
        show ((c + 1 : Nat) : Int) = (c : Int) + 1 by push_cast; rfl] at hrun
      simp only [Machine.log_vec1, Machine.log_vec2] at hrun ⊢
      refine hrun.trans ?_
      rw [show 2 * (c + 1) = 2 * c + 1 + 1 by ring, show 2 * (r + 1) = 2 * r + 1 + 1 by ring]
      simp only [bulkTrace, Machine.log_log, List.cons_append, List.nil_append]
      rw [show 4 * (2 * c) = 8 * c by ring, show 4 * (2 * c + 1) = 8 * c + 4 by ring]
    · rw [hres]
      simp only [Machine.log_vec1, Machine.log_vec2]
      rw [hsum_add_chunk sum1 (fun i => m.vec1.elems i * m.vec2.elems i) (8 * c),
        hsum_add_chunk sum2 (fun i => m.vec1.elems i * m.vec2.elems i) (8 * c + 4)]
      rw [← sum_chunk_succ 8 c r (fun i => m.vec1.elems i * m.vec2.elems i)
        (hsum sum1 + hsum sum2)]
      rw [show (8 : Nat) = 4 + 4 from rfl, Finset.sum_range_add]
      simp only [add_assoc]
      ring

theorem _dot_product_neon_leftover_eq (s : Nat) (r : Nat) :
    ∀ (k : Nat) (remain_sum : R) (m : Machine R),
      s + k + r ≤ m.vec1.len → s + k + r ≤ m.vec2.len →
      _dot_product_neon.leftover ((k + r : Nat) : Int) (s : Int) (s : Int) (k : Int) remain_sum m
        = .ok (remain_sum + ∑ i in Finset.range r,
            m.vec1.elems (s + k + i) * m.vec2.elems (s + k + i),
            m.log (scalarTrace (s + k) r)) := by
  induction r with
  | zero =>
    intro k remain_sum m _ _
    rw [_dot_product_neon.leftover, dif_neg (by simp)]
    simp only [Finset.range_zero, Finset.sum_empty, add_zero, scalarTrace, Machine.log_nil]
    rfl
  | succ r ih =>
    intro k remain_sum m h1 h2
    rw [_dot_product_neon.leftover, dif_pos (by omega)]
    rw [show (s : Int) + (k : Int) = ((s + k : Nat) : Int) by push_cast; rfl]
    rw [K.bind_eq (load_vec1 (s + k) m (by omega)),
      K.bind_eq (load_vec2 (s + k) _ (by simp only [Machine.log_vec2]; omega))]
    rw [show ((k + (r + 1) : Nat) : Int) = ((k + 1 + r : Nat) : Int) by congr 1; omega,
      show (k : Int) + 1 = ((k + 1 : Nat) : Int) by push_cast; rfl, ih (k + 1)]
    · simp only [Machine.log_log, Machine.log_vec1, Machine.log_vec2, scalarTrace,
        List.cons_append, List.nil_append]
      rw [show s + (k + 1) = s + k + 1 by ring]
      rw [sum_elem_succ (s + k) r (fun i => m.vec1.elems i * m.vec2.elems i) remain_sum]
    · simp only [Machine.log_vec1]; omega
    · simp only [Machine.log_vec2]; omega

/-- What `_dot_product_neon` does, for every `n ≥ 0`: with `E` the value of
its `int` variable `epoch` (`0` if that is negative), it computes the dot
product of the first `8 * E + n % 8` elements. -/
theorem _dot_product_neon_run_eq (n : Nat) (m : Machine R)
    (h1 : n ≤ m.vec1.len) (h2 : n ≤ m.vec2.len) :
    _dot_product_neon (n : Int) m
      = .ok ((), (m.put (dotRef m.vec1 m.vec2
            (8 * (toInt32 (Int.tdiv (n : Int) 8)).toNat + n % 8))).log
          (bulkTrace 4 0 (2 * (toInt32 (Int.tdiv (n : Int) 8)).toNat)
            ++ scalarTrace (8 * (toInt32 (Int.tdiv (n : Int) 8)).toNat) (n % 8)
            ++ [.storeResult])) := by
  have hE := epochs_le n
  have hn : 8 * (n / 8) + n % 8 = n := Nat.div_add_mod n 8
  generalize hEq : (toInt32 (Int.tdiv (n : Int) 8)).toNat = E at hE ⊢
  obtain ⟨sum1', sum2', hrun, hres⟩ := _dot_product_neon_bulk_eq (toInt32 (Int.tdiv (n : Int) 8))
    E 0 (vdupq_n_f32 0 : Lanes 4 R) (vdupq_n_f32 0 : Lanes 4 R) m
    (by rw [← hEq]; simp) (by omega) (by omega)
  have hrem : toInt32 (Int.tmod (n : Int) 8) = ((0 + n % 8 : Nat) : Int) := by
    rw [show (8 : Int) = ((8 : Nat) : Int) from rfl, tmod_natCast,
      toInt32_of_small _ (by omega) (by omega), Nat.zero_add]
  rw [Nat.zero_add, Nat.mul_zero] at hrun
  have hl := _dot_product_neon_leftover_eq (8 * E) (n % 8) 0 (0 : R)
    (m.log (bulkTrace 4 0 (2 * E))) (by rw [Machine.log_vec1]; omega)
    (by rw [Machine.log_vec2]; omega)
  rw [Nat.add_zero (8 * E)] at hl
  have h0 : hsum (vdupq_n_f32 0 : Lanes 4 R) = 0 := by simp [hsum, vdupq_n_f32]
  unfold _dot_product_neon
  rw [hrem]
  rw [show (0 : Int) = ((0 : Nat) : Int) from rfl, K.bind_eq hrun]
  dsimp only
  rw [K.bind_eq hl, storeResult_eq, neon_reduce, hres, h0]
  simp only [Machine.log_put, Machine.log_log, Machine.log_vec1, Machine.log_vec2,
    List.append_assoc, Nat.mul_zero, zero_add]
  rw [dotRef, Finset.sum_range_add]

theorem _dot_product_neon_run_eq_small (n : Nat) (hn : n < 17179869184) (m : Machine R)
    (h1 : n ≤ m.vec1.len) (h2 : n ≤ m.vec2.len) :
    _dot_product_neon (n : Int) m
      = .ok ((), (m.put (dotRef m.vec1 m.vec2 n)).log
          (bulkTrace 4 0 (2 * (n / 8)) ++ scalarTrace (8 * (n / 8)) (n % 8)
            ++ [.storeResult])) := by
  rw [_dot_product_neon_run_eq n m h1 h2, epochs_of_small n hn, Nat.div_add_mod]

end NeonDot
end Math32

/-! ## `_squared_l2_neon` -/

namespace Math32

section NeonL2
variable {R : Type} [CommRing R]

theorem _squared_l2_neon_bulk_eq (r : Nat) :
    ∀ (c : Nat) (sumQuad : Lanes 4 R) (m : Machine R),
      4 * (c + r) ≤ m.vec1.len → 4 * (c + r) ≤ m.vec2.len →
      ∃ sumQuad', _squared_l2_neon.bulk (r : Int) ((4 * c : Nat) : Int) ((4 * c : Nat) : Int)
            sumQuad m
          = .ok ((((4 * (c + r) : Nat) : Int), ((4 * (c + r) : Nat) : Int), sumQuad'),
              m.log (bulkTrace 4 c r))
        ∧ hsum sumQuad' = hsum sumQuad + ∑ i in Finset.range (4 * r),
            (m.vec1.elems (4 * c + i) - m.vec2.elems (4 * c + i))
              * (m.vec1.elems (4 * c + i) - m.vec2.elems (4 * c + i)) := by
  induction r with
  | zero =>
    intro c sumQuad m _ _
    refine ⟨sumQuad, ?_, by simp⟩
    rw [_squared_l2_neon.bulk, dif_pos (by simp)]
    simp only [bulkTrace, Machine.log_nil, Nat.add_zero]
    rfl
  | succ r ih =>
    intro c sumQuad m h1 h2
    rw [_squared_l2_neon.bulk, dif_neg (by omega), dif_neg (by unfold LONG_MIN; omega)]
    rw [K.bind_eq (vload_vec1 4 (4 * c) m (by omega))]
    rw [K.bind_eq (vload_vec2 4 (4 * c) _ (by simp only [Machine.log_vec2]; omega))]
    obtain ⟨sumQuad', hrun, hres⟩ := ih (c + 1)
      (fun j : Fin 4 => sumQuad j
        + (m.vec1.elems (4 * c + j.val) - m.vec2.elems (4 * c + j.val))
          * (m.vec1.elems (4 * c + j.val) - m.vec2.elems (4 * c + j.val)))
      ((m.log [.vload .vec1 (4 * c : Nat) 4]).log [.vload .vec2 (4 * c : Nat) 4])
      (by simp only [Machine.log_vec1]; omega) (by simp only [Machine.log_vec2]; omega)
    refine ⟨sumQuad', ?_, ?_⟩
    · rw [show ((4 * (c + 1 + r) : Nat) : Int) = ((4 * (c + (r + 1)) : Nat) : Int) by
          congr 1; ring,
        show ((4 * (c + 1) : Nat) : Int) = ((4 * c : Nat) : Int) + 4 by push_cast; ring] at hrun
      simp only [Machine.log_vec2] at hrun ⊢
      rw [show ((r + 1 : Nat) : Int) - 1 = (r : Int) by push_cast; ring]
      exact hrun.trans (by simp [bulkTrace])
    · rw [hres]
      simp only [Machine.log_vec1, Machine.log_vec2]
      rw [hsum_add_chunk sumQuad (fun i => (m.vec1.elems i - m.vec2.elems i)
        * (m.vec1.elems i - m.vec2.elems i)) (4 * c)]
      exact sum_chunk_succ 4 c r (fun i => (m.vec1.elems i - m.vec2.elems i)
        * (m.vec1.elems i - m.vec2.elems i)) (hsum sumQuad)

theorem _squared_l2_neon_leftover_eq (r : Nat) :
    ∀ (s : Nat) (sum : R) (m : Machine R), s + r ≤ m.vec1.len → s + r ≤ m.vec2.len →
      _squared_l2_neon.leftover (r : Int) (s : Int) (s : Int) sum m
        = .ok (sum + ∑ i in Finset.range r,
            (m.vec1.elems (s + i) - m.vec2.elems (s + i))
              * (m.vec1.elems (s + i) - m.vec2.elems (s + i)), m.log (scalarTrace s r)) := by
  induction r with
  | zero =>
    intro s sum m _ _
    rw [_squared_l2_neon.leftover, dif_pos (by simp)]
    simp only [Finset.range_zero, Finset.sum_empty, add_zero, scalarTrace, Machine.log_nil]
    rfl
  | succ r ih =>
    intro s sum m h1 h2
    rw [_squared_l2_neon.leftover, dif_neg (by omega)]
    rw [K.bind_eq (load_vec1 s m (by omega)),
      K.bind_eq (load_vec2 s _ (by simp only [Machine.log_vec2]; omega))]
    rw [dif_neg (by unfold LONG_MIN; omega)]
    rw [show ((r + 1 : Nat) : Int) - 1 = (r : Int) by push_cast; ring,
      show (s : Int) + 1 = ((s + 1 : Nat) : Int) by push_cast; rfl, ih (s + 1)]
    · simp only [Machine.log_log, Machine.log_vec1, Machine.log_vec2, scalarTrace,
        List.cons_append, List.nil_append]
      rw [sum_elem_succ s r (fun i => (m.vec1.elems i - m.vec2.elems i)
        * (m.vec1.elems i - m.vec2.elems i)) sum]
    · simp only [Machine.log_vec1]; omega
    · simp only [Machine.log_vec2]; omega

/-- What `_squared_l2_neon` does on a machine whose buffers hold at least `n`
elements. -/
theorem _squared_l2_neon_run_eq (n : Nat) (m : Machine R)
    (h1 : n ≤ m.vec1.len) (h2 : n ≤ m.vec2.len) :
    _squared_l2_neon (n : Int) m
      = .ok ((), (m.put (l2Ref m.vec1 m.vec2 n)).log
          (bulkTrace 4 0 (n / 4) ++ scalarTrace (4 * (n / 4)) (n % 4)
            ++ [.storeResult])) := by
  have hn : 4 * (n / 4) + n % 4 = n := Nat.div_add_mod n 4
  obtain ⟨sumQuad', hrun, hres⟩ := _squared_l2_neon_bulk_eq (n / 4) 0 (vdupq_n_f32 0 : Lanes 4 R) m
    (by omega) (by omega)
  have hl := fun t m' h h' => _squared_l2_neon_leftover_eq (n % 4) (4 * (n / 4)) (R := R)
    t m' h h'
  rw [hn] at hl
  rw [zero_add] at hrun
  unfold _squared_l2_neon
  simp only []
  rw [show (4 : Int) = ((4 : Nat) : Int) from rfl, tdiv_natCast, tmod_natCast,
    show (0 : Int) = ((4 * 0 : Nat) : Int) from rfl, K.bind_eq hrun]
  simp only []
  rw [K.bind_eq (hl _ _ (by simp only [Machine.log_vec1]; omega)
      (by simp only [Machine.log_vec2]; omega)), storeResult_eq]
  have h0 : hsum (vdupq_n_f32 0 : Lanes 4 R) = 0 := by simp [hsum, vdupq_n_f32]
  have hred : vget_lane_f32 (vadd_f32 (vget_low_f32 sumQuad') (vget_high_f32 sumQuad')) 0
      + vget_lane_f32 (vadd_f32 (vget_low_f32 sumQuad') (vget_high_f32 sumQuad')) 1
      = hsum sumQuad' := by
    rw [hsum_4]
    simp only [vget_lane_f32, vadd_f32, vget_low_f32, vget_high_f32]
    ring
  simp only [Machine.log_put, Machine.log_log, Machine.log_vec1, Machine.log_vec2,
    List.append_assoc, hred]
  rw [hres, h0, l2Ref_eq,
    ← sum_bulk_leftover 4 n (fun i => (m.vec1.elems i - m.vec2.elems i)
      * (m.vec1.elems i - m.vec2.elems i))]
  simp only [zero_add, Nat.mul_zero]

end NeonL2
end Math32

/-! ## Reading the access logs -/

namespace Math32

section Logs
variable {α : Type}

theorem outcome_of_run {k : K α Unit} {a b : Buf α} {r0 : α} {m : Machine α}
    (h : k (Machine.init a b r0) = .ok ((), m)) : outcome k a b r0 = some m.result := by
  unfold outcome run
  rw [h]

theorem accesses_of_run {k : K α Unit} {a b : Buf α} {r0 : α} {m : Machine α}
    (h : k (Machine.init a b r0) = .ok ((), m)) : accesses k a b r0 = some m.trace := by
  unfold accesses run
  rw [h]

theorem wideIndices_append (p : Operand) (t u : List Access) :
    wideIndices p (t ++ u) = wideIndices p t ++ wideIndices p u := by
  simp [wideIndices]

theorem scalarIndices_append (p : Operand) (t u : List Access) :
    scalarIndices p (t ++ u) = scalarIndices p t ++ scalarIndices p u := by
  simp [scalarIndices]

theorem span_zero (lo : Nat) : span lo 0 = [] := rfl

theorem span_succ (lo len : Nat) : span lo (len + 1) = (lo : Int) :: span (lo + 1) len := by
  unfold span
  rw [List.range'_succ, List.map_cons]

theorem span_append (k : Nat) : ∀ (lo len : Nat),
    span lo k ++ span (lo + k) len = span lo (k + len) := by
  induction k with
  | zero => intro lo len; rw [span_zero, List.nil_append, Nat.add_zero, Nat.zero_add]
  | succ k ih =>
    intro lo len
    rw [span_succ, show k + 1 + len = (k + len) + 1 by omega, span_succ, List.cons_append,
      ← ih (lo + 1) len, show lo + 1 + k = lo + (k + 1) by omega]

theorem map_offset_range (W : Nat) : ∀ k : Nat,
    (List.range W).map (fun (j : Nat) => (k : Int) + (j : Int)) = span k W := by
  induction W with
  | zero => intro k; rfl
  | succ W ih =>
    intro k
    rw [List.range_succ_eq_map, List.map_cons, List.map_map, span_succ, ← ih (k + 1)]
    have h0 : (k : Int) + ((0 : Nat) : Int) = (k : Int) := by simp
    rw [h0]
    congr 1
    apply List.map_congr_left
    intro j _
    simp only [Function.comp_apply]
    push_cast
    ring

theorem wide_chunk (p : Operand) (W k : Nat) :
    Access.wide p (.vload p (k : Nat) W) = span k W := by
  simp only [Access.wide, if_true]
  exact map_offset_range W k

theorem wideIndices_bulkTrace (p : Operand) (W r : Nat) :
    ∀ c : Nat, wideIndices p (bulkTrace W c r) = span (W * c) (W * r) := by
  induction r with
  | zero => intro c; rfl
  | succ r ih =>
    intro c
    have h := ih (c + 1)
    rw [show W * (r + 1) = W + W * r by ring, ← span_append W (W * c) (W * r), ← show W * (c + 1) = W * c + W by ring,
      ← h]
    cases p
    · simp only [bulkTrace, wideIndices, List.flatMap_cons]
      rw [wide_chunk]
      simp [Access.wide]
    · simp only [bulkTrace, wideIndices, List.flatMap_cons]
      rw [wide_chunk]
      simp [Access.wide]

theorem scalarIndices_bulkTrace (p : Operand) (W r : Nat) :
    ∀ c : Nat, scalarIndices p (bulkTrace W c r) = [] := by
  induction r with
  | zero => intro c; rfl
  | succ r ih =>
    intro c
    have h := ih (c + 1)
    simp only [scalarIndices] at h ⊢
    simp [bulkTrace, Access.scalar, h]

theorem wideIndices_scalarTrace (p : Operand) (r : Nat) :
    ∀ s : Nat, wideIndices p (scalarTrace s r) = [] := by
  induction r with
  | zero => intro s; rfl
  | succ r ih =>
    intro s
    have h := ih (s + 1)
    simp only [wideIndices] at h ⊢
    simp [scalarTrace, Access.wide, h]

theorem scalarIndices_scalarTrace (p : Operand) (r : Nat) :
    ∀ s : Nat, scalarIndices p (scalarTrace s r) = span s r := by
  induction r with
  | zero => intro s; rfl
  | succ r ih =>
    intro s
    have h := ih (s + 1)
    simp only [scalarIndices] at h ⊢
    rw [span_succ, ← h]
    cases p <;> simp [scalarTrace, Access.scalar]

theorem wideIndices_scalarTraceVia (p : Operand) (r : Nat) :
    ∀ s : Nat, wideIndices p (scalarTraceVia s r) = [] := by
  induction r with
  | zero => intro s; rfl
  | succ r ih =>
    intro s
    have h := ih (s + 1)
    simp only [wideIndices] at h ⊢
    simp [scalarTraceVia, Access.wide, h]

theorem scalarIndices_scalarTraceVia (p : Operand) (r : Nat) :
    ∀ s : Nat, scalarIndices p (scalarTraceVia s r) = span s r := by
  induction r with
  | zero => intro s; rfl
  | succ r ih =>
    intro s
    have h := ih (s + 1)
    simp only [scalarIndices] at h ⊢
    rw [span_succ, ← h]
    cases p <;> simp [scalarTraceVia, Access.scalar]

theorem wideIndices_updates (p : Operand) (r : Nat) : wideIndices p (updates r) = [] := by
  induction r with
  | zero => rfl
  | succ r ih =>
    simp only [wideIndices] at ih ⊢
    simp [updates, Access.wide, ih]

theorem scalarIndices_updates (p : Operand) (r : Nat) : scalarIndices p (updates r) = [] := by
  induction r with
  | zero => rfl
  | succ r ih =>
    simp only [scalarIndices] at ih ⊢
    simp [updates, Access.scalar, ih]

theorem wideLoads_append (t u : List Access) :
    wideLoads (t ++ u) = wideLoads t + wideLoads u := by
  simp [wideLoads]

theorem wideLoads_bulkTrace (W r : Nat) : ∀ c : Nat, wideLoads (bulkTrace W c r) = 2 * r := by
  induction r with
  | zero => intro c; rfl
  | succ r ih =>
    intro c
    have h := ih (c + 1)
    simp only [wideLoads] at h ⊢
    simp [bulkTrace, Access.isWide, h]
    ring

theorem wideLoads_scalarTrace (r : Nat) : ∀ s : Nat, wideLoads (scalarTrace s r) = 0 := by
  induction r with
  | zero => intro s; rfl
  | succ r ih =>
    intro s
    have h := ih (s + 1)
    simp only [wideLoads] at h ⊢
    simp [scalarTrace, Access.isWide, h]

theorem wideLoads_scalarTraceVia (r : Nat) : ∀ s : Nat, wideLoads (scalarTraceVia s r) = 0 := by
  induction r with
  | zero => intro s; rfl
  | succ r ih =>
    intro s
    have h := ih (s + 1)
    simp only [wideLoads] at h ⊢
    simp [scalarTraceVia, Access.isWide, h]

theorem wideLoads_updates (r : Nat) : wideLoads (updates r) = 0 := by
  induction r with
  | zero => rfl
  | succ r ih =>
    simp only [wideLoads] at ih ⊢
    simp [updates, Access.isWide, ih]

/-- A log made of `n / W` bulk chunks, then accesses `mid` that touch no
input, then the scalar loads of the last `n % W` indices, then accesses
`post` that touch no input, splits the indices at `n - n mod W`. -/
theorem splitAt_of_shape (W n : Nat) (hW : 0 < W) (bulk mid tail post : List Access)
    (hb1 : ∀ p, wideIndices p bulk = span (W * 0) (W * (n / W)))
    (hb2 : ∀ p, scalarIndices p bulk = [])
    (c : Nat) (hc : 0 < c) (hb3 : wideLoads bulk = c * (n / W))
    (hm1 : ∀ p, wideIndices p mid = []) (hm2 : ∀ p, scalarIndices p mid = [])
    (hm3 : wideLoads mid = 0)
    (ht1 : ∀ p, wideIndices p tail = [])
    (ht2 : ∀ p, scalarIndices p tail = span (W * (n / W)) (n % W))
    (ht3 : wideLoads tail = 0)
    (hp1 : ∀ p, wideIndices p post = []) (hp2 : ∀ p, scalarIndices p post = [])
    (hp3 : wideLoads post = 0) :
    SplitAt W n (bulk ++ mid ++ tail ++ post) := by
  have hn : W * (n / W) + n % W = n := Nat.div_add_mod n W
  have hsub : n - n % W = W * (n / W) := by omega
  refine ⟨fun p => ⟨?_, ?_⟩, ?_, ?_⟩
  · simp only [wideIndices_append, hb1, hm1, ht1, hp1, List.append_nil, hsub, Nat.mul_zero]
  · simp only [scalarIndices_append, hb2, hm2, ht2, hp2, List.append_nil, List.nil_append, hsub]
  · intro h
    simp only [wideLoads_append, hb3, hm3, ht3, hp3, Nat.div_eq_of_lt h, Nat.mul_zero]
  · intro h
    simp only [wideLoads_append, hb3, hm3, ht3, hp3, Nat.add_zero]
    exact Nat.mul_pos hc (Nat.div_pos h hW)

end Logs
end Math32

/-! ## The contract of the kernels -/

namespace Math32

section Contract
variable {R : Type} [CommRing R]

theorem dotRef_scenario : dotRef a9 b9 9 = 165 := by
  simp [dotRef, a9, b9, Buf.ofList, Finset.sum_range_succ]
  norm_num

theorem l2Ref_scenario : l2Ref a9 b9 9 = 240 := by
  simp [l2Ref, a9, b9, Buf.ofList, Finset.sum_range_succ]
  norm_num

/-- C1: for every `n ≥ 0`, all buffers `a`, `b` holding at least `n` elements
and every prior content `r0` of the result cell, `_dot_product_avx512`
returns normally and leaves exactly `Σ_{i<n} a[i] * b[i]` in the result
cell (arithmetic in any commutative ring). -/
theorem dot_product_avx512_correct (n : Nat) (a b : Buf R) (r0 : R)
    (ha : n ≤ a.len) (hb : n ≤ b.len) :
    outcome (_dot_product_avx512 (n : Int)) a b r0 = some (dotRef a b n) := by
  rw [outcome_of_run (_dot_product_avx512_run_eq n (Machine.init a b r0) ha hb)]
  rfl

/-- C1, concrete scenario: for `a = [1..9]`, `b = [9..1]`, `n = 9` (and a result
cell holding `7` on entry) `_dot_product_avx512` leaves `165`. -/
theorem dot_product_avx512_scenario :
    9 ≤ a9.len ∧ 9 ≤ b9.len
      ∧ outcome (_dot_product_avx512 ((9 : Nat) : Int)) a9 b9 7 = some 165 :=
  ⟨by decide, by decide,
    (dot_product_avx512_correct 9 a9 b9 7 (by decide) (by decide)).trans
      (congrArg some dotRef_scenario)⟩

/-- C2 at a failing input: entered with the result cell holding `7`,
`_dot_product_avx` leaves `172` for `a = [1..9]`, `b = [9..1]`, `n = 9`, where
the dot product is `165`: the prior content of the cell is added in. -/
theorem dot_product_avx_adds_prior_content :
    outcome (_dot_product_avx ((9 : Nat) : Int)) a9 b9 7 = some 172
      ∧ dotRef a9 b9 9 = 165 := by
  refine ⟨?_, dotRef_scenario⟩
  rw [outcome_of_run (_dot_product_avx_run_eq 9 (Machine.init a9 b9 7) (by decide) (by decide))]
  simp only [Machine.log_result, Machine.put_result, Machine.init_result, Machine.init_vec1,
    Machine.init_vec2, dotRef_scenario]
  norm_num

/-- C3 at a failing input: for `n = 2^34` and two buffers of `2^34` ones,
`_dot_product_neon` leaves `0` in the result cell, where the dot product is
`2^34`: `n / 8 = 2^31` does not fit the `int` variable `epoch`. -/
theorem dot_product_neon_narrows_epoch :
    outcome (_dot_product_neon ((17179869184 : Nat) : Int)) ones34 ones34 0 = some 0
      ∧ dotRef ones34 ones34 17179869184 = 17179869184 := by
  constructor
  · rw [outcome_of_run (_dot_product_neon_run_eq 17179869184 (Machine.init ones34 ones34 0)
      (by decide) (by decide))]
    have hE : (toInt32 (Int.tdiv ((17179869184 : Nat) : Int) 8)).toNat = 0 := by decide
    simp only [Machine.log_result, Machine.put_result, hE]
    simp [dotRef]
  · simp [dotRef, ones34]

/-- C4: for every `n ≥ 0`, all buffers holding at least `n` elements and every
prior content of the result cell, each of `_squared_l2_avx512`,
`_squared_l2_avx` and `_squared_l2_neon` returns normally and leaves exactly
`Σ_{i<n} (a[i] - b[i])^2` in the result cell; hence the three agree with each
other and with the scalar reference. -/
theorem squared_l2_correct (n : Nat) (a b : Buf R) (r0 : R)
    (ha : n ≤ a.len) (hb : n ≤ b.len) :
    outcome (_squared_l2_avx512 (n : Int)) a b r0 = some (l2Ref a b n)
      ∧ outcome (_squared_l2_avx (n : Int)) a b r0 = some (l2Ref a b n)
      ∧ outcome (_squared_l2_neon (n : Int)) a b r0 = some (l2Ref a b n) := by
  refine ⟨?_, ?_, ?_⟩
  · rw [outcome_of_run (_squared_l2_avx512_run_eq n (Machine.init a b r0) ha hb)]
    rfl
  · rw [outcome_of_run (_squared_l2_avx_run_eq n (Machine.init a b r0) ha hb)]
    rfl
  · rw [outcome_of_run (_squared_l2_neon_run_eq n (Machine.init a b r0) ha hb)]
    rfl

/-- C4, concrete scenario: for `a = [1..9]`, `b = [9..1]`, `n = 9` (and a result
cell holding `7` on entry) the three squared-L2 kernels leave `240`. -/
theorem squared_l2_scenario :
    9 ≤ a9.len ∧ 9 ≤ b9.len
      ∧ outcome (_squared_l2_avx512 ((9 : Nat) : Int)) a9 b9 7 = some 240
      ∧ outcome (_squared_l2_avx ((9 : Nat) : Int)) a9 b9 7 = some 240
      ∧ outcome (_squared_l2_neon ((9 : Nat) : Int)) a9 b9 7 = some 240 := by
  have h := squared_l2_correct 9 a9 b9 7 (by decide) (by decide)
  rw [l2Ref_scenario] at h
  exact ⟨by decide, by decide, h⟩

/-- C5 at a failing input: for `n = 0`, null input pointers and the result
cell holding `1` on entry, `_dot_product_avx` reads no input element, but it
leaves `1` in the result cell, not `0`. -/
theorem dot_product_avx_zero_length :
    outcome (_dot_product_avx ((0 : Nat) : Int)) Buf.null Buf.null (1 : ℚ) = some 1
      ∧ (accesses (_dot_product_avx ((0 : Nat) : Int)) Buf.null Buf.null (1 : ℚ)).map inputLoads
          = some 0 := by
  have h := _dot_product_avx_run_eq 0 (Machine.init Buf.null Buf.null (1 : ℚ))
    (Nat.zero_le _) (Nat.zero_le _)
  refine ⟨?_, ?_⟩
  · rw [outcome_of_run h]
    simp [dotRef]
  · rw [accesses_of_run h]
    simp [bulkTrace, scalarTraceVia, updates, inputLoads, Access.isInput]

end Contract
end Math32

/-! ## The result cell, symmetry, linearity, and the split of the index range -/

namespace Math32

section Relations
variable {R : Type} [CommRing R]

theorem count_store_append (t u : List Access) :
    (t ++ u).count .storeResult = t.count .storeResult + u.count .storeResult := by
  simp

theorem count_bulkTrace (e : Access) (he : e = .storeResult ∨ e = .loadResult) (W r : Nat) :
    ∀ c : Nat, (bulkTrace W c r).count e = 0 := by
  induction r with
  | zero => intro c; rfl
  | succ r ih =>
    intro c
    have h := ih (c + 1)
    rcases he with rfl | rfl <;> simp [bulkTrace, h]

theorem count_scalarTrace (e : Access) (he : e = .storeResult ∨ e = .loadResult) (r : Nat) :
    ∀ s : Nat, (scalarTrace s r).count e = 0 := by
  induction r with
  | zero => intro s; rfl
  | succ r ih =>
    intro s
    have h := ih (s + 1)
    rcases he with rfl | rfl <;> simp [scalarTrace, h]

theorem count_store_scalarTraceVia (r : Nat) :
    ∀ s : Nat, (scalarTraceVia s r).count .storeResult = r := by
  induction r with
  | zero => intro s; rfl
  | succ r ih =>
    intro s
    have h := ih (s + 1)
    simp [scalarTraceVia, h]

theorem count_store_updates (r : Nat) : (updates r).count .storeResult = r := by
  induction r with
  | zero => rfl
  | succ r ih => simp [updates, ih]

theorem resultAccesses_append (t u : List Access) :
    resultAccesses (t ++ u) = resultAccesses t ++ resultAccesses u := by
  simp [resultAccesses]

theorem resultAccesses_bulkTrace (W r : Nat) :
    ∀ c : Nat, resultAccesses (bulkTrace W c r) = [] := by
  induction r with
  | zero => intro c; rfl
  | succ r ih =>
    intro c
    have h := ih (c + 1)
    simp only [resultAccesses] at h ⊢
    simp [bulkTrace, Access.isResult, h]

theorem resultAccesses_updates (r : Nat) : resultAccesses (updates r) = updates r := by
  induction r with
  | zero => rfl
  | succ r ih =>
    simp only [resultAccesses] at ih ⊢
    simp [updates, Access.isResult, ih]

theorem updates_append (r k : Nat) : updates r ++ updates k = updates (r + k) := by
  induction r with
  | zero => simp [updates]
  | succ r ih =>
    rw [show r + 1 + k = (r + k) + 1 by omega]
    simp [updates, ih]

theorem resultAccesses_scalarTraceVia (r : Nat) :
    ∀ s : Nat, resultAccesses (scalarTraceVia s r) = updates r := by
  induction r with
  | zero => intro s; rfl
  | succ r ih =>
    intro s
    have h := ih (s + 1)
    simp only [resultAccesses] at h ⊢
    simp [scalarTraceVia, updates, Access.isResult, h]

theorem getLast?_updates (r : Nat) (t : List Access) :
    (t ++ .storeResult :: updates r).getLast? = some .storeResult := by
  induction r generalizing t with
  | zero => simp [updates]
  | succ r ih =>
    have := ih (t ++ [.storeResult, .loadResult])
    simpa [updates] using this

theorem getLast?_scalarTraceVia (r : Nat) :
    ∀ (s : Nat) (t : List Access),
      (t ++ .storeResult :: scalarTraceVia s r).getLast? = some .storeResult := by
  induction r with
  | zero => intro s t; simp [scalarTraceVia]
  | succ r ih =>
    intro s t
    have := ih (s + 1) (t ++ [.storeResult, .load .vec1 (s : Nat), .load .vec2 (s : Nat),
      .loadResult])
    simpa [scalarTraceVia] using this

/-- A log of wide and scalar input loads followed by one store has the shape
required of the result cell. -/
theorem storesOnceAtEnd_of_shape (W c r s k : Nat) :
    StoresOnceAtEnd (bulkTrace W c r ++ scalarTrace s k ++ [.storeResult]) := by
  refine ⟨?_, ?_, ?_⟩
  · simp [count_bulkTrace _ (Or.inl rfl), count_scalarTrace _ (Or.inl rfl)]
  · simp [count_bulkTrace _ (Or.inr rfl), count_scalarTrace _ (Or.inr rfl)]
  · simp

end Relations
end Math32

/-! ## The result cell (C6) -/

namespace Math32

section ResultCell
variable {R : Type} [CommRing R]

theorem getLast?_updates_scalarTraceVia (r s k : Nat) (t : List Access) :
    (t ++ .storeResult :: updates r ++ scalarTraceVia s k).getLast? = some .storeResult := by
  cases r with
  | zero =>
    have := getLast?_scalarTraceVia k s t
    simpa [updates] using this
  | succ r =>
    have h := getLast?_scalarTraceVia k s (t ++ .storeResult :: updates r ++ [.loadResult])
    rw [← updates_append r 1]
    simpa [updates] using h

theorem run_of_eq {α : Type} {k : K α Unit} {a b : Buf α} {r0 : α} {v : α} {t : List Access}
    (h : k (Machine.init a b r0) = .ok ((), ((Machine.init a b r0).put v).log t)) :
    ∃ m, run k a b r0 = .ok ((), m) ∧ m.vec1 = a ∧ m.vec2 = b ∧ m.trace = t ∧ m.result = v :=
  ⟨_, h, rfl, rfl, by simp, rfl⟩

/-- C6 (counterexample): called with `n = 0`, `_dot_product_avx512` stores to
the result cell 17 times and reads it 16 times: it first stores `0`, then
adds the 16 lanes to the cell one by one. -/
theorem dot_product_avx512_stores_repeatedly :
    accesses (_dot_product_avx512 ((0 : Nat) : Int)) Buf.null Buf.null (0 : ℚ)
        = some (.storeResult :: updates 16)
      ∧ (Access.storeResult :: updates 16).count .storeResult = 17
      ∧ (Access.storeResult :: updates 16).count .loadResult = 16 := by
  refine ⟨?_, by decide, by decide⟩
  rw [accesses_of_run (_dot_product_avx512_run_eq 0 (Machine.init Buf.null Buf.null (0 : ℚ))
    (Nat.zero_le _) (Nat.zero_le _))]
  simp [bulkTrace, scalarTraceVia]

/-- C6 (amended): for every `n ≥ 0`, all buffers holding at least `n` elements
and every prior content of the result cell, each kernel returns and leaves
both inputs unchanged; `_squared_l2_avx512`, `_squared_l2_avx`,
`_dot_product_neon` and `_squared_l2_neon` store to the result cell exactly
once, as their last access, and never read it; `_dot_product_avx512` first
stores `0` and then updates the cell `16 + n mod 16` times (a read followed
by a store), so it never reads the prior content; `_dot_product_avx` makes
`8 + n mod 8` stores and its last access is a store. -/
theorem result_cell_discipline (n : Nat) (a b : Buf R) (r0 : R)
    (ha : n ≤ a.len) (hb : n ≤ b.len) : ResultCellDiscipline n a b r0 := by
  refine ⟨?_, ?_, ?_, ?_, ?_, ?_⟩
  · obtain ⟨m, hm, h1, h2, ht, _⟩ :=
      run_of_eq (_squared_l2_avx512_run_eq n (Machine.init a b r0) ha hb)
    exact ⟨m, hm, h1, h2, by rw [ht]; exact storesOnceAtEnd_of_shape _ _ _ _ _⟩
  · obtain ⟨m, hm, h1, h2, ht, _⟩ :=
      run_of_eq (_squared_l2_avx_run_eq n (Machine.init a b r0) ha hb)
    exact ⟨m, hm, h1, h2, by rw [ht]; exact storesOnceAtEnd_of_shape _ _ _ _ _⟩
  · obtain ⟨m, hm, h1, h2, ht, _⟩ :=
      run_of_eq (_dot_product_neon_run_eq n (Machine.init a b r0) ha hb)
    exact ⟨m, hm, h1, h2, by rw [ht]; exact storesOnceAtEnd_of_shape _ _ _ _ _⟩
  · obtain ⟨m, hm, h1, h2, ht, _⟩ :=
      run_of_eq (_squared_l2_neon_run_eq n (Machine.init a b r0) ha hb)
    exact ⟨m, hm, h1, h2, by rw [ht]; exact storesOnceAtEnd_of_shape _ _ _ _ _⟩
  · obtain ⟨m, hm, h1, h2, ht, _⟩ :=
      run_of_eq (_dot_product_avx512_run_eq n (Machine.init a b r0) ha hb)
    refine ⟨m, hm, h1, h2, ?_, ?_⟩
    · rw [ht, resultAccesses_append, resultAccesses_append, resultAccesses_bulkTrace,
        resultAccesses_scalarTraceVia, List.nil_append, ← updates_append 16 (n % 16)]
      have h16 := resultAccesses_updates 16
      simp only [resultAccesses] at h16 ⊢
      simp only [List.filter_cons, Access.isResult, if_true, List.cons_append, h16]
    · rw [ht]
      exact getLast?_updates_scalarTraceVia 16 _ _ _
  · obtain ⟨m, hm, h1, h2, ht, _⟩ :=
      run_of_eq (_dot_product_avx_run_eq n (Machine.init a b r0) ha hb)
    refine ⟨m, hm, h1, h2, ?_, ?_⟩
    · rw [ht, count_store_append, count_store_append, count_bulkTrace _ (Or.inl rfl),
        count_store_updates, count_store_scalarTraceVia, Nat.zero_add]
    · rw [ht, show updates 8 = [.loadResult] ++ .storeResult :: updates 7 from rfl,
        ← List.append_assoc (bulkTrace 8 0 (n / 8))]
      exact getLast?_updates_scalarTraceVia 7 _ _ _

/-- C6 (amended), at the concrete scenario `a = [1..9]`, `b = [9..1]`, `n = 9`,
result cell holding `7`. -/
theorem result_cell_discipline_scenario :
    9 ≤ a9.len ∧ 9 ≤ b9.len ∧ ResultCellDiscipline 9 a9 b9 7 :=
  ⟨by decide, by decide, result_cell_discipline 9 a9 b9 7 (by decide) (by decide)⟩

end ResultCell
end Math32

/-! ## Self-distance, linearity (C8, C9) -/

namespace Math32

section Algebra
variable {R : Type} [CommRing R]

theorem l2Ref_comm (a b : Buf R) (n : Nat) : l2Ref a b n = l2Ref b a n := by
  unfold l2Ref
  apply Finset.sum_congr rfl
  intro i _
  ring

theorem l2Ref_self (a : Buf R) (n : Nat) : l2Ref a a n = 0 := by
  unfold l2Ref
  apply Finset.sum_eq_zero
  intro i _
  rw [sub_self]
  exact zero_pow (by decide)

theorem dotRef_scale (k : R) (a b : Buf R) (n : Nat) :
    dotRef (Buf.scale k a) b n = k * dotRef a b n := by
  unfold dotRef Buf.scale
  rw [Finset.mul_sum]
  apply Finset.sum_congr rfl
  intro i _
  simp only [mul_assoc]

/-- C8: for every `n ≥ 0`, every buffer `a` holding at least `n` elements and
every prior content of the result cell, each squared-L2 kernel called with
both operands equal to `a` returns and leaves `0` in the result cell
(arithmetic in any commutative ring). -/
theorem squared_l2_self (n : Nat) (a : Buf R) (r0 : R) (ha : n ≤ a.len) :
    outcome (_squared_l2_avx512 (n : Int)) a a r0 = some 0
      ∧ outcome (_squared_l2_avx (n : Int)) a a r0 = some 0
      ∧ outcome (_squared_l2_neon (n : Int)) a a r0 = some 0 := by
  refine ⟨?_, ?_, ?_⟩
  · rw [outcome_of_run (_squared_l2_avx512_run_eq n (Machine.init a a r0) ha ha)]
    exact congrArg some (l2Ref_self a n)
  · rw [outcome_of_run (_squared_l2_avx_run_eq n (Machine.init a a r0) ha ha)]
    exact congrArg some (l2Ref_self a n)
  · rw [outcome_of_run (_squared_l2_neon_run_eq n (Machine.init a a r0) ha ha)]
    exact congrArg some (l2Ref_self a n)

/-- C8 at the concrete vector `a = [1..9]`, `n = 9`, result cell holding `7`. -/
theorem squared_l2_self_scenario :
    9 ≤ a9.len
      ∧ outcome (_squared_l2_avx512 ((9 : Nat) : Int)) a9 a9 7 = some 0
      ∧ outcome (_squared_l2_avx ((9 : Nat) : Int)) a9 a9 7 = some 0
      ∧ outcome (_squared_l2_neon ((9 : Nat) : Int)) a9 a9 7 = some 0 :=
  ⟨by decide, squared_l2_self 9 a9 7 (by decide)⟩

/-- C9: for every constant `k`, every `n ≥ 0` and all buffers `a`, `b` holding
at least `n` elements, each dot-product kernel, entered with a zeroed result
cell, returns, and its result for `(k * a, b, n)` is `k` times its result for
`(a, b, n)` (arithmetic in any commutative ring).  For `_dot_product_neon`
this holds for every `n`, also where the narrowing of `n / 8` makes the
kernel sum a shorter range. -/
theorem dot_product_linear (k : R) (n : Nat) (a b : Buf R)
    (ha : n ≤ a.len) (hb : n ≤ b.len) :
    (∃ d, outcome (_dot_product_avx512 (n : Int)) a b 0 = some d
        ∧ outcome (_dot_product_avx512 (n : Int)) (Buf.scale k a) b 0 = some (k * d))
      ∧ (∃ d, outcome (_dot_product_avx (n : Int)) a b 0 = some d
        ∧ outcome (_dot_product_avx (n : Int)) (Buf.scale k a) b 0 = some (k * d))
      ∧ (∃ d, outcome (_dot_product_neon (n : Int)) a b 0 = some d
        ∧ outcome (_dot_product_neon (n : Int)) (Buf.scale k a) b 0 = some (k * d)) := by
  have hs : n ≤ (Buf.scale k a).len := ha
  refine ⟨⟨dotRef a b n, ?_, ?_⟩, ⟨dotRef a b n, ?_, ?_⟩,
    ⟨dotRef a b (8 * (toInt32 (Int.tdiv (n : Int) 8)).toNat + n % 8), ?_, ?_⟩⟩
  · rw [outcome_of_run (_dot_product_avx512_run_eq n (Machine.init a b 0) ha hb)]
    rfl
  · rw [outcome_of_run (_dot_product_avx512_run_eq n (Machine.init (Buf.scale k a) b 0) hs hb)]
    exact congrArg some (dotRef_scale k a b n)
  · rw [outcome_of_run (_dot_product_avx_run_eq n (Machine.init a b 0) ha hb)]
    simp only [Machine.log_result, Machine.put_result, Machine.init_result, Machine.init_vec1,
      Machine.init_vec2, zero_add]
  · rw [outcome_of_run (_dot_product_avx_run_eq n (Machine.init (Buf.scale k a) b 0) hs hb)]
    simp only [Machine.log_result, Machine.put_result, Machine.init_result, Machine.init_vec1,
      Machine.init_vec2, zero_add]
    exact congrArg some (dotRef_scale k a b n)
  · rw [outcome_of_run (_dot_product_neon_run_eq n (Machine.init a b 0) ha hb)]
    rfl
  · rw [outcome_of_run (_dot_product_neon_run_eq n (Machine.init (Buf.scale k a) b 0) hs hb)]
    exact congrArg some (dotRef_scale k a b _)

/-- C9 at the concrete scenario: `k = 3`, `a = [1..9]`, `b = [9..1]`, `n = 9`. -/
theorem dot_product_linear_scenario :
    9 ≤ a9.len ∧ 9 ≤ b9.len
      ∧ (∃ d, outcome (_dot_product_avx512 ((9 : Nat) : Int)) a9 b9 0 = some d
        ∧ outcome (_dot_product_avx512 ((9 : Nat) : Int)) (Buf.scale 3 a9) b9 0 = some (3 * d))
      ∧ (∃ d, outcome (_dot_product_avx ((9 : Nat) : Int)) a9 b9 0 = some d
        ∧ outcome (_dot_product_avx ((9 : Nat) : Int)) (Buf.scale 3 a9) b9 0 = some (3 * d))
      ∧ (∃ d, outcome (_dot_product_neon ((9 : Nat) : Int)) a9 b9 0 = some d
        ∧ outcome (_dot_product_neon ((9 : Nat) : Int)) (Buf.scale 3 a9) b9 0 = some (3 * d)) :=
  ⟨by decide, by decide, dot_product_linear 3 9 a9 b9 (by decide) (by decide)⟩

end Algebra
end Math32

/-! ## The split of the index range (C10) -/

namespace Math32

section Split
variable {R : Type} [CommRing R]

theorem wideIndices_store_updates (p : Operand) (r : Nat) :
    wideIndices p (.storeResult :: updates r) = [] := by
  have h := wideIndices_updates p r
  simp only [wideIndices] at h ⊢
  simp [Access.wide, h]

theorem scalarIndices_store_updates (p : Operand) (r : Nat) :
    scalarIndices p (.storeResult :: updates r) = [] := by
  have h := scalarIndices_updates p r
  simp only [scalarIndices] at h ⊢
  simp [Access.scalar, h]

theorem wideLoads_store_updates (r : Nat) : wideLoads (.storeResult :: updates r) = 0 := by
  have h := wideLoads_updates r
  simp only [wideLoads] at h ⊢
  simp [Access.isWide, h]

/-- The log of a kernel that accumulates through the result pointer. -/
theorem splitAt_via (W n : Nat) (hW : 0 < W) (mid : List Access)
    (hm1 : ∀ p, wideIndices p mid = []) (hm2 : ∀ p, scalarIndices p mid = [])
    (hm3 : wideLoads mid = 0) :
    SplitAt W n (bulkTrace W 0 (n / W) ++ mid ++ scalarTraceVia (W * (n / W)) (n % W)) := by
  have h := splitAt_of_shape W n hW (bulkTrace W 0 (n / W)) mid
    (scalarTraceVia (W * (n / W)) (n % W)) []
    (fun p => wideIndices_bulkTrace p W _ 0) (fun p => scalarIndices_bulkTrace p W _ 0)
    2 (by decide) (wideLoads_bulkTrace W _ 0) hm1 hm2 hm3
    (fun p => wideIndices_scalarTraceVia p _ _) (fun p => scalarIndices_scalarTraceVia p _ _)
    (wideLoads_scalarTraceVia _ _) (fun _ => rfl) (fun _ => rfl) rfl
  rw [List.append_nil] at h
  exact h

/-- The log of a kernel that keeps its sum in a local variable and stores it
at the end, with `c` chunks of width `V` per iteration of the vector loop. -/
theorem splitAt_local (V c q W n : Nat) (hW : 0 < W) (hc : 0 < c) (hV : V * c = W)
    (hq : q = n / W) :
    SplitAt W n (bulkTrace V 0 (c * q) ++ scalarTrace (W * q) (n % W)
      ++ [.storeResult]) := by
  subst hq
  have h := splitAt_of_shape W n hW (bulkTrace V 0 (c * (n / W))) []
    (scalarTrace (W * (n / W)) (n % W)) [.storeResult]
    (fun p => by
      rw [wideIndices_bulkTrace, ← Nat.mul_assoc, hV, Nat.mul_zero, Nat.mul_zero])
    (fun p => scalarIndices_bulkTrace p V _ 0)
    (2 * c) (by omega) (by rw [wideLoads_bulkTrace, Nat.mul_assoc])
    (fun _ => rfl) (fun _ => rfl) rfl
    (fun p => wideIndices_scalarTrace p _ _) (fun p => scalarIndices_scalarTrace p _ _)
    (wideLoads_scalarTrace _ _) (fun p => by cases p <;> rfl) (fun p => by cases p <;> rfl) rfl
  rw [List.append_nil] at h
  exact h

/-- C10 (counterexample): called with `n = 4` (and `a = [1..9]`, `b = [9..1]`),
`_dot_product_neon` makes no wide load at all and reads the indices `0, 1, 2,
3` in its scalar loop: its vector loop takes 8 elements per iteration, so
the range is not split at `n - n mod 4`. -/
theorem dot_product_neon_four_elements :
    accesses (_dot_product_neon ((4 : Nat) : Int)) a9 b9 (0 : ℚ)
        = some (scalarTrace 0 4 ++ [.storeResult])
      ∧ wideLoads (scalarTrace 0 4 ++ [.storeResult]) = 0
      ∧ scalarIndices .vec1 (scalarTrace 0 4 ++ [.storeResult]) = [0, 1, 2, 3]
      ∧ ¬ SplitAt 4 4 (scalarTrace 0 4 ++ [.storeResult]) := by
  refine ⟨?_, by decide, by decide, ?_⟩
  · rw [accesses_of_run (_dot_product_neon_run_eq_small 4 (by decide) (Machine.init a9 b9 (0 : ℚ))
      (by decide) (by decide))]
    simp [bulkTrace]
  · intro h
    have h4 := h.2.2 (Nat.le_refl 4)
    revert h4
    decide

/-- C10 (amended): for every `n ≥ 0`, all buffers holding at least `n` elements
and every prior content of the result cell, each kernel returns, its wide
loads cover exactly the indices `[0, n - n mod W)` of both inputs and its
scalar loads exactly `[n - n mod W, n)` (in increasing order, each index
once), with no wide load when `n < W` and at least one when `W ≤ n`, where
`W` is 16 for the AVX-512 kernels, 8 for the AVX kernels, 4 for
`_squared_l2_neon`, and 8 for `_dot_product_neon` (for `n < 2^34`). -/
theorem index_split (n : Nat) (a b : Buf R) (r0 : R)
    (ha : n ≤ a.len) (hb : n ≤ b.len) : IndexSplit n a b r0 := by
  refine ⟨⟨_, accesses_of_run (_dot_product_avx512_run_eq n (Machine.init a b r0) ha hb), ?_⟩,
    ⟨_, accesses_of_run (_squared_l2_avx512_run_eq n (Machine.init a b r0) ha hb), ?_⟩,
    ⟨_, accesses_of_run (_dot_product_avx_run_eq n (Machine.init a b r0) ha hb), ?_⟩,
    ⟨_, accesses_of_run (_squared_l2_avx_run_eq n (Machine.init a b r0) ha hb), ?_⟩,
    ⟨_, accesses_of_run (_squared_l2_neon_run_eq n (Machine.init a b r0) ha hb), ?_⟩,
    fun hn => ⟨_, accesses_of_run
      (_dot_product_neon_run_eq_small n hn (Machine.init a b r0) ha hb), ?_⟩⟩
  · simp only [Machine.log_trace, Machine.put_trace, Machine.init_trace, List.nil_append]
    exact splitAt_via 16 n (by decide) (.storeResult :: updates 16)
      (fun p => wideIndices_store_updates p 16) (fun p => scalarIndices_store_updates p 16)
      (wideLoads_store_updates 16)
  · simp only [Machine.log_trace, Machine.put_trace, Machine.init_trace, List.nil_append]
    have h := splitAt_local 16 1 (n / 16) 16 n (by decide) (by decide) rfl rfl
    rw [Nat.one_mul] at h
    exact h
  · simp only [Machine.log_trace, Machine.put_trace, Machine.init_trace, List.nil_append]
    exact splitAt_via 8 n (by decide) (updates 8)
      (fun p => wideIndices_updates p 8) (fun p => scalarIndices_updates p 8)
      (wideLoads_updates 8)
  · simp only [Machine.log_trace, Machine.put_trace, Machine.init_trace, List.nil_append]
    have h := splitAt_local 8 1 (n / 8) 8 n (by decide) (by decide) rfl rfl
    rw [Nat.one_mul] at h
    exact h
  · simp only [Machine.log_trace, Machine.put_trace, Machine.init_trace, List.nil_append]
    have h := splitAt_local 4 1 (n / 4) 4 n (by decide) (by decide) rfl rfl
    rw [Nat.one_mul] at h
    exact h
  · simp only [Machine.log_trace, Machine.put_trace, Machine.init_trace, List.nil_append]
    exact splitAt_local 4 2 (n / 8) 8 n (by decide) (by decide) rfl rfl

/-- C10 (amended), at the concrete scenario `a = [1..9]`, `b = [9..1]`, `n = 9`,
result cell holding `7`. -/
theorem index_split_scenario :
    9 ≤ a9.len ∧ 9 ≤ b9.len ∧ IndexSplit 9 a9 b9 7 :=
  ⟨by decide, by decide, index_split 9 a9 b9 7 (by decide) (by decide)⟩

end Split
end Math32

/-! ## The exact expression each kernel evaluates

The lemmas of this part hold in any arithmetic, without any law for `+`, `-`
and `*`: they record the order of the operations of each kernel. -/

namespace Math32

section Exact
variable {α : Type} [Zero α] [Add α] [Sub α] [Mul α]

set_option linter.unusedSectionVars false

theorem _dot_product_avx512_bulk_exact (r : Nat) :
    ∀ (c : Nat) (res : Lanes 16 α) (m : Machine α),
      16 * (c + r) ≤ m.vec1.len → 16 * (c + r) ≤ m.vec2.len →
      _dot_product_avx512.bulk ((16 * (c + r) : Nat) : Int) ((16 * c : Nat) : Int) res m
        = .ok (chunkAcc (prodAt m.vec1 m.vec2) c r res, m.log (bulkTrace 16 c r)) := by
  induction r with
  | zero =>
    intro c res m _ _
    rw [_dot_product_avx512.bulk, dif_neg (by simp)]
    simp only [bulkTrace, Machine.log_nil, chunkAcc]
    rfl
  | succ r ih =>
    intro c res m h1 h2
    rw [_dot_product_avx512.bulk, dif_pos (by omega)]
    rw [K.bind_eq (vload_vec1 16 (16 * c) m (by omega))]
    rw [K.bind_eq (vload_vec2 16 (16 * c) _ (by rw [Machine.log_vec2]; omega))]
    have h := ih (c + 1)
      (add_ps res (mul_ps (fun j => m.vec1.elems (16 * c + j.val))
        (fun j => m.vec2.elems (16 * c + j.val))))
      ((m.log [.vload .vec1 (16 * c : Nat) 16]).log [.vload .vec2 (16 * c : Nat) 16])
      (by rw [Machine.log_vec1, Machine.log_vec1]; omega)
      (by rw [Machine.log_vec2, Machine.log_vec2]; omega)
    rw [show ((16 * (c + 1 + r) : Nat) : Int) = ((16 * (c + (r + 1)) : Nat) : Int) by
        congr 1; ring,
      show ((16 * (c + 1) : Nat) : Int) = ((16 * c : Nat) : Int) + 16 by push_cast; ring] at h
    simp only [Machine.log_vec1, Machine.log_vec2, Machine.log_log] at h ⊢
    rw [h]
    simp only [Machine.log_log, bulkTrace, List.cons_append, List.nil_append]
    rfl

theorem _dot_product_avx512_lanes_exact (vec : Lanes 16 α) (d : Nat) :
    ∀ (k : Nat) (m : Machine α), k + d = 16 →
      _dot_product_avx512.lanes vec (k : Int) m
        = .ok ((), (m.put (laneAcc vec k d m.result)).log (updates d)) := by
  induction d with
  | zero =>
    intro k m hk
    rw [_dot_product_avx512.lanes, dif_neg (by omega)]
    simp only [laneAcc, updates, Machine.log_nil]
    rfl
  | succ d ih =>
    intro k m hk
    have hk' : k < 16 := by omega
    rw [_dot_product_avx512.lanes, dif_pos (by omega)]
    rw [K.bind_eq (index_eq vec k hk' m), K.bind_eq (loadResult_eq m),
      K.bind_eq (storeResult_eq _ _)]
    rw [show (k : Int) + 1 = ((k + 1 : Nat) : Int) by push_cast; rfl, ih (k + 1) _ (by omega)]
    simp only [Machine.log_put, Machine.put_put, Machine.log_log, Machine.put_result,
      Machine.log_result, updates, List.cons_append, List.nil_append, laneAcc]
    rw [show vec ⟨k, hk'⟩ = laneAt vec k by simp [laneAt, hk']]

theorem _dot_product_avx512_leftover_exact (r : Nat) :
    ∀ (s : Nat) (m : Machine α), s + r ≤ m.vec1.len → s + r ≤ m.vec2.len →
      _dot_product_avx512.leftover ((s + r : Nat) : Int) (s : Int) m
        = .ok ((), (m.put (scalarAcc (prodAt m.vec1 m.vec2) s r m.result)).log
            (scalarTraceVia s r)) := by
  induction r with
  | zero =>
    intro s m _ _
    rw [_dot_product_avx512.leftover, dif_neg (by simp)]
    simp only [scalarAcc, scalarTraceVia, Machine.log_nil]
    rfl
  | succ r ih =>
    intro s m h1 h2
    rw [_dot_product_avx512.leftover, dif_pos (by omega)]
    rw [K.bind_eq (load_vec1 s m (by omega)),
      K.bind_eq (load_vec2 s _ (by rw [Machine.log_vec2]; omega)),
      K.bind_eq (loadResult_eq _), K.bind_eq (storeResult_eq _ _)]
    rw [show ((s + (r + 1) : Nat) : Int) = ((s + 1 + r : Nat) : Int) by congr 1; omega,
      show (s : Int) + 1 = ((s + 1 : Nat) : Int) by push_cast; rfl, ih (s + 1)]
    · simp only [Machine.log_put, Machine.put_put, Machine.log_log, Machine.put_result,
        Machine.log_result, Machine.log_vec1, Machine.log_vec2, Machine.put_vec1,
        Machine.put_vec2, scalarTraceVia, List.cons_append, List.nil_append, scalarAcc]
      rfl
    · simp only [Machine.log_vec1, Machine.put_vec1]; omega
    · simp only [Machine.log_vec2, Machine.put_vec2]; omega

/-- The expression `_dot_product_avx512` evaluates: the sixteen lanes are
added to `0` one by one, then the leftover products. -/
theorem _dot_product_avx512_exact (n : Nat) (m : Machine α)
    (h1 : n ≤ m.vec1.len) (h2 : n ≤ m.vec2.len) :
    _dot_product_avx512 (n : Int) m
      = .ok ((), (m.put (scalarAcc (prodAt m.vec1 m.vec2) (16 * (n / 16)) (n % 16)
            (laneAcc (chunkAcc (prodAt m.vec1 m.vec2) 0 (n / 16) (setzero_ps : Lanes 16 α))
              0 16 0))).log
          (bulkTrace 16 0 (n / 16) ++ .storeResult :: updates 16
            ++ scalarTraceVia (16 * (n / 16)) (n % 16))) := by
  have hn : 16 * (n / 16) + n % 16 = n := Nat.div_add_mod n 16
  have hv : (n : Int) - Int.tmod (n : Int) 16 = ((16 * (0 + n / 16) : Nat) : Int) := by
    rw [show (16 : Int) = ((16 : Nat) : Int) from rfl, tmod_natCast]
    omega
  have hrun := _dot_product_avx512_bulk_exact (n / 16) 0 (setzero_ps : Lanes 16 α) m
    (by omega) (by omega)
  have hlanes := fun v m' => _dot_product_avx512_lanes_exact (α := α) v 16 0 m' (by omega)
  have hl := fun m' h h' => _dot_product_avx512_leftover_exact (n % 16) (16 * (n / 16)) (α := α)
    m' h h'
  rw [hn] at hl
  unfold _dot_product_avx512
  simp only [hv]
  rw [show (0 : Int) = ((16 * 0 : Nat) : Int) from rfl, K.bind_eq hrun,
    K.bind_eq (storeResult_eq _ _)]
  rw [show ((16 * 0 : Nat) : Int) = ((0 : Nat) : Int) from rfl, K.bind_eq (hlanes _ _)]
  rw [show ((16 * (0 + n / 16) : Nat) : Int) = ((16 * (n / 16) : Nat) : Int) by rw [Nat.zero_add],
    hl]
  rotate_left
  · simp only [Machine.log_vec1, Machine.put_vec1]; omega
  · simp only [Machine.log_vec2, Machine.put_vec2]; omega
  simp only [Machine.log_put, Machine.put_put, Machine.log_log, Machine.put_result,
    Machine.log_result, Machine.log_vec1, Machine.log_vec2, Machine.put_vec1,
    Machine.put_vec2, List.append_assoc, List.cons_append, List.nil_append,
    List.singleton_append]

end Exact
end Math32

namespace Math32

section ExactAvx
variable {α : Type} [Zero α] [Add α] [Sub α] [Mul α]

set_option linter.unusedSectionVars false

theorem _squared_l2_avx512_bulk_exact (r : Nat) :
    ∀ (c : Nat) (sum : Lanes 16 α) (m : Machine α),
      16 * (c + r) ≤ m.vec1.len → 16 * (c + r) ≤ m.vec2.len →
      _squared_l2_avx512.bulk ((c + r : Nat) : Int) (c : Int) sum m
        = .ok ((((c + r : Nat) : Int), chunkAcc (sqDiffAt m.vec1 m.vec2) c r sum),
            m.log (bulkTrace 16 c r)) := by
  induction r with
  | zero =>
    intro c sum m _ _
    rw [_squared_l2_avx512.bulk, dif_neg (by simp)]
    simp only [bulkTrace, Machine.log_nil, chunkAcc]
    rfl
  | succ r ih =>
    intro c sum m h1 h2
    rw [_squared_l2_avx512.bulk, dif_pos (by omega)]
    rw [show (c : Int) * 16 = ((16 * c : Nat) : Int) by push_cast; ring]
    rw [K.bind_eq (vload_vec1 16 (16 * c) m (by omega))]
    rw [K.bind_eq (vload_vec2 16 (16 * c) _ (by rw [Machine.log_vec2]; omega))]
    have h := ih (c + 1)
      (add_ps sum (mul_ps
        (sub_ps (fun j => m.vec1.elems (16 * c + j.val)) (fun j => m.vec2.elems (16 * c + j.val)))
        (sub_ps (fun j => m.vec1.elems (16 * c + j.val))
          (fun j => m.vec2.elems (16 * c + j.val)))))
      ((m.log [.vload .vec1 (16 * c : Nat) 16]).log [.vload .vec2 (16 * c : Nat) 16])
      (by rw [Machine.log_vec1, Machine.log_vec1]; omega)
      (by rw [Machine.log_vec2, Machine.log_vec2]; omega)
    rw [show ((c + 1 + r : Nat) : Int) = ((c + (r + 1) : Nat) : Int) by congr 1; omega,
      show ((c + 1 : Nat) : Int) = (c : Int) + 1 by push_cast; rfl] at h
    simp only [Machine.log_vec1, Machine.log_vec2, Machine.log_log] at h ⊢
    rw [h]
    simp only [Machine.log_log, bulkTrace, List.cons_append, List.nil_append]
    rfl

theorem _squared_l2_avx512_leftover_exact (r : Nat) :
    ∀ (s : Nat) (total : α) (m : Machine α), s + r ≤ m.vec1.len → s + r ≤ m.vec2.len →
      _squared_l2_avx512.leftover ((s + r : Nat) : Int) (s : Int) total m
        = .ok (scalarAcc (sqDiffAt m.vec1 m.vec2) s r total, m.log (scalarTrace s r)) := by
  induction r with
  | zero =>
    intro s total m _ _
    rw [_squared_l2_avx512.leftover, dif_neg (by simp)]
    simp only [scalarAcc, scalarTrace, Machine.log_nil]
    rfl
  | succ r ih =>
    intro s total m h1 h2
    rw [_squared_l2_avx512.leftover, dif_pos (by omega)]
    rw [K.bind_eq (load_vec1 s m (by omega)),
      K.bind_eq (load_vec2 s _ (by rw [Machine.log_vec2]; omega))]
    rw [show ((s + (r + 1) : Nat) : Int) = ((s + 1 + r : Nat) : Int) by congr 1; omega,
      show (s : Int) + 1 = ((s + 1 : Nat) : Int) by push_cast; rfl, ih (s + 1)]
    · simp only [Machine.log_log, Machine.log_vec1, Machine.log_vec2, scalarTrace,
        List.cons_append, List.nil_append, scalarAcc]
      rfl
    · simp only [Machine.log_vec1]; omega
    · simp only [Machine.log_vec2]; omega

/-- The expression `_squared_l2_avx512` evaluates: the sixteen lanes are
summed from left to right, then the leftover squares are added one by one. -/
theorem _squared_l2_avx512_exact (n : Nat) (m : Machine α)
    (h1 : n ≤ m.vec1.len) (h2 : n ≤ m.vec2.len) :
    _squared_l2_avx512 (n : Int) m
      = .ok ((), (m.put (scalarAcc (sqDiffAt m.vec1 m.vec2) (16 * (n / 16)) (n % 16)
            (sum16 (chunkAcc (sqDiffAt m.vec1 m.vec2) 0 (n / 16) setzero_ps)))).log
          (bulkTrace 16 0 (n / 16) ++ scalarTrace (16 * (n / 16)) (n % 16)
            ++ [.storeResult])) := by
  have hn : 16 * (n / 16) + n % 16 = n := Nat.div_add_mod n 16
  have hrun := _squared_l2_avx512_bulk_exact (n / 16) 0 (setzero_ps : Lanes 16 α) m
    (by omega) (by omega)
  have hl := fun t m' h h' => _squared_l2_avx512_leftover_exact (n % 16) (16 * (n / 16)) (α := α)
    t m' h h'
  rw [hn] at hl
  rw [Nat.zero_add] at hrun
  unfold _squared_l2_avx512
  rw [show (16 : Int) = ((16 : Nat) : Int) from rfl, tdiv_natCast,
    show (0 : Int) = ((0 : Nat) : Int) from rfl, K.bind_eq hrun]
  dsimp only
  rw [show ((n / 16 : Nat) : Int) * ((16 : Nat) : Int) = ((16 * (n / 16) : Nat) : Int) by
    push_cast; ring, K.bind_eq (hl _ _ (by simp only [Machine.log_vec1]; omega)
      (by simp only [Machine.log_vec2]; omega)), storeResult_eq]
  simp only [Machine.log_put, Machine.log_log, Machine.log_vec1, Machine.log_vec2,
    List.append_assoc]
  rfl

theorem _dot_product_avx_bulk_exact (n r : Nat) :
    ∀ (c : Nat) (sumvec : Lanes 8 α) (m : Machine α),
      c + r = n / 8 → n ≤ m.vec1.len → n ≤ m.vec2.len →
      _dot_product_avx.bulk (n : Int) ((8 * c : Nat) : Int) sumvec m
        = .ok ((((8 * (n / 8) : Nat) : Int), chunkAcc (prodAt m.vec1 m.vec2) c r sumvec),
            m.log (bulkTrace 8 c r)) := by
  have hv : (n : Int) - Int.tmod (n : Int) 8 = ((8 * (n / 8) : Nat) : Int) :=
    vectorized_end_natCast n 8
  have hn := Nat.div_add_mod n 8
  induction r with
  | zero =>
    intro c sumvec m hc _ _
    rw [_dot_product_avx.bulk, dif_neg (by rw [hv]; omega)]
    simp only [bulkTrace, Machine.log_nil, chunkAcc]
    rw [show n / 8 = c by omega]
    rfl
  | succ r ih =>
    intro c sumvec m hc h1 h2
    rw [_dot_product_avx.bulk, dif_pos (by rw [hv]; omega)]
    rw [K.bind_eq (vload_vec1 8 (8 * c) m (by omega))]
    rw [K.bind_eq (vload_vec2 8 (8 * c) _ (by rw [Machine.log_vec2]; omega))]
    have h := ih (c + 1)
      (add_ps sumvec (mul_ps (fun j => m.vec1.elems (8 * c + j.val))
        (fun j => m.vec2.elems (8 * c + j.val))))
      ((m.log [.vload .vec1 (8 * c : Nat) 8]).log [.vload .vec2 (8 * c : Nat) 8])
      (by omega) (by rw [Machine.log_vec1, Machine.log_vec1]; omega)
      (by rw [Machine.log_vec2, Machine.log_vec2]; omega)
    rw [show ((8 * (c + 1) : Nat) : Int) = ((8 * c : Nat) : Int) + 8 by push_cast; ring] at h
    simp only [Machine.log_vec1, Machine.log_vec2, Machine.log_log] at h ⊢
    rw [h]
    simp only [Machine.log_log, bulkTrace, List.cons_append, List.nil_append]
    rfl

theorem _dot_product_avx_lanes_exact (temp : Lanes 8 α) (d : Nat) :
    ∀ (k : Nat) (m : Machine α), k + d = 8 →
      _dot_product_avx.lanes temp (k : Int) m
        = .ok ((), (m.put (laneAcc temp k d m.result)).log (updates d)) := by
  induction d with
  | zero =>
    intro k m hk
    rw [_dot_product_avx.lanes, dif_neg (by omega)]
    simp only [laneAcc, updates, Machine.log_nil]
    rfl
  | succ d ih =>
    intro k m hk
    have hk' : k < 8 := by omega
    rw [_dot_product_avx.lanes, dif_pos (by omega)]
    rw [K.bind_eq (index_eq temp k hk' m), K.bind_eq (loadResult_eq m),
      K.bind_eq (storeResult_eq _ _)]
    rw [show (k : Int) + 1 = ((k + 1 : Nat) : Int) by push_cast; rfl, ih (k + 1) _ (by omega)]
    simp only [Machine.log_put, Machine.put_put, Machine.log_log, Machine.put_result,
      Machine.log_result, updates, List.cons_append, List.nil_append, laneAcc]
    rw [show temp ⟨k, hk'⟩ = laneAt temp k by simp [laneAt, hk']]

theorem _dot_product_avx_leftover_exact (r : Nat) :
    ∀ (s : Nat) (m : Machine α), s + r ≤ m.vec1.len → s + r ≤ m.vec2.len →
      _dot_product_avx.leftover ((s + r : Nat) : Int) (s : Int) m
        = .ok ((), (m.put (scalarAcc (prodAt m.vec1 m.vec2) s r m.result)).log
            (scalarTraceVia s r)) := by
  induction r with
  | zero =>
    intro s m _ _
    rw [_dot_product_avx.leftover, dif_neg (by simp)]
    simp only [scalarAcc, scalarTraceVia, Machine.log_nil]
    rfl
  | succ r ih =>
    intro s m h1 h2
    rw [_dot_product_avx.leftover, dif_pos (by omega)]
    rw [K.bind_eq (load_vec1 s m (by omega)),
      K.bind_eq (load_vec2 s _ (by rw [Machine.log_vec2]; omega)),
      K.bind_eq (loadResult_eq _), K.bind_eq (storeResult_eq _ _)]
    rw [show ((s + (r + 1) : Nat) : Int) = ((s + 1 + r : Nat) : Int) by congr 1; omega,
      show (s : Int) + 1 = ((s + 1 : Nat) : Int) by push_cast; rfl, ih (s + 1)]
    · simp only [Machine.log_put, Machine.put_put, Machine.log_log, Machine.put_result,
        Machine.log_result, Machine.log_vec1, Machine.log_vec2, Machine.put_vec1,
        Machine.put_vec2, scalarTraceVia, List.cons_append, List.nil_append, scalarAcc]
      rfl
    · simp only [Machine.log_vec1, Machine.put_vec1]; omega
    · simp only [Machine.log_vec2, Machine.put_vec2]; omega

/-- The expression `_dot_product_avx` evaluates: the eight lanes are added to
the content of the result cell one by one, then the leftover products. -/
theorem _dot_product_avx_exact (n : Nat) (m : Machine α)
    (h1 : n ≤ m.vec1.len) (h2 : n ≤ m.vec2.len) :
    _dot_product_avx (n : Int) m
      = .ok ((), (m.put (scalarAcc (prodAt m.vec1 m.vec2) (8 * (n / 8)) (n % 8)
            (laneAcc (chunkAcc (prodAt m.vec1 m.vec2) 0 (n / 8) (setzero_ps : Lanes 8 α))
              0 8 m.result))).log
          (bulkTrace 8 0 (n / 8) ++ updates 8
            ++ scalarTraceVia (8 * (n / 8)) (n % 8))) := by
  have hn : 8 * (n / 8) + n % 8 = n := Nat.div_add_mod n 8
  have hrun := _dot_product_avx_bulk_exact n (n / 8) 0 (setzero_ps : Lanes 8 α) m
    (by omega) h1 h2
  have hlanes := fun v m' => _dot_product_avx_lanes_exact (α := α) v 8 0 m' (by omega)
  have hl := fun m' h h' => _dot_product_avx_leftover_exact (n % 8) (8 * (n / 8)) (α := α) m' h h'
  rw [hn] at hl
  unfold _dot_product_avx
  rw [show (0 : Int) = ((8 * 0 : Nat) : Int) from rfl, K.bind_eq hrun]
  dsimp only
  rw [show ((8 * 0 : Nat) : Int) = ((0 : Nat) : Int) from rfl, K.bind_eq (hlanes _ _), hl]
  rotate_left
  · simp only [Machine.log_vec1, Machine.put_vec1]; omega
  · simp only [Machine.log_vec2, Machine.put_vec2]; omega
  simp only [Machine.log_put, Machine.put_put, Machine.log_log, Machine.put_result,
    Machine.log_result, Machine.log_vec1, Machine.log_vec2, Machine.put_vec1,
    Machine.put_vec2, List.append_assoc]

theorem _squared_l2_avx_bulk_exact (n r : Nat) :
    ∀ (c : Nat) (res : Lanes 8 α) (m : Machine α),
      c + r = n / 8 → n ≤ m.vec1.len → n ≤ m.vec2.len →
      _squared_l2_avx.bulk (n : Int) ((8 * c : Nat) : Int) res m
        = .ok ((((8 * (n / 8) : Nat) : Int), chunkAcc (sqDiffAt m.vec1 m.vec2) c r res),
            m.log (bulkTrace 8 c r)) := by
  have hv : (n : Int) - Int.tmod (n : Int) 8 = ((8 * (n / 8) : Nat) : Int) :=
    vectorized_end_natCast n 8
  have hn := Nat.div_add_mod n 8
  induction r with
  | zero =>
    intro c res m hc _ _
    rw [_squared_l2_avx.bulk, dif_neg (by rw [hv]; omega)]
    simp only [bulkTrace, Machine.log_nil, chunkAcc]
    rw [show n / 8 = c by omega]
    rfl
  | succ r ih =>
    intro c res m hc h1 h2
    rw [_squared_l2_avx.bulk, dif_pos (by rw [hv]; omega)]
    rw [K.bind_eq (vload_vec1 8 (8 * c) m (by omega))]
    rw [K.bind_eq (vload_vec2 8 (8 * c) _ (by rw [Machine.log_vec2]; omega))]
    have h := ih (c + 1)
      (add_ps res (mul_ps
        (sub_ps (fun j => m.vec1.elems (8 * c + j.val)) (fun j => m.vec2.elems (8 * c + j.val)))
        (sub_ps (fun j => m.vec1.elems (8 * c + j.val))
          (fun j => m.vec2.elems (8 * c + j.val)))))
      ((m.log [.vload .vec1 (8 * c : Nat) 8]).log [.vload .vec2 (8 * c : Nat) 8])
      (by omega) (by rw [Machine.log_vec1, Machine.log_vec1]; omega)
      (by rw [Machine.log_vec2, Machine.log_vec2]; omega)
    rw [show ((8 * (c + 1) : Nat) : Int) = ((8 * c : Nat) : Int) + 8 by push_cast; ring] at h
    simp only [Machine.log_vec1, Machine.log_vec2, Machine.log_log] at h ⊢
    rw [h]
    simp only [Machine.log_log, bulkTrace, List.cons_append, List.nil_append]
    rfl

theorem _squared_l2_avx_leftover_exact (r : Nat) :
    ∀ (s : Nat) (sum : α) (m : Machine α), s + r ≤ m.vec1.len → s + r ≤ m.vec2.len →
      _squared_l2_avx.leftover ((s + r : Nat) : Int) (s : Int) sum m
        = .ok (scalarAcc (sqDiffAt m.vec1 m.vec2) s r sum, m.log (scalarTrace s r)) := by
  induction r with
  | zero =>
    intro s sum m _ _
    rw [_squared_l2_avx.leftover, dif_neg (by simp)]
    simp only [scalarAcc, scalarTrace, Machine.log_nil]
    rfl
  | succ r ih =>
    intro s sum m h1 h2
    rw [_squared_l2_avx.leftover, dif_pos (by omega)]
    rw [K.bind_eq (load_vec1 s m (by omega)),
      K.bind_eq (load_vec2 s _ (by rw [Machine.log_vec2]; omega))]
    rw [show ((s + (r + 1) : Nat) : Int) = ((s + 1 + r : Nat) : Int) by congr 1; omega,
      show (s : Int) + 1 = ((s + 1 : Nat) : Int) by push_cast; rfl, ih (s + 1)]
    · simp only [Machine.log_log, Machine.log_vec1, Machine.log_vec2, scalarTrace,
        List.cons_append, List.nil_append, scalarAcc]
      rfl
    · simp only [Machine.log_vec1]; omega
    · simp only [Machine.log_vec2]; omega

theorem _squared_l2_avx_lanes_exact (temp : Lanes 8 α) (d : Nat) :
    ∀ (k : Nat) (sum : α) (m : Machine α), k + d = 8 →
      _squared_l2_avx.lanes temp (k : Int) sum m = .ok (laneAcc temp k d sum, m) := by
  induction d with
  | zero =>
    intro k sum m hk
    rw [_squared_l2_avx.lanes, dif_neg (by omega)]
    rfl
  | succ d ih =>
    intro k sum m hk
    have hk' : k < 8 := by omega
    rw [_squared_l2_avx.lanes, dif_pos (by omega)]
    rw [K.bind_eq (index_eq temp k hk' m)]
    rw [show (k : Int) + 1 = ((k + 1 : Nat) : Int) by push_cast; rfl, ih (k + 1) _ _ (by omega)]
    rw [show temp ⟨k, hk'⟩ = laneAt temp k by simp [laneAt, hk']]
    rfl

/-- The expression `_squared_l2_avx` evaluates: the residual squares are
summed first, starting from `0`, and the eight lanes are then added to that
sum one by one. -/
theorem _squared_l2_avx_exact (n : Nat) (m : Machine α)
    (h1 : n ≤ m.vec1.len) (h2 : n ≤ m.vec2.len) :
    _squared_l2_avx (n : Int) m
      = .ok ((), (m.put (laneAcc
            (chunkAcc (sqDiffAt m.vec1 m.vec2) 0 (n / 8) (setzero_ps : Lanes 8 α)) 0 8
            (scalarAcc (sqDiffAt m.vec1 m.vec2) (8 * (n / 8)) (n % 8) 0))).log
          (bulkTrace 8 0 (n / 8) ++ scalarTrace (8 * (n / 8)) (n % 8)
            ++ [.storeResult])) := by
  have hn : 8 * (n / 8) + n % 8 = n := Nat.div_add_mod n 8
  have hrun := _squared_l2_avx_bulk_exact n (n / 8) 0 (setzero_ps : Lanes 8 α) m
    (by omega) h1 h2
  have hl := fun t m' h h' => _squared_l2_avx_leftover_exact (n % 8) (8 * (n / 8)) (α := α)
    t m' h h'
  rw [hn] at hl
  have hlanes := fun v t m' => _squared_l2_avx_lanes_exact (α := α) v 8 0 t m' (by omega)
  unfold _squared_l2_avx
  dsimp only
  rw [show (0 : Int) = ((8 * 0 : Nat) : Int) from rfl, K.bind_eq hrun]
  dsimp only
  rw [K.bind_eq (hl _ _ (by simp only [Machine.log_vec1]; omega)
      (by simp only [Machine.log_vec2]; omega)),
    show ((8 * 0 : Nat) : Int) = ((0 : Nat) : Int) from rfl, K.bind_eq (hlanes _ _ _),
    storeResult_eq]
  simp only [Machine.log_put, Machine.log_log, Machine.log_vec1, Machine.log_vec2,
    List.append_assoc]

end ExactAvx
end Math32

namespace Math32

section ExactNeon
variable {α : Type} [Zero α] [Add α] [Sub α] [Mul α]

set_option linter.unusedSectionVars false

theorem _dot_product_neon_bulk_exact (epoch : Int) (r : Nat) :
    ∀ (c : Nat) (sum1 sum2 : Lanes 4 α) (m : Machine α),
      (epoch - c).toNat = r → 8 * (c + r) ≤ m.vec1.len → 8 * (c + r) ≤ m.vec2.len →
      _dot_product_neon.bulk epoch (c : Int) ((8 * c : Nat) : Int) ((8 * c : Nat) : Int)
          sum1 sum2 m
        = .ok ((((8 * (c + r) : Nat) : Int), ((8 * (c + r) : Nat) : Int),
              (chunkAcc2 (prodAt m.vec1 m.vec2) c r (sum1, sum2)).1,
              (chunkAcc2 (prodAt m.vec1 m.vec2) c r (sum1, sum2)).2),
            m.log (bulkTrace 4 (2 * c) (2 * r))) := by
  induction r with
  | zero =>
    intro c sum1 sum2 m hc _ _
    rw [_dot_product_neon.bulk, dif_neg (by omega)]
    simp only [bulkTrace, Machine.log_nil, Nat.mul_zero, chunkAcc2]
    rfl
  | succ r ih =>
    intro c sum1 sum2 m hc h1 h2
    rw [_dot_product_neon.bulk, dif_pos (by omega)]
    rw [K.bind_eq (vload_vec1 4 (8 * c) m (by omega))]
    rw [K.bind_eq (vload_vec2 4 (8 * c) _ (by rw [Machine.log_vec2]; omega))]
    dsimp only
    rw [show ((8 * c : Nat) : Int) + 4 = ((8 * c + 4 : Nat) : Int) by push_cast; rfl]
    rw [K.bind_eq (vload_vec1 4 (8 * c + 4) _ (by simp only [Machine.log_vec1]; omega))]
    rw [K.bind_eq (vload_vec2 4 (8 * c + 4) _ (by simp only [Machine.log_vec2]; omega))]
    have h := ih (c + 1)
      (vmlaq_f32 sum1 (fun j => m.vec1.elems (8 * c + j.val))
        (fun j => m.vec2.elems (8 * c + j.val)))
      (vmlaq_f32 sum2 (fun j => m.vec1.elems (8 * c + 4 + j.val))
        (fun j => m.vec2.elems (8 * c + 4 + j.val)))
      ((((m.log [.vload .vec1 (8 * c : Nat) 4]).log [.vload .vec2 (8 * c : Nat) 4]).log
        [.vload .vec1 (8 * c + 4 : Nat) 4]).log [.vload .vec2 (8 * c + 4 : Nat) 4])
      (by push_cast; omega) (by simp only [Machine.log_vec1]; omega)
      (by simp only [Machine.log_vec2]; omega)
    rw [show ((8 * (c + 1 + r) : Nat) : Int) = ((8 * (c + (r + 1)) : Nat) : Int) by
        congr 1; ring,
      show ((8 * (c + 1) : Nat) : Int) = ((8 * c + 4 : Nat) : Int) + 4 by push_cast; ring,
      show ((c + 1 : Nat) : Int) = (c : Int) + 1 by push_cast; rfl] at h
    simp only [Machine.log_vec1, Machine.log_vec2, Machine.log_log] at h ⊢
    rw [h]
    rw [show 2 * (c + 1) = 2 * c + 1 + 1 by ring, show 2 * (r + 1) = 2 * r + 1 + 1 by ring]
    simp only [bulkTrace, Machine.log_log, List.cons_append, List.nil_append]
    rw [show 4 * (2 * c) = 8 * c by ring, show 4 * (2 * c + 1) = 8 * c + 4 by ring]
    rfl

theorem _dot_product_neon_leftover_exact (remain : Int) (s : Nat) (r : Nat) :
    ∀ (k t : Nat) (remain_sum : α) (m : Machine α),
      (remain - k).toNat = r → t = s + k → t + r ≤ m.vec1.len → t + r ≤ m.vec2.len →
      _dot_product_neon.leftover remain (s : Int) (s : Int) (k : Int) remain_sum m
        = .ok (scalarAcc (prodAt m.vec1 m.vec2) t r remain_sum, m.log (scalarTrace t r)) := by
  induction r with
  | zero =>
    intro k t remain_sum m hk _ _ _
    rw [_dot_product_neon.leftover, dif_neg (by omega)]
    simp only [scalarAcc, scalarTrace, Machine.log_nil]
    rfl
  | succ r ih =>
    intro k t remain_sum m hk ht h1 h2
    rw [_dot_product_neon.leftover, dif_pos (by omega)]
    rw [show (s : Int) + (k : Int) = ((t : Nat) : Int) by rw [ht]; push_cast; rfl]
    rw [K.bind_eq (load_vec1 t m (by omega)),
      K.bind_eq (load_vec2 t _ (by rw [Machine.log_vec2]; omega))]
    rw [show (k : Int) + 1 = ((k + 1 : Nat) : Int) by push_cast; rfl,
      ih (k + 1) (t + 1) _ _ (by push_cast; omega) (by omega)]
    · simp only [Machine.log_log, Machine.log_vec1, Machine.log_vec2, scalarTrace,
        List.cons_append, List.nil_append, scalarAcc]
      rfl
    · simp only [Machine.log_vec1]; omega
    · simp only [Machine.log_vec2]; omega

/-- The expression `_dot_product_neon` evaluates, for every `long` value `n`
(negative ones included): with `E` and `Rm` the values of its `int` variables
`epoch` and `remain` (`0` where negative), the remainder sum over `Rm` elements
is added into lane 0 of the first accumulator before the reduction. -/
theorem _dot_product_neon_exact (n : Int) (m : Machine α) (E Rm : Nat)
    (hE : (toInt32 (Int.tdiv n 8)).toNat = E) (hR : (toInt32 (Int.tmod n 8)).toNat = Rm)
    (h1 : 8 * E + Rm ≤ m.vec1.len) (h2 : 8 * E + Rm ≤ m.vec2.len) :
    _dot_product_neon n m
      = .ok ((), (m.put (neonInject
            (chunkAcc2 (prodAt m.vec1 m.vec2) 0 E (vdupq_n_f32 0, vdupq_n_f32 0)).1
            (chunkAcc2 (prodAt m.vec1 m.vec2) 0 E (vdupq_n_f32 0, vdupq_n_f32 0)).2
            (scalarAcc (prodAt m.vec1 m.vec2) (8 * E) Rm 0))).log
          (bulkTrace 4 0 (2 * E) ++ scalarTrace (8 * E) Rm ++ [.storeResult])) := by
  have hrun := _dot_product_neon_bulk_exact (toInt32 (Int.tdiv n 8)) E 0
    (vdupq_n_f32 0 : Lanes 4 α) (vdupq_n_f32 0 : Lanes 4 α) m
    (by rw [← hE]; simp) (by omega) (by omega)
  rw [Nat.zero_add, Nat.mul_zero] at hrun
  have hl := _dot_product_neon_leftover_exact (toInt32 (Int.tmod n 8)) (8 * E) Rm 0 (8 * E)
    (0 : α) (m.log (bulkTrace 4 0 (2 * E))) (by rw [← hR]; simp) rfl
    (by rw [Machine.log_vec1]; omega) (by rw [Machine.log_vec2]; omega)
  unfold _dot_product_neon
  rw [show (0 : Int) = ((0 : Nat) : Int) from rfl, K.bind_eq hrun]
  dsimp only
  rw [K.bind_eq hl, storeResult_eq]
  simp only [Machine.log_put, Machine.log_log, Machine.log_vec1, Machine.log_vec2,
    List.append_assoc, Nat.mul_zero]
  rfl

theorem _squared_l2_neon_bulk_exact (r : Nat) :
    ∀ (c : Nat) (sumQuad : Lanes 4 α) (m : Machine α),
      4 * (c + r) ≤ m.vec1.len → 4 * (c + r) ≤ m.vec2.len →
      _squared_l2_neon.bulk (r : Int) ((4 * c : Nat) : Int) ((4 * c : Nat) : Int) sumQuad m
        = .ok ((((4 * (c + r) : Nat) : Int), ((4 * (c + r) : Nat) : Int),
              chunkAcc (sqDiffAt m.vec1 m.vec2) c r sumQuad),
            m.log (bulkTrace 4 c r)) := by
  induction r with
  | zero =>
    intro c sumQuad m _ _
    rw [_squared_l2_neon.bulk, dif_pos (by simp)]
    simp only [bulkTrace, Machine.log_nil, chunkAcc]
    rfl
  | succ r ih =>
    intro c sumQuad m h1 h2
    rw [_squared_l2_neon.bulk, dif_neg (by omega), dif_neg (by unfold LONG_MIN; omega)]
    rw [K.bind_eq (vload_vec1 4 (4 * c) m (by omega))]
    rw [K.bind_eq (vload_vec2 4 (4 * c) _ (by rw [Machine.log_vec2]; omega))]
    have h := ih (c + 1)
      (vmlaq_f32 sumQuad
        (vsubq_f32 (fun j => m.vec1.elems (4 * c + j.val))
          (fun j => m.vec2.elems (4 * c + j.val)))
        (vsubq_f32 (fun j => m.vec1.elems (4 * c + j.val))
          (fun j => m.vec2.elems (4 * c + j.val))))
      ((m.log [.vload .vec1 (4 * c : Nat) 4]).log [.vload .vec2 (4 * c : Nat) 4])
      (by rw [Machine.log_vec1, Machine.log_vec1]; omega)
      (by rw [Machine.log_vec2, Machine.log_vec2]; omega)
    rw [show ((4 * (c + 1 + r) : Nat) : Int) = ((4 * (c + (r + 1)) : Nat) : Int) by
        congr 1; ring,
      show ((4 * (c + 1) : Nat) : Int) = ((4 * c : Nat) : Int) + 4 by push_cast; ring] at h
    simp only [Machine.log_vec1, Machine.log_vec2, Machine.log_log] at h ⊢
    rw [show ((r + 1 : Nat) : Int) - 1 = (r : Int) by push_cast; ring, h]
    simp only [Machine.log_log, bulkTrace, List.cons_append, List.nil_append]
    rfl

theorem _squared_l2_neon_leftover_exact (r : Nat) :
    ∀ (s : Nat) (sum : α) (m : Machine α), s + r ≤ m.vec1.len → s + r ≤ m.vec2.len →
      _squared_l2_neon.leftover (r : Int) (s : Int) (s : Int) sum m
        = .ok (scalarAcc (sqDiffAt m.vec1 m.vec2) s r sum, m.log (scalarTrace s r)) := by
  induction r with
  | zero =>
    intro s sum m _ _
    rw [_squared_l2_neon.leftover, dif_pos (by simp)]
    simp only [scalarAcc, scalarTrace, Machine.log_nil]
    rfl
  | succ r ih =>
    intro s sum m h1 h2
    rw [_squared_l2_neon.leftover, dif_neg (by omega)]
    rw [K.bind_eq (load_vec1 s m (by omega)),
      K.bind_eq (load_vec2 s _ (by rw [Machine.log_vec2]; omega))]
    rw [dif_neg (by unfold LONG_MIN; omega)]
    rw [show ((r + 1 : Nat) : Int) - 1 = (r : Int) by push_cast; ring,
      show (s : Int) + 1 = ((s + 1 : Nat) : Int) by push_cast; rfl, ih (s + 1)]
    · simp only [Machine.log_log, Machine.log_vec1, Machine.log_vec2, scalarTrace,
        List.cons_append, List.nil_append, scalarAcc]
      rfl
    · simp only [Machine.log_vec1]; omega
    · simp only [Machine.log_vec2]; omega

/-- The expression `_squared_l2_neon` evaluates: the four lanes are reduced
(low half plus high half, then the two lanes), then the remaining squares
are added one by one. -/
theorem _squared_l2_neon_exact (n : Nat) (m : Machine α)
    (h1 : n ≤ m.vec1.len) (h2 : n ≤ m.vec2.len) :
    _squared_l2_neon (n : Int) m
      = .ok ((), (m.put (scalarAcc (sqDiffAt m.vec1 m.vec2) (4 * (n / 4)) (n % 4)
            (neonPairSum (chunkAcc (sqDiffAt m.vec1 m.vec2) 0 (n / 4) (vdupq_n_f32 0))))).log
          (bulkTrace 4 0 (n / 4) ++ scalarTrace (4 * (n / 4)) (n % 4)
            ++ [.storeResult])) := by
  have hn : 4 * (n / 4) + n % 4 = n := Nat.div_add_mod n 4
  have hrun := _squared_l2_neon_bulk_exact (n / 4) 0 (vdupq_n_f32 0 : Lanes 4 α) m
    (by omega) (by omega)
  have hl := fun t m' h h' => _squared_l2_neon_leftover_exact (n % 4) (4 * (n / 4)) (α := α)
    t m' h h'
  rw [hn] at hl
  rw [Nat.zero_add] at hrun
  unfold _squared_l2_neon
  dsimp only
  rw [show (4 : Int) = ((4 : Nat) : Int) from rfl, tdiv_natCast, tmod_natCast,
    show (0 : Int) = ((4 * 0 : Nat) : Int) from rfl, K.bind_eq hrun]
  dsimp only
  rw [K.bind_eq (hl _ _ (by simp only [Machine.log_vec1]; omega)
      (by simp only [Machine.log_vec2]; omega)), storeResult_eq]
  simp only [Machine.log_put, Machine.log_log, Machine.log_vec1, Machine.log_vec2,
    List.append_assoc]
  rfl

end ExactNeon
end Math32

/-! ## Coverage of the indices, order of the additions, termination (C11, C12, C13) -/

namespace Math32

section Behaviour
variable {α : Type} [Zero α] [Add α] [Sub α] [Mul α]

/-- C11 at a failing input: for `n = 2^34` and two buffers of `2^34` ones,
`_dot_product_neon` makes one access only, the store to the result cell: it
reads none of the indices `0 .. n-1`. -/
theorem dot_product_neon_reads_nothing :
    accesses (_dot_product_neon ((17179869184 : Nat) : Int)) ones34 ones34 (0 : ℚ)
        = some [.storeResult]
      ∧ inputLoads [Access.storeResult] = 0 := by
  refine ⟨?_, by decide⟩
  rw [accesses_of_run (_dot_product_neon_run_eq 17179869184 (Machine.init ones34 ones34 0)
    (by decide) (by decide))]
  have hE : (toInt32 (Int.tdiv ((17179869184 : Nat) : Int) 8)).toNat = 0 := by decide
  simp only [Machine.log_trace, Machine.put_trace, Machine.init_trace, hE]
  simp [bulkTrace, scalarTrace]

/-- C12 (counterexample): over symbolic floats, for `n = 9`, the expression
that `_squared_l2_avx` evaluates has no subexpression holding all of the
bulk elements `0..7` without the remainder element `8`, and neither has the
expression of `_dot_product_neon`: both bring the remainder in before the
lanes are reduced.  (The expression of `_squared_l2_neon` has one.) -/
theorem remainder_enters_before_reduction :
    (outcome (_squared_l2_avx ((9 : Nat) : Int)) (Buf.sym .vec1 9) (Buf.sym .vec2 9) 0).map
        (reducesLanesFirst (List.range 8) [8]) = some false
      ∧ (outcome (_dot_product_neon ((9 : Nat) : Int)) (Buf.sym .vec1 9) (Buf.sym .vec2 9) 0).map
        (reducesLanesFirst (List.range 8) [8]) = some false
      ∧ (outcome (_squared_l2_neon ((9 : Nat) : Int)) (Buf.sym .vec1 9) (Buf.sym .vec2 9) 0).map
        (reducesLanesFirst (List.range 8) [8]) = some true := by
  refine ⟨?_, ?_, ?_⟩
  · rw [outcome_of_run (_squared_l2_avx_exact 9
      (Machine.init (Buf.sym .vec1 9) (Buf.sym .vec2 9) 0) (by decide) (by decide))]
    decide
  · rw [outcome_of_run (_dot_product_neon_exact ((9 : Nat) : Int)
      (Machine.init (Buf.sym .vec1 9) (Buf.sym .vec2 9) 0) 1 1 (by decide) (by decide)
      (by decide) (by decide))]
    decide
  · rw [outcome_of_run (_squared_l2_neon_exact 9
      (Machine.init (Buf.sym .vec1 9) (Buf.sym .vec2 9) 0) (by decide) (by decide))]
    decide

/-- C12 (amended): in an arithmetic without any law for `+`, `-`, `*`, for every
`n ≥ 0`, all buffers holding at least `n` elements and every prior content
`r0`: `_dot_product_avx512`, `_squared_l2_avx512`, `_dot_product_avx` (on a
zeroed cell) and `_squared_l2_neon` first reduce their accumulator lanes to
one scalar and then add the remainder terms to that scalar one by one;
`_squared_l2_avx` sums the remainder terms first and then adds its eight
lanes to that sum one by one; `_dot_product_neon` (for `n < 2^34`) adds the
remainder sum into lane 0 of its first accumulator before the reduction. -/
theorem addition_order (n : Nat) (a b : Buf α) (r0 : α)
    (ha : n ≤ a.len) (hb : n ≤ b.len) : AdditionOrder n a b r0 := by
  refine ⟨?_, ?_, ?_, ?_, ?_, fun hn => ?_⟩
  · rw [outcome_of_run (_dot_product_avx512_exact n (Machine.init a b r0) ha hb)]
    rfl
  · rw [outcome_of_run (_squared_l2_avx512_exact n (Machine.init a b r0) ha hb)]
    rfl
  · rw [outcome_of_run (_dot_product_avx_exact n (Machine.init a b 0) ha hb)]
    rfl
  · rw [outcome_of_run (_squared_l2_neon_exact n (Machine.init a b r0) ha hb)]
    rfl
  · rw [outcome_of_run (_squared_l2_avx_exact n (Machine.init a b r0) ha hb)]
    rfl
  · have hq := Nat.div_add_mod n 8
    rw [outcome_of_run (_dot_product_neon_exact (n : Int) (Machine.init a b r0) (n / 8) (n % 8)
      (epochs_of_small n hn) (by
        rw [show (8 : Int) = ((8 : Nat) : Int) from rfl, tmod_natCast,
          toInt32_of_small _ (by omega) (by omega)]
        omega)
      (by rw [Machine.init_vec1]; omega) (by rw [Machine.init_vec2]; omega))]
    rfl

/-- C12 (amended), on nine symbolic elements per input. -/
theorem addition_order_symbolic :
    9 ≤ (Buf.sym .vec1 9).len ∧ 9 ≤ (Buf.sym .vec2 9).len
      ∧ AdditionOrder 9 (Buf.sym .vec1 9) (Buf.sym .vec2 9) 0 :=
  ⟨by decide, by decide,
    addition_order 9 (Buf.sym .vec1 9) (Buf.sym .vec2 9) 0 (by decide) (by decide)⟩

end Behaviour
end Math32

/-! ## Termination, the prior content, negative lengths, the two kernels of a
family (C13, C14, C15, C16) -/

namespace Math32

section Remaining
variable {R : Type} [CommRing R]

theorem length_span (lo len : Nat) : (span lo len).length = len := by
  simp [span]

theorem remainderIterations_via (W q r s : Nat) (mid : List Access)
    (hm : scalarIndices .vec1 mid = []) :
    remainderIterations (bulkTrace W 0 q ++ mid ++ scalarTraceVia s r) = r := by
  unfold remainderIterations
  rw [scalarIndices_append, scalarIndices_append, scalarIndices_bulkTrace, hm,
    scalarIndices_scalarTraceVia, List.nil_append, List.nil_append, length_span]

theorem bulkIterations_via (W q r s : Nat) (mid : List Access) (hm : wideLoads mid = 0) :
    bulkIterations 2 (bulkTrace W 0 q ++ mid ++ scalarTraceVia s r) = q := by
  unfold bulkIterations
  rw [wideLoads_append, wideLoads_append, wideLoads_bulkTrace, hm, wideLoads_scalarTraceVia]
  omega

theorem remainderIterations_local (W q r s : Nat) :
    remainderIterations (bulkTrace W 0 q ++ scalarTrace s r ++ [.storeResult]) = r := by
  unfold remainderIterations
  rw [scalarIndices_append, scalarIndices_append, scalarIndices_bulkTrace,
    scalarIndices_scalarTrace, List.nil_append,
    show scalarIndices .vec1 [Access.storeResult] = [] from rfl, List.append_nil, length_span]

theorem wideLoads_local (W q r s : Nat) :
    wideLoads (bulkTrace W 0 q ++ scalarTrace s r ++ [.storeResult]) = 2 * q := by
  rw [wideLoads_append, wideLoads_append, wideLoads_bulkTrace, wideLoads_scalarTrace,
    show wideLoads [Access.storeResult] = 0 from rfl]
  omega

/-- C13: for every `n ≥ 0`, all buffers holding at least `n` elements and every
prior content of the result cell, each of the six kernels returns (the
model functions are total and here they do not fault), and the iterations
of its vector loop plus those of its scalar loop number at most `n`. -/
theorem loops_bounded (n : Nat) (a b : Buf R) (r0 : R)
    (ha : n ≤ a.len) (hb : n ≤ b.len) : LoopBound n a b r0 := by
  have hE := epochs_le n
  have hneon := _dot_product_neon_run_eq n (Machine.init a b r0) ha hb
  generalize (toInt32 (Int.tdiv (n : Int) 8)).toNat = E at hE hneon
  refine ⟨⟨_, accesses_of_run (_dot_product_avx512_run_eq n (Machine.init a b r0) ha hb), ?_⟩,
    ⟨_, accesses_of_run (_squared_l2_avx512_run_eq n (Machine.init a b r0) ha hb), ?_⟩,
    ⟨_, accesses_of_run (_dot_product_avx_run_eq n (Machine.init a b r0) ha hb), ?_⟩,
    ⟨_, accesses_of_run (_squared_l2_avx_run_eq n (Machine.init a b r0) ha hb), ?_⟩,
    ⟨_, accesses_of_run hneon, ?_⟩,
    ⟨_, accesses_of_run (_squared_l2_neon_run_eq n (Machine.init a b r0) ha hb), ?_⟩⟩
  · rw [Machine.log_trace, Machine.put_trace, Machine.init_trace, List.nil_append,
      bulkIterations_via 16 _ _ _ _ (wideLoads_store_updates 16),
      remainderIterations_via 16 _ _ _ _ (scalarIndices_store_updates .vec1 16)]
    have := Nat.div_add_mod n 16
    omega
  · rw [Machine.log_trace, Machine.put_trace, Machine.init_trace, List.nil_append,
      bulkIterations, wideLoads_local, remainderIterations_local]
    have := Nat.div_add_mod n 16
    omega
  · rw [Machine.log_trace, Machine.put_trace, Machine.init_trace, List.nil_append,
      bulkIterations_via 8 _ _ _ _ (wideLoads_updates 8),
      remainderIterations_via 8 _ _ _ _ (scalarIndices_updates .vec1 8)]
    have := Nat.div_add_mod n 8
    omega
  · rw [Machine.log_trace, Machine.put_trace, Machine.init_trace, List.nil_append,
      bulkIterations, wideLoads_local, remainderIterations_local]
    have := Nat.div_add_mod n 8
    omega
  · rw [Machine.log_trace, Machine.put_trace, Machine.init_trace, List.nil_append,
      bulkIterations, wideLoads_local, remainderIterations_local]
    have := Nat.div_add_mod n 8
    omega
  · rw [Machine.log_trace, Machine.put_trace, Machine.init_trace, List.nil_append,
      bulkIterations, wideLoads_local, remainderIterations_local]
    have := Nat.div_add_mod n 4
    omega

/-- C13 at the concrete scenario `a = [1..9]`, `b = [9..1]`, `n = 9`, result cell
holding `7`. -/
theorem loops_bounded_scenario :
    9 ≤ a9.len ∧ 9 ≤ b9.len ∧ LoopBound 9 a9 b9 7 :=
  ⟨by decide, by decide, loops_bounded 9 a9 b9 7 (by decide) (by decide)⟩

/-- C14: for every `n ≥ 0`, all buffers holding at least `n` elements and every
prior content `r0` of the result cell, `_dot_product_avx` returns and leaves
`r0 + Σ_{i<n} a[i] * b[i]` in the result cell; so it leaves the plain dot
product exactly when the cell is zero on entry. -/
theorem dot_product_avx_accumulates (n : Nat) (a b : Buf R) (r0 : R)
    (ha : n ≤ a.len) (hb : n ≤ b.len) :
    outcome (_dot_product_avx (n : Int)) a b r0 = some (r0 + dotRef a b n)
      ∧ (outcome (_dot_product_avx (n : Int)) a b r0 = some (dotRef a b n) ↔ r0 = 0) := by
  have h : outcome (_dot_product_avx (n : Int)) a b r0 = some (r0 + dotRef a b n) := by
    rw [outcome_of_run (_dot_product_avx_run_eq n (Machine.init a b r0) ha hb)]
    rfl
  refine ⟨h, ?_⟩
  rw [h, Option.some.injEq]
  exact add_left_eq_self

/-- C14 at the concrete scenario `a = [1..9]`, `b = [9..1]`, `n = 9`, result cell
holding `7`: the kernel leaves `7 + 165`. -/
theorem dot_product_avx_accumulates_scenario :
    9 ≤ a9.len ∧ 9 ≤ b9.len
      ∧ outcome (_dot_product_avx ((9 : Nat) : Int)) a9 b9 7 = some (7 + dotRef a9 b9 9)
      ∧ (outcome (_dot_product_avx ((9 : Nat) : Int)) a9 b9 7 = some (dotRef a9 b9 9)
        ↔ (7 : ℚ) = 0) :=
  ⟨by decide, by decide, dot_product_avx_accumulates 9 a9 b9 7 (by decide) (by decide)⟩

/-- C15 (counterexample): for the negative length `n = -34359738360`
(`n / 8 = -(2^32 - 1)`, which narrows to the `int` value `1`), and `a = [1..9]`,
`b = [9..1]`, `_dot_product_neon` runs its vector loop once: it makes four wide
loads and leaves `156`, the dot product of the first eight elements, where
for `n = 0` it reads nothing and leaves `0`. -/
theorem dot_product_neon_negative_length :
    outcome (_dot_product_neon (-34359738360)) a9 b9 (0 : ℚ) = some 156
      ∧ (accesses (_dot_product_neon (-34359738360)) a9 b9 (0 : ℚ)).map wideLoads = some 4
      ∧ outcome (_dot_product_neon ((0 : Nat) : Int)) a9 b9 (0 : ℚ) = some 0
      ∧ (accesses (_dot_product_neon ((0 : Nat) : Int)) a9 b9 (0 : ℚ)).map wideLoads
          = some 0 := by
  have h := _dot_product_neon_exact (-34359738360) (Machine.init a9 b9 (0 : ℚ)) 1 0
    (by decide) (by decide) (by decide) (by decide)
  have h0 := _dot_product_neon_run_eq_small 0 (by decide) (Machine.init a9 b9 (0 : ℚ))
    (by decide) (by decide)
  refine ⟨?_, ?_, ?_, ?_⟩
  · rw [outcome_of_run h]
    simp only [Machine.log_result, Machine.put_result, Machine.init_vec1, Machine.init_vec2]
    have h3 : ((3 : Fin 4) : Nat) = 3 := rfl
    simp [neonInject, chunkAcc2, scalarAcc, prodAt, a9, b9, Buf.ofList, vget_lane_f32,
      vget_low_f32, vpaddq_f32, vaddq_f32, vsetq_lane_f32, vgetq_lane_f32, vdupq_n_f32, h3]
    norm_num
  · rw [accesses_of_run h]
    decide
  · rw [outcome_of_run h0]
    simp [dotRef]
  · rw [accesses_of_run h0]
    decide

/-- C16 at a failing input: for `n = 2^34`, `a` all ones and `b` all zeros,
`_squared_l2_neon` leaves `2^34`, while `_dot_product_neon` leaves `0` for each of
`(a, a)`, `(a, b)` and `(b, b)`: the squared distance is not
`dot(a,a) - 2 dot(a,b) + dot(b,b)`. -/
theorem squared_l2_neon_not_from_dot :
    outcome (_squared_l2_neon ((17179869184 : Nat) : Int)) ones34 zeros34 0 = some 17179869184
      ∧ outcome (_dot_product_neon ((17179869184 : Nat) : Int)) ones34 ones34 0 = some 0
      ∧ outcome (_dot_product_neon ((17179869184 : Nat) : Int)) ones34 zeros34 0 = some 0
      ∧ outcome (_dot_product_neon ((17179869184 : Nat) : Int)) zeros34 zeros34 0 = some 0
      ∧ (17179869184 : ℚ) ≠ 0 - 2 * 0 + 0 := by
  have hE : (toInt32 (Int.tdiv ((17179869184 : Nat) : Int) 8)).toNat = 0 := by decide
  refine ⟨?_, ?_, ?_, ?_, by norm_num⟩
  · rw [outcome_of_run (_squared_l2_neon_run_eq 17179869184 (Machine.init ones34 zeros34 0)
      (by decide) (by decide))]
    simp [l2Ref, ones34, zeros34]
  · rw [outcome_of_run (_dot_product_neon_run_eq 17179869184 (Machine.init ones34 ones34 0)
      (by decide) (by decide))]
    simp only [Machine.log_result, Machine.put_result, hE]
    simp [dotRef]
  · rw [outcome_of_run (_dot_product_neon_run_eq 17179869184 (Machine.init ones34 zeros34 0)
      (by decide) (by decide))]
    simp only [Machine.log_result, Machine.put_result, hE]
    simp [dotRef]
  · rw [outcome_of_run (_dot_product_neon_run_eq 17179869184 (Machine.init zeros34 zeros34 0)
      (by decide) (by decide))]
    simp only [Machine.log_result, Machine.put_result, hE]
    simp [dotRef]

end Remaining
end Math32

/-! ## Symmetry in an arithmetic without laws (C7) -/

namespace Math32

section Symmetry
variable {α : Type} [Zero α] [Add α] [Sub α] [Mul α]

set_option linter.unusedSectionVars false

theorem sqDiffAt_comm (hsq : ∀ x y : α, (x - y) * (x - y) = (y - x) * (y - x))
    (a b : Buf α) : sqDiffAt b a = sqDiffAt a b := by
  funext i
  exact hsq _ _

/-- C7: in any arithmetic in which `(x - y) * (x - y) = (y - x) * (y - x)` (no
other law is assumed: addition need be neither associative nor
commutative), for every `n ≥ 0`, all buffers `a`, `b` holding at least `n`
elements and all prior contents `r0`, `r1` of the result cell, each squared-L2
kernel returns on `(a, b, n)` and on `(b, a, n)` and leaves exactly the same
value. -/
theorem squared_l2_symmetric
    (hsq : ∀ x y : α, (x - y) * (x - y) = (y - x) * (y - x))
    (n : Nat) (a b : Buf α) (r0 r1 : α) (ha : n ≤ a.len) (hb : n ≤ b.len) :
    (∃ d, outcome (_squared_l2_avx512 (n : Int)) a b r0 = some d
        ∧ outcome (_squared_l2_avx512 (n : Int)) b a r1 = some d)
      ∧ (∃ d, outcome (_squared_l2_avx (n : Int)) a b r0 = some d
        ∧ outcome (_squared_l2_avx (n : Int)) b a r1 = some d)
      ∧ (∃ d, outcome (_squared_l2_neon (n : Int)) a b r0 = some d
        ∧ outcome (_squared_l2_neon (n : Int)) b a r1 = some d) := by
  have hg := sqDiffAt_comm hsq a b
  refine ⟨?_, ?_, ?_⟩
  · have h1 := outcome_of_run (_squared_l2_avx512_exact n (Machine.init a b r0) ha hb)
    have h2 := outcome_of_run (_squared_l2_avx512_exact n (Machine.init b a r1) hb ha)
    simp only [Machine.log_result, Machine.put_result, Machine.init_vec1,
      Machine.init_vec2] at h1 h2
    rw [hg] at h2
    exact ⟨_, h1, h2⟩
  · have h1 := outcome_of_run (_squared_l2_avx_exact n (Machine.init a b r0) ha hb)
    have h2 := outcome_of_run (_squared_l2_avx_exact n (Machine.init b a r1) hb ha)
    simp only [Machine.log_result, Machine.put_result, Machine.init_vec1,
      Machine.init_vec2] at h1 h2
    rw [hg] at h2
    exact ⟨_, h1, h2⟩
  · have h1 := outcome_of_run (_squared_l2_neon_exact n (Machine.init a b r0) ha hb)
    have h2 := outcome_of_run (_squared_l2_neon_exact n (Machine.init b a r1) hb ha)
    simp only [Machine.log_result, Machine.put_result, Machine.init_vec1,
      Machine.init_vec2] at h1 h2
    rw [hg] at h2
    exact ⟨_, h1, h2⟩

/-- C7 at the concrete scenario over the rationals: `a = [1..9]`, `b = [9..1]`,
`n = 9`, the result cell holding `7` before the first call and `3` before the
second. -/
theorem squared_l2_symmetric_scenario :
    (∀ x y : ℚ, (x - y) * (x - y) = (y - x) * (y - x))
      ∧ 9 ≤ a9.len ∧ 9 ≤ b9.len
      ∧ (∃ d, outcome (_squared_l2_avx512 ((9 : Nat) : Int)) a9 b9 7 = some d
        ∧ outcome (_squared_l2_avx512 ((9 : Nat) : Int)) b9 a9 3 = some d)
      ∧ (∃ d, outcome (_squared_l2_avx ((9 : Nat) : Int)) a9 b9 7 = some d
        ∧ outcome (_squared_l2_avx ((9 : Nat) : Int)) b9 a9 3 = some d)
      ∧ (∃ d, outcome (_squared_l2_neon ((9 : Nat) : Int)) a9 b9 7 = some d
        ∧ outcome (_squared_l2_neon ((9 : Nat) : Int)) b9 a9 3 = some d) :=
  ⟨fun x y => by ring, by decide, by decide,
    squared_l2_symmetric (fun x y => by ring) 9 a9 b9 7 3 (by decide) (by decide)⟩

end Symmetry
end Math32

/-! ## Negative lengths (C15, amended) -/

namespace Math32

section Negative
variable {α : Type} [Zero α] [Add α] [Sub α] [Mul α]

set_option linter.unusedSectionVars false

theorem tmod_neg_natCast (k W : Nat) :
    Int.tmod (-(k : Int)) (W : Int) = -((k % W : Nat) : Int) := by
  have h : (W : Int) * ((k / W : Nat) : Int) + ((k % W : Nat) : Int) = (k : Int) := by
    exact_mod_cast Nat.div_add_mod k W
  rw [Int.tmod_def, Int.neg_tdiv, tdiv_natCast]
  linear_combination h

theorem tdiv_neg_natCast (k W : Nat) :
    Int.tdiv (-(k : Int)) (W : Int) = -((k / W : Nat) : Int) := by
  rw [Int.neg_tdiv, tdiv_natCast]

theorem toInt32_of_small_neg (x : Int) (h0 : x ≤ 0) (h1 : -2147483648 ≤ x) :
    toInt32 x = x := by
  unfold toInt32
  omega

theorem pure_bind_run {β γ : Type} (v : β) (f : β → K α γ) (m : Machine α) :
    ((Pure.pure v : K α β) >>= f) m = f v m := rfl

theorem exists_neg_natCast (n : Int) (hn : n < 0) : ∃ k : Nat, 0 < k ∧ n = -(k : Int) :=
  ⟨(-n).toNat, by omega, by omega⟩

/-- With a negative length neither loop of `_dot_product_avx512` runs. -/
theorem _dot_product_avx512_negative (n : Int) (hn : n < 0) (m : Machine α) :
    _dot_product_avx512 n m
      = .ok ((), (m.put (laneAcc (setzero_ps : Lanes 16 α) 0 16 0)).log
          (.storeResult :: updates 16)) := by
  obtain ⟨k, hk, rfl⟩ := exists_neg_natCast n hn
  have hmod : Int.tmod (-(k : Int)) 16 = -((k % 16 : Nat) : Int) := tmod_neg_natCast k 16
  have hlanes := fun v m' => _dot_product_avx512_lanes_exact (α := α) v 16 0 m' (by omega)
  unfold _dot_product_avx512
  rw [hmod, _dot_product_avx512.bulk, dif_neg (by omega), pure_bind_run,
    K.bind_eq (storeResult_eq _ _), show (0 : Int) = ((0 : Nat) : Int) from rfl,
    K.bind_eq (hlanes _ _), _dot_product_avx512.leftover, dif_neg (by omega)]
  simp only [Machine.log_put, Machine.put_put, Machine.log_log, Machine.put_result,
    Machine.log_result, List.cons_append, List.nil_append, List.singleton_append]
  rfl

/-- With a negative length neither loop of `_squared_l2_avx512` runs. -/
theorem _squared_l2_avx512_negative (n : Int) (hn : n < 0) (m : Machine α) :
    _squared_l2_avx512 n m
      = .ok ((), (m.put (sum16 (setzero_ps : Lanes 16 α))).log [.storeResult]) := by
  obtain ⟨k, hk, rfl⟩ := exists_neg_natCast n hn
  have hdiv : Int.tdiv (-(k : Int)) 16 = -((k / 16 : Nat) : Int) := tdiv_neg_natCast k 16
  unfold _squared_l2_avx512
  rw [hdiv, _squared_l2_avx512.bulk, dif_neg (by omega), pure_bind_run]
  dsimp only
  rw [_squared_l2_avx512.leftover, dif_neg (by omega), pure_bind_run,
    storeResult_eq]
  rfl

/-- With a negative length neither loop of `_dot_product_avx` runs. -/
theorem _dot_product_avx_negative (n : Int) (hn : n < 0) (m : Machine α) :
    _dot_product_avx n m
      = .ok ((), (m.put (laneAcc (setzero_ps : Lanes 8 α) 0 8 m.result)).log (updates 8)) := by
  obtain ⟨k, hk, rfl⟩ := exists_neg_natCast n hn
  have hmod : Int.tmod (-(k : Int)) 8 = -((k % 8 : Nat) : Int) := tmod_neg_natCast k 8
  have hlanes := fun v m' => _dot_product_avx_lanes_exact (α := α) v 8 0 m' (by omega)
  unfold _dot_product_avx
  rw [_dot_product_avx.bulk, hmod, dif_neg (by omega), pure_bind_run]
  dsimp only
  rw [show (0 : Int) = ((0 : Nat) : Int) from rfl, K.bind_eq (hlanes _ _),
    _dot_product_avx.leftover, dif_neg (by omega)]
  rfl

/-- With a negative length neither loop of `_squared_l2_avx` runs. -/
theorem _squared_l2_avx_negative (n : Int) (hn : n < 0) (m : Machine α) :
    _squared_l2_avx n m
      = .ok ((), (m.put (laneAcc (setzero_ps : Lanes 8 α) 0 8 0)).log [.storeResult]) := by
  obtain ⟨k, hk, rfl⟩ := exists_neg_natCast n hn
  have hmod : Int.tmod (-(k : Int)) 8 = -((k % 8 : Nat) : Int) := tmod_neg_natCast k 8
  have hlanes := fun v t m' => _squared_l2_avx_lanes_exact (α := α) v 8 0 t m' (by omega)
  unfold _squared_l2_avx
  dsimp only
  rw [_squared_l2_avx.bulk, hmod, dif_neg (by omega), pure_bind_run]
  dsimp only
  rw [_squared_l2_avx.leftover, dif_neg (by omega), pure_bind_run,
    show (0 : Int) = ((0 : Nat) : Int) from rfl, K.bind_eq (hlanes _ _ _), storeResult_eq]

/-- For `-2^34 ≤ n ≤ 0` neither loop of `_dot_product_neon` runs. -/
theorem _dot_product_neon_nonpositive (n : Int) (hn : n ≤ 0) (hlo : -17179869184 ≤ n)
    (m : Machine α) :
    _dot_product_neon n m
      = .ok ((), (m.put (neonInject (vdupq_n_f32 0) (vdupq_n_f32 0) (0 : α))).log
          [.storeResult]) := by
  obtain ⟨k, rfl⟩ : ∃ k : Nat, n = -(k : Int) := ⟨(-n).toNat, by omega⟩
  have hdiv : Int.tdiv (-(k : Int)) 8 = -((k / 8 : Nat) : Int) := tdiv_neg_natCast k 8
  have hmod : Int.tmod (-(k : Int)) 8 = -((k % 8 : Nat) : Int) := tmod_neg_natCast k 8
  have hE : (toInt32 (Int.tdiv (-(k : Int)) 8)).toNat = 0 := by
    rw [hdiv, toInt32_of_small_neg _ (by omega) (by omega)]
    omega
  have hR : (toInt32 (Int.tmod (-(k : Int)) 8)).toNat = 0 := by
    rw [hmod, toInt32_of_small_neg _ (by omega) (by omega)]
    omega
  rw [_dot_product_neon_exact (-(k : Int)) m 0 0 hE hR (Nat.zero_le _) (Nat.zero_le _)]
  rfl

theorem idleCall_of_runs {k : Int → K α Unit} {n : Int} {a b : Buf α} {r0 : α}
    {v : α} {t t0 : List Access}
    (h : k n (Machine.init a b r0) = .ok ((), ((Machine.init a b r0).put v).log t))
    (h0 : k 0 (Machine.init a b r0) = .ok ((), ((Machine.init a b r0).put v).log t0))
    (ht : inputLoads t = 0) : IdleCall k n a b r0 :=
  ⟨t, v, by rw [accesses_of_run h]; simp, ht, by rw [outcome_of_run h]; rfl,
    by rw [outcome_of_run h0]; rfl⟩

/-- C15 (amended): for every negative `n`, all buffers (readable or not) and
every prior content of the result cell, each of `_dot_product_avx512`,
`_squared_l2_avx512`, `_dot_product_avx` and `_squared_l2_avx` returns, makes no
load from either input (neither its bulk loop nor its remainder loop runs)
and leaves the same result as for `n = 0`; so does `_dot_product_neon` for
every `n` with `-2^34 ≤ n < 0`.  No law of arithmetic is used. -/
theorem idle_on_negative (n : Int) (a b : Buf α) (r0 : α) (hn : n < 0) :
    IdleOnNegative n a b r0 := by
  refine ⟨?_, ?_, ?_, ?_, fun hlo => ?_⟩
  · exact idleCall_of_runs (_dot_product_avx512_negative n hn _)
      (_dot_product_avx512_exact 0 _ (Nat.zero_le _) (Nat.zero_le _)) (by decide)
  · exact idleCall_of_runs (_squared_l2_avx512_negative n hn _)
      (_squared_l2_avx512_exact 0 _ (Nat.zero_le _) (Nat.zero_le _)) (by decide)
  · exact idleCall_of_runs (_dot_product_avx_negative n hn _)
      (_dot_product_avx_exact 0 _ (Nat.zero_le _) (Nat.zero_le _)) (by decide)
  · exact idleCall_of_runs (_squared_l2_avx_negative n hn _)
      (_squared_l2_avx_exact 0 _ (Nat.zero_le _) (Nat.zero_le _)) (by decide)
  · exact idleCall_of_runs (_dot_product_neon_nonpositive n (by omega) hlo _)
      (_dot_product_neon_nonpositive 0 (by omega) (by omega) _) (by decide)

/-- C15 (amended) at `n = -5`, `a = [1..9]`, `b = [9..1]`, result cell holding `7`. -/
theorem idle_on_negative_scenario :
    (-5 : Int) < 0 ∧ IdleOnNegative (-5) a9 b9 7 :=
  ⟨by decide, idle_on_negative (-5) a9 b9 7 (by decide)⟩

end Negative
end Math32
